import Mathlib

/-!
# AVL tree of mergeable sequence entries

A shallow embedding of `sequence_map.h` and `avl_tree_modified.h`.

* `SequenceMap` is the entry type: a recognition sequence (the key) and the
  list of enzyme acronyms (the labels) collected for it.  The key is a
  `std::string` in the program; the development is parametric in the key type
  `K` and its linear order, and `String` with its lexicographic order is the
  instance the program uses.
* `AvlNode` is a subtree: `nil` is the null pointer, `node e l r h` a node
  with element `e`, children `l` and `r` and the cached `int height` field `h`.
* Functions that take `AvlNode * & t` and rebind it return the new subtree.
  A function that would dereference a null pointer returns `none`.
* The counters of the instrumented operations are passed in and returned.
* The `int` heights are unbounded integers: a cached height never exceeds the
  number of nodes, far below the range of `int`.
* `insert` takes its entry as a value, that is, as an object of the caller;
  `insertRef` is the same function with the reference `const Comparable & x`
  made explicit, for the call whose argument is an element of the tree itself.
* The counters come in two forms: `find` and `removeCounted` count the steps in
  an unbounded integer; `findInt` and `removeCountedInt` are the same functions
  with the counter as the 32 bit `int` of the source, whose `++` wraps at
  `INT_MAX`.
-/

/-- The entry stored in the tree (`class SequenceMap`). -/
structure SequenceMap (K : Type) where
  recognition_sequence_ : K
  enzyme_acronym_ : List String
deriving DecidableEq

namespace SequenceMap

variable {K : Type}

/-- The call `v.push_back( a )` on a `std::vector<std::string>`. -/
def push_back (v : List String) (a : String) : List String := v ++ [a]

/-- The two parameter constructor: the acronym is pushed back on the empty list. -/
def mk2 (a_rec_seq : K) (an_enz_acro : String) : SequenceMap K :=
  ⟨a_rec_seq, push_back [] an_enz_acro⟩

/-- The member `getRecognitionSequence`. -/
def getRecognitionSequence (s : SequenceMap K) : K := s.recognition_sequence_

/-- The member `Merge`: the loop over the acronyms of the other entry, each
pushed back on the acronyms of this entry (the two entries are distinct objects). -/
def Merge (s other_sequence : SequenceMap K) : SequenceMap K :=
  { s with enzyme_acronym_ :=
      other_sequence.enzyme_acronym_.foldl push_back s.enzyme_acronym_ }

/-- The loop of `Merge` step by step, also for the call in which
`other_sequence` is the object itself.  `i` is the loop index, `v` the acronyms
of the object so far, `other` the acronyms of `other_sequence` when it is another
object; when it is the object itself (`aliased`), `other_sequence.enzyme_acronym_`
is the list `v` that the loop extends, and its `size( )` is read again at every
test.  Element `i` is there exactly when `i < size( )`.  `none`: the loop has
not ended after `fuel` tests. -/
def MergeLoop (aliased : Bool) (other : List String) :
    Nat → Nat → List String → Option (List String)
  | 0, _, _ => none
  | fuel + 1, i, v =>
      match (if aliased then v else other)[i]? with
      | some a => MergeLoop aliased other fuel (i + 1) (push_back v a)
      | none => some v

/-- The member `operator<`: entries are compared by recognition sequence only. -/
instance instLT [LT K] : LT (SequenceMap K) :=
  ⟨fun a b => a.recognition_sequence_ < b.recognition_sequence_⟩

instance instDecidableLT [LT K] [DecidableRel (fun a b : K => a < b)] :
    DecidableRel (fun a b : SequenceMap K => a < b) :=
  fun a b => inferInstanceAs (Decidable (a.recognition_sequence_ < b.recognition_sequence_))

end SequenceMap

/-- A subtree (`AvlNode *`): `nil` is `nullptr`. -/
inductive AvlNode (K : Type) where
  | nil : AvlNode K
  | node (element : SequenceMap K) (left right : AvlNode K) (height : Int) : AvlNode K
deriving DecidableEq

/-- The exception thrown by the public `findMin` and `findMax`. -/
inductive UnderflowException where
  | mk : UnderflowException
deriving DecidableEq

namespace AvlTree

open AvlNode

variable {K : Type}

/-- Return the height of node t or -1 if nullptr (the cached field). -/
def height : AvlNode K → Int
  | nil => -1
  | node _ _ _ h => h

/-- The member `max( lhs, rhs )`. -/
def max (lhs rhs : Int) : Int := if lhs > rhs then lhs else rhs

/-- The constant `ALLOWED_IMBALANCE`. -/
def ALLOWED_IMBALANCE : Int := 1

/-- Test if the tree is logically empty. -/
def isEmpty : AvlNode K → Bool
  | nil => true
  | node _ _ _ _ => false

/-- Single rotation with the left child; `none` when `k2` or `k2->left` is null. -/
def rotateWithLeftChild : AvlNode K → Option (AvlNode K)
  | node e2 (node e1 a b _) c _ =>
      let h2 := AvlTree.max (height b) (height c) + 1
      some (node e1 a (node e2 b c h2) (AvlTree.max (height a) h2 + 1))
  | _ => none

/-- Single rotation with the right child; `none` when `k1` or `k1->right` is null. -/
def rotateWithRightChild : AvlNode K → Option (AvlNode K)
  | node e1 a (node e2 b c _) _ =>
      let h1 := AvlTree.max (height a) (height b) + 1
      some (node e2 (node e1 a b h1) c (AvlTree.max (height c) h1 + 1))
  | _ => none

/-- Direct double rotation, left child first; `none` when `k3`, `k3->left` or
`k3->left->right` is null. -/
def doubleWithLeftChild : AvlNode K → Option (AvlNode K)
  | node e3 (node e1 a (node e2 b c _) _) d _ =>
      let h1 := AvlTree.max (height a) (height b) + 1
      let h3 := AvlTree.max (height c) (height d) + 1
      some (node e2 (node e1 a b h1) (node e3 c d h3) (AvlTree.max h1 h3 + 1))
  | _ => none

/-- Direct double rotation, right child first; `none` when `k1`, `k1->right` or
`k1->right->left` is null. -/
def doubleWithRightChild : AvlNode K → Option (AvlNode K)
  | node e1 a (node e3 (node e2 b c _) d _) _ =>
      let h1 := AvlTree.max (height a) (height b) + 1
      let h3 := AvlTree.max (height c) (height d) + 1
      some (node e2 (node e1 a b h1) (node e3 c d h3) (AvlTree.max h1 h3 + 1))
  | _ => none

/-- The last statement of `balance`: `t->height = max(height(t->left), height(t->right)) + 1`. -/
def setHeight : AvlNode K → Option (AvlNode K)
  | nil => none
  | node e l r _ => some (node e l r (AvlTree.max (height l) (height r) + 1))

/-- The member `balance`.  Reading `t->left->left` with `t->left` null, or
rotating around an absent child, gives `none`. -/
def balance : AvlNode K → Option (AvlNode K)
  | nil => some nil
  | node e l r h =>
      if height l - height r > ALLOWED_IMBALANCE then
        match l with
        | nil => none
        | node _ ll lr _ =>
            if height ll ≥ height lr then
              (rotateWithLeftChild (node e l r h)).bind setHeight
            else
              (doubleWithLeftChild (node e l r h)).bind setHeight
      else if height r - height l > ALLOWED_IMBALANCE then
        match r with
        | nil => none
        | node _ rl rr _ =>
            if height rr ≥ height rl then
              (rotateWithRightChild (node e l r h)).bind setHeight
            else
              (doubleWithRightChild (node e l r h)).bind setHeight
      else
        setHeight (node e l r h)

/-- The private `findMin( t )`: the leftmost node of the subtree, null for null. -/
def findMin : AvlNode K → AvlNode K
  | nil => nil
  | node e nil r h => node e nil r h
  | node _ (node e1 l1 r1 h1) _ _ => findMin (node e1 l1 r1 h1)

/-- The private `findMax( t )`: the rightmost node of the subtree, null for null. -/
def findMax : AvlNode K → AvlNode K
  | nil => nil
  | node e l nil h => node e l nil h
  | node _ _ (node e1 l1 r1 h1) _ => findMax (node e1 l1 r1 h1)

/-- The access `p->element`; `none` for a null pointer. -/
def element : AvlNode K → Option (SequenceMap K)
  | nil => none
  | node e _ _ _ => some e

/-- The public `findMin( )`. -/
def findMinPublic (root : AvlNode K) : Except UnderflowException (Option (SequenceMap K)) :=
  if isEmpty root then Except.error UnderflowException.mk
  else Except.ok (element (findMin root))

/-- The public `findMax( )`. -/
def findMaxPublic (root : AvlNode K) : Except UnderflowException (Option (SequenceMap K)) :=
  if isEmpty root then Except.error UnderflowException.mk
  else Except.ok (element (findMax root))

/-- The private `numberOfNodes( t )`. -/
def numberOfNodes : AvlNode K → Nat
  | nil => 0
  | node _ l r _ => numberOfNodes l + numberOfNodes r + 1

/-- In-order traversal (the order in which `printTree` prints the elements). -/
def inorder : AvlNode K → List (SequenceMap K)
  | nil => []
  | node e l r _ => inorder l ++ e :: inorder r

/-- The height of a subtree computed from its shape: -1 for an absent subtree, 0 for a leaf. -/
def trueHeight : AvlNode K → Int
  | nil => -1
  | node _ l r _ => 1 + Max.max (trueHeight l) (trueHeight r)

/-- Balance invariant: at every node the heights of the two subtrees differ by at most 1. -/
def Balanced : AvlNode K → Prop
  | nil => True
  | node _ l r _ =>
      trueHeight l ≤ trueHeight r + 1 ∧ trueHeight r ≤ trueHeight l + 1 ∧ Balanced l ∧ Balanced r

/-- Height correctness: every cached height is one more than the larger cached
height of the two children (`height` of an absent child being -1). -/
def HeightOK : AvlNode K → Prop
  | nil => True
  | node _ l r h => h = 1 + Max.max (height l) (height r) ∧ HeightOK l ∧ HeightOK r

/-- Every cached height is equal to the height of the subtree below it. -/
def CachedIsTrue : AvlNode K → Prop
  | nil => True
  | node e l r h => h = trueHeight (node e l r h) ∧ CachedIsTrue l ∧ CachedIsTrue r

/-- The AVL invariant on cached heights: balance and height correctness together. -/
def Avl : AvlNode K → Prop
  | nil => True
  | node _ l r h =>
      Avl l ∧ Avl r ∧ h = Max.max (height l) (height r) + 1 ∧
        height l ≤ height r + 1 ∧ height r ≤ height l + 1

/-- No cached height is negative (they may be out of date). -/
def HeightsNonneg : AvlNode K → Prop
  | nil => True
  | node _ l r h => 0 ≤ h ∧ HeightsNonneg l ∧ HeightsNonneg r

instance decidableBalanced : ∀ t : AvlNode K, Decidable (Balanced t)
  | nil => isTrue trivial
  | node _ l r _ =>
      have := decidableBalanced l
      have := decidableBalanced r
      (inferInstance : Decidable (trueHeight l ≤ trueHeight r + 1 ∧
        trueHeight r ≤ trueHeight l + 1 ∧ Balanced l ∧ Balanced r))

instance decidableHeightOK : ∀ t : AvlNode K, Decidable (HeightOK t)
  | nil => isTrue trivial
  | node _ l r h =>
      have := decidableHeightOK l
      have := decidableHeightOK r
      (inferInstance : Decidable (h = 1 + Max.max (height l) (height r) ∧
        HeightOK l ∧ HeightOK r))

instance decidableHeightsNonneg : ∀ t : AvlNode K, Decidable (HeightsNonneg t)
  | nil => isTrue trivial
  | node _ l r h =>
      have := decidableHeightsNonneg l
      have := decidableHeightsNonneg r
      (inferInstance : Decidable (0 ≤ h ∧ HeightsNonneg l ∧ HeightsNonneg r))

variable [LinearOrder K]

/-- The private `contains( x, t )`. -/
def contains (x : SequenceMap K) : AvlNode K → Bool
  | nil => false
  | node e l r _ =>
      if x < e then contains x l
      else if e < x then contains x r
      else true

/-- The private `insert( x, t )`; duplicates are merged and the merge path
returns before `balance`. -/
def insert (x : SequenceMap K) : AvlNode K → Option (AvlNode K)
  | nil => balance (node x nil nil 0)
  | node e l r h =>
      if x < e then
        (insert x l).bind fun l1 => balance (node e l1 r h)
      else if e < x then
        (insert x r).bind fun r1 => balance (node e l r1 h)
      else
        some (node (e.Merge x) l r h)

/-- The element of the node reached from the root of a subtree by a path
(`false` left, `true` right). -/
def elementAt : List Bool → AvlNode K → Option (SequenceMap K)
  | _, nil => none
  | [], node e _ _ _ => some e
  | false :: p, node _ l _ _ => elementAt p l
  | true :: p, node _ _ r _ => elementAt p r

/-- The reference `const Comparable & x` seen from a child: `none` for an object
outside the subtree, `some p` for the element of the node at the path `p`. -/
def refBelow (right : Bool) : Option (List Bool) → Option (List Bool)
  | some (b :: p) => if b = right then some p else none
  | _ => none

/-- The private `insert( x, t )` with the reference `x` made explicit: `ref` is
`none` when `x` is an object of the caller and `some p` when `x` is the element
of the node of the tree at the path `p` (as in `t.insert( t.findMin( ) )`), and
`x` is the value read through the reference.  At the node the reference points
to, `Merge` runs on the object itself.  The outer `none`: the call has not
returned after `fuel` tests of the loop of `Merge`; `some r`: it has ended as
`insert` does, with `r`. -/
def insertRef (fuel : Nat) (x : SequenceMap K) :
    Option (List Bool) → AvlNode K → Option (Option (AvlNode K))
  | _, nil => some (balance (node x nil nil 0))
  | ref, node e l r h =>
      if x < e then
        (insertRef fuel x (refBelow false ref) l).map fun o =>
          o.bind fun l1 => balance (node e l1 r h)
      else if e < x then
        (insertRef fuel x (refBelow true ref) r).map fun o =>
          o.bind fun r1 => balance (node e l r1 h)
      else if ref = some [] then
        (SequenceMap.MergeLoop true x.enzyme_acronym_ fuel 0 e.enzyme_acronym_).map fun v =>
          some (node ⟨e.recognition_sequence_, v⟩ l r h)
      else
        some (some (node (e.Merge x) l r h))

/-- The private `remove( x, t )` (the plain remove). -/
def remove (x : SequenceMap K) : AvlNode K → Option (AvlNode K)
  | nil => some nil
  | node e l r h =>
      if x < e then
        (remove x l).bind fun l1 => balance (node e l1 r h)
      else if e < x then
        (remove x r).bind fun r1 => balance (node e l r1 h)
      else if l ≠ nil ∧ r ≠ nil then
        (element (findMin r)).bind fun m =>
          (remove m r).bind fun r1 => balance (node m l r1 h)
      else
        balance (if l ≠ nil then l else r)

/-- The private `findRecoSeq( x, t )`: the acronyms it prints, `none` for "Not Found". -/
def findRecoSeq (x : K) : AvlNode K → Option (List String)
  | nil => none
  | node e l r _ =>
      if x < e.getRecognitionSequence then findRecoSeq x l
      else if e.getRecognitionSequence < x then findRecoSeq x r
      else some e.enzyme_acronym_

/-- The private `find( x, t, find_recursive_call )`: the result and the counter afterwards. -/
def find (x : K) : AvlNode K → Int → Bool × Int
  | nil, c => (false, c + 1)
  | node e l r _, c =>
      if x < e.getRecognitionSequence then find x l (c + 1)
      else if e.getRecognitionSequence < x then find x r (c + 1)
      else (true, c + 1)

/-- The private `remove( x, t, remove_recursive_call )` (the instrumented remove):
the new subtree, the result and the counter afterwards.  Every branch returns,
so the `balance( t )` that ends the function body is never reached. -/
def removeCounted (x : K) : AvlNode K → Int → Option (AvlNode K × Bool × Int)
  | nil, c => some (nil, false, c + 1)
  | node e l r h, c =>
      if x < e.getRecognitionSequence then
        (removeCounted x l (c + 1)).map fun p => (node e p.1 r h, p.2.1, p.2.2)
      else if e.getRecognitionSequence < x then
        (removeCounted x r (c + 1)).map fun p => (node e l p.1 h, p.2.1, p.2.2)
      else if l ≠ nil ∧ r ≠ nil then
        (element (findMin r)).bind fun m =>
          (removeCounted m.getRecognitionSequence r (c + 1)).map fun p =>
            (node m l p.1 h, p.2.1, p.2.2)
      else
        some (if l ≠ nil then l else r, true, c + 1)

/-- The public `find( x, find_recursive_call )`: 1 if the item is found, else 0,
and the counter afterwards. -/
def findPublic (x : K) (root : AvlNode K) (find_recursive_call : Int) : Int × Int :=
  ((if (find x root find_recursive_call).1 then 1 else 0),
    (find x root find_recursive_call).2)

/-- The public `remove( x, remove_recursive_call )`: the tree afterwards, 1 if the
item is removed, else 0, and the counter afterwards. -/
def removeCountedPublic (x : K) (root : AvlNode K) (remove_recursive_call : Int) :
    Option (AvlNode K × Int × Int) :=
  (removeCounted x root remove_recursive_call).map fun p =>
    (p.1, (if p.2.1 then 1 else 0), p.2.2)

/-- The largest value of the 32 bit `int`. -/
def INT_MAX : Int := 2147483647

/-- The smallest value of the 32 bit `int`. -/
def INT_MIN : Int := -2147483648

/-- The value of an `int` after `++`: the sum reduced to 32 bits in two's
complement, so `INT_MAX` is followed by `INT_MIN`. -/
def incrInt (c : Int) : Int := (c + 1 + 2147483648) % 4294967296 - 2147483648

/-- The private `find( x, t, find_recursive_call )` with the counter as the
`int` of the source: the result and the counter afterwards. -/
def findInt (x : K) : AvlNode K → Int → Bool × Int
  | nil, c => (false, incrInt c)
  | node e l r _, c =>
      if x < e.getRecognitionSequence then findInt x l (incrInt c)
      else if e.getRecognitionSequence < x then findInt x r (incrInt c)
      else (true, incrInt c)

/-- The public `find( x, find_recursive_call )` with the counter as the `int`
of the source. -/
def findPublicInt (x : K) (root : AvlNode K) (find_recursive_call : Int) : Int × Int :=
  ((if (findInt x root find_recursive_call).1 then 1 else 0),
    (findInt x root find_recursive_call).2)

/-- The private `remove( x, t, remove_recursive_call )` (the instrumented
remove) with the counter as the `int` of the source. -/
def removeCountedInt (x : K) : AvlNode K → Int → Option (AvlNode K × Bool × Int)
  | nil, c => some (nil, false, incrInt c)
  | node e l r h, c =>
      if x < e.getRecognitionSequence then
        (removeCountedInt x l (incrInt c)).map fun p => (node e p.1 r h, p.2.1, p.2.2)
      else if e.getRecognitionSequence < x then
        (removeCountedInt x r (incrInt c)).map fun p => (node e l p.1 h, p.2.1, p.2.2)
      else if l ≠ nil ∧ r ≠ nil then
        (element (findMin r)).bind fun m =>
          (removeCountedInt m.getRecognitionSequence r (incrInt c)).map fun p =>
            (node m l p.1 h, p.2.1, p.2.2)
      else
        some (if l ≠ nil then l else r, true, incrInt c)

/-- The public `remove( x, remove_recursive_call )` with the counter as the
`int` of the source. -/
def removeCountedPublicInt (x : K) (root : AvlNode K) (remove_recursive_call : Int) :
    Option (AvlNode K × Int × Int) :=
  (removeCountedInt x root remove_recursive_call).map fun p =>
    (p.1, (if p.2.1 then 1 else 0), p.2.2)

/-- A call of one of the three mutating public operations: `insert( x )`, the
plain `remove( x )`, and the instrumented `remove( x, remove_recursive_call )`
with the value the caller's counter has at the call. -/
inductive Op (K : Type) where
  | insert (x : SequenceMap K) : Op K
  | remove (x : SequenceMap K) : Op K
  | removeCounted (x : K) (remove_recursive_call : Int) : Op K

/-- The call is an insert or a plain remove. -/
def Op.plain : Op K → Bool
  | Op.insert _ => true
  | Op.remove _ => true
  | Op.removeCounted _ _ => false

/-- The tree after one call on the tree rooted at `root`. -/
def applyOp : Op K → AvlNode K → Option (AvlNode K)
  | Op.insert x, root => insert x root
  | Op.remove x, root => remove x root
  | Op.removeCounted x c, root => (removeCounted x root c).map fun p => p.1

/-- The tree after a sequence of calls, made in order. -/
def applyOps : List (Op K) → AvlNode K → Option (AvlNode K)
  | [], root => some root
  | o :: ops, root => (applyOp o root).bind (applyOps ops)

/-- Ordering invariant: the in-order traversal is strictly increasing by key. -/
def Ordered (t : AvlNode K) : Prop :=
  (inorder t).Pairwise fun a b => a.recognition_sequence_ < b.recognition_sequence_

/-- Some node of the tree holds the key `k`. -/
def HoldsKey (k : K) (t : AvlNode K) : Prop :=
  ∃ e ∈ inorder t, e.recognition_sequence_ = k

/-- The labels of the first entry of key `k` in a list of entries. -/
def labelsOf (k : K) (es : List (SequenceMap K)) : Option (List String) :=
  (es.find? fun e => decide (e.recognition_sequence_ = k)).map fun e => e.enzyme_acronym_

instance decidableOrdered (t : AvlNode K) : Decidable (Ordered t) :=
  inferInstanceAs (Decidable ((inorder t).Pairwise fun (a b : SequenceMap K) =>
    a.recognition_sequence_ < b.recognition_sequence_))

instance decidableHoldsKey (k : K) (t : AvlNode K) : Decidable (HoldsKey k t) :=
  inferInstanceAs (Decidable (∃ e ∈ inorder t, e.recognition_sequence_ = k))

/-- Specification of insert on the sorted list of entries: the entry goes to
its sorted position, or is merged into the entry that has its key. -/
def insList (x : SequenceMap K) : List (SequenceMap K) → List (SequenceMap K)
  | [] => [x]
  | e :: es =>
      if x < e then x :: e :: es
      else if e < x then e :: insList x es
      else e.Merge x :: es

/-- Specification of an insert that meets its key: the tree of the same shape
and cached heights in which every node of the key of `x` has the labels of `x`
appended to its own, and every other node is as before. -/
def mergeInto (x : SequenceMap K) : AvlNode K → AvlNode K
  | nil => nil
  | node e l r h =>
      node (if e.recognition_sequence_ = x.recognition_sequence_ then
          ⟨e.recognition_sequence_, e.enzyme_acronym_ ++ x.enzyme_acronym_⟩ else e)
        (mergeInto x l) (mergeInto x r) h

/-- The depth (root 0) of a node of key `k` and the subtree rooted at that
node, found by looking at every node, not by the search; `none` when no node
has the key. -/
def nodeOfKey (k : K) : AvlNode K → Option (Nat × AvlNode K)
  | nil => none
  | node e l r h =>
      if e.recognition_sequence_ = k then some (0, node e l r h)
      else
        match nodeOfKey k l with
        | some p => some (p.1 + 1, p.2)
        | none => (nodeOfKey k r).map fun p => (p.1 + 1, p.2)

/-- The nodes on the search path of `k` from the root: at each node the search
goes left for a smaller key, right for a larger one, and ends at an equal key or
at an absent subtree. -/
def searchPath (k : K) : AvlNode K → List (SequenceMap K)
  | nil => []
  | node e l r _ =>
      if k < e.recognition_sequence_ then e :: searchPath k l
      else if e.recognition_sequence_ < k then e :: searchPath k r
      else [e]

/-- The depth (root 0) of the leftmost node of a subtree; 0 for an absent subtree. -/
def leftmostDepth : AvlNode K → Nat
  | nil => 0
  | node _ nil _ _ => 0
  | node _ (node e1 l1 r1 h1) _ _ => leftmostDepth (node e1 l1 r1 h1) + 1

/-- Specification of remove on the list of entries: the entries of key `k` are deleted. -/
def delList (k : K) (es : List (SequenceMap K)) : List (SequenceMap K) :=
  es.filter fun e => decide (e.recognition_sequence_ ≠ k)

end AvlTree

namespace SequenceMap

variable {K : Type}

theorem foldl_push_back (v w : List String) : w.foldl push_back v = v ++ w := by
  induction w generalizing v with
  | nil => simp
  | cons a w ih => simp [List.foldl_cons, push_back, ih]

theorem Merge_eq (s other_sequence : SequenceMap K) :
    s.Merge other_sequence =
      ⟨s.recognition_sequence_, s.enzyme_acronym_ ++ other_sequence.enzyme_acronym_⟩ := by
  simp [Merge, foldl_push_back]

theorem mk2_eq (a_rec_seq : K) (an_enz_acro : String) :
    mk2 a_rec_seq an_enz_acro = ⟨a_rec_seq, [an_enz_acro]⟩ := rfl

/-- With another object as `other_sequence` the loop of `Merge` ends, with the
acronyms that `Merge` gives. -/
theorem MergeLoop_distinct (other : List String) (fuel i : Nat) (v : List String)
    (hf : other.length < fuel + i) (hi : i ≤ other.length) :
    MergeLoop false other fuel i v = some (v ++ other.drop i) := by
  induction fuel generalizing i v with
  | zero => omega
  | succ fuel ih =>
    rw [MergeLoop]
    simp only [Bool.false_eq_true, if_false]
    by_cases c : i < other.length
    · rw [List.getElem?_eq_getElem c]
      simp only
      rw [ih (i + 1) _ (by omega) (by omega), push_back, List.append_assoc,
        List.singleton_append, List.getElem_cons_drop]
    · rw [List.getElem?_eq_none (by omega)]
      simp only
      rw [List.drop_of_length_le (by omega), List.append_nil]

/-- With the object itself as `other_sequence` the loop of `Merge` never ends
once the index is below the size. -/
theorem MergeLoop_aliased (other : List String) (fuel i : Nat) (v : List String)
    (hi : i < v.length) : MergeLoop true other fuel i v = none := by
  induction fuel generalizing i v with
  | zero => rfl
  | succ fuel ih =>
    rw [MergeLoop]
    simp only [if_true, List.getElem?_eq_getElem hi]
    exact ih (i + 1) _ (by simp [push_back]; omega)

/-- For two distinct objects the loop of `Merge` gives the entry that `Merge` gives. -/
theorem MergeLoop_eq_Merge (s other_sequence : SequenceMap K) :
    MergeLoop false other_sequence.enzyme_acronym_ (other_sequence.enzyme_acronym_.length + 1) 0
        s.enzyme_acronym_ = some (s.Merge other_sequence).enzyme_acronym_ := by
  rw [MergeLoop_distinct _ _ _ _ (by omega) (by omega), Merge_eq]
  rfl

/-- C17. Merge postcondition: after `a.Merge( b )` the label list of `a` is its
old label list followed by the labels of `b`, in order and without
deduplication, and the key of `a` is unchanged (`b` is a `const` argument and is
not among the results); an entry constructed from a key and a label has that
key and the one-element label list.  The equality of the two keys is not needed. -/
theorem merge_postcondition (a b : SequenceMap K) (k : K) (label : String) :
    (a.Merge b).enzyme_acronym_ = a.enzyme_acronym_ ++ b.enzyme_acronym_ ∧
      (a.Merge b).recognition_sequence_ = a.recognition_sequence_ ∧
      (mk2 k label).enzyme_acronym_ = [label] ∧
      (mk2 k label).recognition_sequence_ = k := by
  refine ⟨?_, rfl, rfl, rfl⟩
  rw [Merge_eq]

end SequenceMap

namespace AvlTree

open AvlNode

variable {K : Type}

/-! ## Heights and the rebalancing step -/

theorem max_eq (a b : Int) : AvlTree.max a b = Max.max a b := by
  unfold AvlTree.max
  split <;> omega

@[simp] theorem height_nil : height (nil : AvlNode K) = -1 := rfl

@[simp] theorem height_node (e : SequenceMap K) (l r : AvlNode K) (h : Int) :
    height (node e l r h) = h := rfl

theorem height_ge_of_hnn : ∀ {t : AvlNode K}, HeightsNonneg t → -1 ≤ height t
  | nil, _ => by simp [height]
  | node _ _ _ _, h => by
      have := h.1
      simp only [height]
      omega

theorem hnn_of_avl : ∀ {t : AvlNode K}, Avl t → HeightsNonneg t
  | nil, _ => trivial
  | node _ l r h, ht => by
      obtain ⟨hl, hr, hh, _, _⟩ := ht
      have h1 := height_ge_of_hnn (hnn_of_avl hl)
      have h2 := height_ge_of_hnn (hnn_of_avl hr)
      exact ⟨by omega, hnn_of_avl hl, hnn_of_avl hr⟩

theorem height_ge_of_avl {t : AvlNode K} (h : Avl t) : -1 ≤ height t :=
  height_ge_of_hnn (hnn_of_avl h)

theorem height_eq_trueHeight : ∀ {t : AvlNode K}, Avl t → height t = trueHeight t
  | nil, _ => rfl
  | node _ l r h, ht => by
      obtain ⟨hl, hr, hh, _, _⟩ := ht
      have h1 := height_eq_trueHeight hl
      have h2 := height_eq_trueHeight hr
      simp only [height, trueHeight]
      omega

theorem balanced_of_avl : ∀ {t : AvlNode K}, Avl t → Balanced t
  | nil, _ => trivial
  | node _ l r h, ht => by
      obtain ⟨hl, hr, hh, h1, h2⟩ := ht
      have e1 := height_eq_trueHeight hl
      have e2 := height_eq_trueHeight hr
      exact ⟨by omega, by omega, balanced_of_avl hl, balanced_of_avl hr⟩

theorem heightOK_of_avl : ∀ {t : AvlNode K}, Avl t → HeightOK t
  | nil, _ => trivial
  | node _ l r h, ht => by
      obtain ⟨hl, hr, hh, h1, h2⟩ := ht
      exact ⟨by omega, heightOK_of_avl hl, heightOK_of_avl hr⟩

theorem cachedIsTrue_of_avl : ∀ {t : AvlNode K}, Avl t → CachedIsTrue t
  | nil, _ => trivial
  | node e l r h, ht => by
      have e0 := height_eq_trueHeight ht
      obtain ⟨hl, hr, hh, h1, h2⟩ := ht
      exact ⟨by simpa [height] using e0, cachedIsTrue_of_avl hl, cachedIsTrue_of_avl hr⟩

/-- Rebalancing keeps the in-order traversal. -/
theorem balance_inorder {t t1 : AvlNode K} (hb : balance t = some t1) :
    inorder t1 = inorder t := by
  cases t with
  | nil => simp [balance] at hb; subst hb; rfl
  | node e l r h =>
    simp only [balance] at hb
    split_ifs at hb with c1 c2
    · cases l with
      | nil => simp at hb
      | node el ll lr hl =>
        simp only at hb
        split_ifs at hb with c3
        · simp [rotateWithLeftChild, setHeight] at hb
          subst hb
          simp [inorder]
        · cases lr with
          | nil => simp [doubleWithLeftChild] at hb
          | node em b c hm =>
            simp [doubleWithLeftChild, setHeight] at hb
            subst hb
            simp [inorder]
    · cases r with
      | nil => simp at hb
      | node er rl rr hr =>
        simp only at hb
        split_ifs at hb with c3
        · simp [rotateWithRightChild, setHeight] at hb
          subst hb
          simp [inorder]
        · cases rl with
          | nil => simp [doubleWithRightChild] at hb
          | node em b c hm =>
            simp [doubleWithRightChild, setHeight] at hb
            subst hb
            simp [inorder]
    · simp [setHeight] at hb
      subst hb
      simp [inorder]

/-- Rebalancing is defined whenever no cached height below the node is negative. -/
theorem balance_hnn {e : SequenceMap K} {l r : AvlNode K} (h : Int)
    (hl : HeightsNonneg l) (hr : HeightsNonneg r) :
    ∃ t1, balance (node e l r h) = some t1 ∧ HeightsNonneg t1 := by
  have gl := height_ge_of_hnn hl
  have gr := height_ge_of_hnn hr
  simp only [balance, ALLOWED_IMBALANCE]
  split_ifs with c1 c2
  · cases l with
    | nil => simp only [height_nil] at c1; omega
    | node el ll lr h1 =>
      obtain ⟨p1, p2, p3⟩ := hl
      have g2 := height_ge_of_hnn p2
      have g3 := height_ge_of_hnn p3
      simp only
      split_ifs with c3
      · refine ⟨_, by simp [rotateWithLeftChild, setHeight]; rfl, ?_⟩
        simp only [HeightsNonneg, height_node, max_eq]
        exact ⟨by omega, p2, by omega, p3, hr⟩
      · cases lr with
        | nil => simp only [height_nil] at c3; omega
        | node em b c hm =>
          obtain ⟨q1, q2, q3⟩ := p3
          have g4 := height_ge_of_hnn q2
          have g5 := height_ge_of_hnn q3
          refine ⟨_, by simp [doubleWithLeftChild, setHeight]; rfl, ?_⟩
          simp only [HeightsNonneg, height_node, max_eq]
          exact ⟨by omega, ⟨by omega, p2, q2⟩, by omega, q3, hr⟩
  · cases r with
    | nil => simp only [height_nil] at c2; omega
    | node er rl rr h1 =>
      obtain ⟨p1, p2, p3⟩ := hr
      have g2 := height_ge_of_hnn p2
      have g3 := height_ge_of_hnn p3
      simp only
      split_ifs with c3
      · refine ⟨_, by simp [rotateWithRightChild, setHeight]; rfl, ?_⟩
        simp only [HeightsNonneg, height_node, max_eq]
        exact ⟨by omega, ⟨by omega, hl, p2⟩, p3⟩
      · cases rl with
        | nil => simp only [height_nil] at c3; omega
        | node em b c hm =>
          obtain ⟨q1, q2, q3⟩ := p2
          have g4 := height_ge_of_hnn q2
          have g5 := height_ge_of_hnn q3
          refine ⟨_, by simp [doubleWithRightChild, setHeight]; rfl, ?_⟩
          simp only [HeightsNonneg, height_node, max_eq]
          exact ⟨by omega, ⟨by omega, hl, q2⟩, by omega, q3, p3⟩
  · refine ⟨_, by simp [setHeight]; rfl, ?_⟩
    simp only [HeightsNonneg, max_eq]
    exact ⟨by omega, hl, hr⟩

/-- Rebalancing a node whose subtrees are AVL and differ in height by at most 2
gives an AVL tree, whose height is that of the taller subtree or one more; a node
that is not out of balance only has its cached height recomputed. -/
theorem balance_avl {e : SequenceMap K} {l r : AvlNode K} (h : Int)
    (hl : Avl l) (hr : Avl r) (d1 : height l ≤ height r + 2) (d2 : height r ≤ height l + 2) :
    ∃ t1, balance (node e l r h) = some t1 ∧ Avl t1 ∧
      Max.max (height l) (height r) ≤ height t1 ∧
      height t1 ≤ Max.max (height l) (height r) + 1 ∧
      (height l ≤ height r + 1 → height r ≤ height l + 1 →
        t1 = node e l r (Max.max (height l) (height r) + 1)) := by
  have gl := height_ge_of_avl hl
  have gr := height_ge_of_avl hr
  simp only [balance, ALLOWED_IMBALANCE]
  split_ifs with c1 c2
  · cases l with
    | nil => simp only [height_nil] at c1; omega
    | node el ll lr h1 =>
      obtain ⟨p1, p2, p3, p4, p5⟩ := hl
      have g2 := height_ge_of_avl p1
      have g3 := height_ge_of_avl p2
      simp only [height_node] at c1 d1 d2 gl ⊢
      split_ifs with c3
      · refine ⟨_, by simp [rotateWithLeftChild, setHeight]; rfl, ?_, ?_, ?_, ?_⟩
        · refine ⟨p1, ⟨p2, hr, ?_, ?_, ?_⟩, ?_, ?_, ?_⟩ <;>
            (try simp only [height_node, max_eq]) <;> omega
        · simp only [height_node, max_eq]; omega
        · simp only [height_node, max_eq]; omega
        · intro a1 a2; omega
      · cases lr with
        | nil => simp only [height_nil] at c3; omega
        | node em b c hm =>
          obtain ⟨q1, q2, q3, q4, q5⟩ := p2
          have g4 := height_ge_of_avl q1
          have g5 := height_ge_of_avl q2
          simp only [height_node] at c3 p3 p4 p5 g3
          refine ⟨_, by simp [doubleWithLeftChild, setHeight]; rfl, ?_, ?_, ?_, ?_⟩
          · refine ⟨⟨p1, q1, ?_, ?_, ?_⟩, ⟨q2, hr, ?_, ?_, ?_⟩, ?_, ?_, ?_⟩ <;>
            (try simp only [height_node, max_eq]) <;> omega
          · simp only [height_node, max_eq]; omega
          · simp only [height_node, max_eq]; omega
          · intro a1 a2; omega
  · cases r with
    | nil => simp only [height_nil] at c2; omega
    | node er rl rr h1 =>
      obtain ⟨p1, p2, p3, p4, p5⟩ := hr
      have g2 := height_ge_of_avl p1
      have g3 := height_ge_of_avl p2
      simp only [height_node] at c1 c2 d1 d2 gr ⊢
      split_ifs with c3
      · refine ⟨_, by simp [rotateWithRightChild, setHeight]; rfl, ?_, ?_, ?_, ?_⟩
        · refine ⟨⟨hl, p1, ?_, ?_, ?_⟩, p2, ?_, ?_, ?_⟩ <;>
            (try simp only [height_node, max_eq]) <;> omega
        · simp only [height_node, max_eq]; omega
        · simp only [height_node, max_eq]; omega
        · intro a1 a2; omega
      · cases rl with
        | nil => simp only [height_nil] at c3; omega
        | node em b c hm =>
          obtain ⟨q1, q2, q3, q4, q5⟩ := p1
          have g4 := height_ge_of_avl q1
          have g5 := height_ge_of_avl q2
          simp only [height_node] at c3 p3 p4 p5 g2
          refine ⟨_, by simp [doubleWithRightChild, setHeight]; rfl, ?_, ?_, ?_, ?_⟩
          · refine ⟨⟨hl, q1, ?_, ?_, ?_⟩, ⟨q2, p2, ?_, ?_, ?_⟩, ?_, ?_, ?_⟩ <;>
            (try simp only [height_node, max_eq]) <;> omega
          · simp only [height_node, max_eq]; omega
          · simp only [height_node, max_eq]; omega
          · intro a1 a2; omega
  · refine ⟨_, by simp [setHeight]; rfl, ?_, ?_, ?_, ?_⟩
    · refine ⟨hl, hr, ?_, ?_, ?_⟩ <;>
            (try simp only [height_node, max_eq]) <;> omega
    · simp only [height_node, max_eq]; omega
    · simp only [height_node, max_eq]; omega
    · intro a1 a2; simp only [max_eq]

/-- The height facts of `balance_avl`, in arithmetic form. -/
theorem balance_avl_height {e : SequenceMap K} {l r : AvlNode K} (h : Int)
    (hl : Avl l) (hr : Avl r) (d1 : height l ≤ height r + 2) (d2 : height r ≤ height l + 2) :
    ∃ t1, balance (node e l r h) = some t1 ∧ Avl t1 ∧
      Max.max (height l) (height r) ≤ height t1 ∧
      height t1 ≤ Max.max (height l) (height r) + 1 ∧
      (height l ≤ height r + 1 → height r ≤ height l + 1 →
        height t1 = Max.max (height l) (height r) + 1) := by
  obtain ⟨t1, e1, a1, b1, b2, b3⟩ := balance_avl (e := e) h hl hr d1 d2
  exact ⟨t1, e1, a1, b1, b2, fun c d => by rw [b3 c d]; rfl⟩

/-- Rebalancing an AVL tree changes nothing. -/
theorem balance_self {t : AvlNode K} (ht : Avl t) : balance t = some t := by
  cases t with
  | nil => rfl
  | node e l r h =>
    obtain ⟨hl, hr, hh, h1, h2⟩ := ht
    obtain ⟨t1, e1, -, -, -, e2⟩ := balance_avl (e := e) h hl hr (by omega) (by omega)
    rw [e1, e2 h1 h2, hh]

theorem balance_hnn_tree {t : AvlNode K} (ht : HeightsNonneg t) :
    ∃ t1, balance t = some t1 ∧ HeightsNonneg t1 := by
  cases t with
  | nil => exact ⟨nil, rfl, trivial⟩
  | node e l r h => exact balance_hnn h ht.2.1 ht.2.2

theorem height_nonneg_of_avl {e : SequenceMap K} {l r : AvlNode K} {h : Int}
    (ht : Avl (node e l r h)) : 0 ≤ h := (hnn_of_avl ht).1

/-- The leftmost node of a non-empty subtree holds the first entry of its in-order traversal. -/
theorem findMin_spec (e : SequenceMap K) (l r : AvlNode K) (h : Int) :
    ∃ m rest, element (findMin (node e l r h)) = some m ∧
      inorder (node e l r h) = m :: rest := by
  induction l generalizing e r h with
  | nil => exact ⟨e, inorder r, rfl, rfl⟩
  | node e1 l1 r1 h1 ih _ =>
    obtain ⟨m, rest, p1, p2⟩ := ih e1 r1 h1
    refine ⟨m, rest ++ e :: inorder r, ?_, ?_⟩
    · simpa [findMin] using p1
    · simp only [inorder] at p2 ⊢
      rw [p2]
      rfl

theorem holdsKey_node (k : K) (e : SequenceMap K) (l r : AvlNode K) (h : Int) :
    HoldsKey k (node e l r h) ↔
      HoldsKey k l ∨ e.recognition_sequence_ = k ∨ HoldsKey k r := by
  simp only [HoldsKey, inorder, List.mem_append, List.mem_cons]
  constructor
  · rintro ⟨a, ha | ha | ha, hk⟩
    · exact Or.inl ⟨a, ha, hk⟩
    · exact Or.inr (Or.inl (ha ▸ hk))
    · exact Or.inr (Or.inr ⟨a, ha, hk⟩)
  · rintro (⟨a, ha, hk⟩ | hk | ⟨a, ha, hk⟩)
    · exact ⟨a, Or.inl ha, hk⟩
    · exact ⟨e, Or.inr (Or.inl rfl), hk⟩
    · exact ⟨a, Or.inr (Or.inr ha), hk⟩

theorem numberOfNodes_eq_length (t : AvlNode K) : numberOfNodes t = (inorder t).length := by
  induction t with
  | nil => rfl
  | node e l r h ihl ihr =>
    simp only [numberOfNodes, inorder, List.length_append, List.length_cons, ihl, ihr]
    omega

theorem inorder_eq_nil {t : AvlNode K} (h : inorder t = []) : t = nil := by
  cases t with
  | nil => rfl
  | node e l r h1 => simp [inorder] at h

theorem trueHeight_ge (t : AvlNode K) : -1 ≤ trueHeight t := by
  induction t with
  | nil => simp [trueHeight]
  | node e l r h ihl ihr =>
    simp only [trueHeight]
    omega

theorem mem_inorder_of_elementAt {p : List Bool} {t : AvlNode K} {x : SequenceMap K}
    (hp : elementAt p t = some x) : x ∈ inorder t := by
  induction t generalizing p with
  | nil => simp [elementAt] at hp
  | node e l r h ihl ihr =>
    simp only [inorder, List.mem_append, List.mem_cons]
    cases p with
    | nil =>
      simp only [elementAt, Option.some.injEq] at hp
      exact Or.inr (Or.inl hp.symm)
    | cons b p =>
      cases b with
      | false => exact Or.inl (ihl hp)
      | true => exact Or.inr (Or.inr (ihr hp))

/-- The rightmost node of a non-empty subtree holds the last entry of its in-order traversal. -/
theorem findMax_spec (e : SequenceMap K) (l r : AvlNode K) (h : Int) :
    ∃ m init, element (findMax (node e l r h)) = some m ∧
      inorder (node e l r h) = init ++ [m] := by
  induction r generalizing e l h with
  | nil => exact ⟨e, inorder l, rfl, rfl⟩
  | node e1 l1 r1 h1 _ ih =>
    obtain ⟨m, init, p1, p2⟩ := ih e1 l1 h1
    refine ⟨m, inorder l ++ e :: init, ?_, ?_⟩
    · simpa [findMax] using p1
    · show inorder l ++ e :: inorder (node e1 l1 r1 h1) = inorder l ++ e :: init ++ [m]
      rw [p2]
      simp

/-- C18. The direct double rotation equals two single rotations:
`doubleWithLeftChild( k3 )` gives what `rotateWithRightChild` on the left child
of `k3` followed by `rotateWithLeftChild` on `k3` gives (shape, entries and
cached heights), and is defined when `k3` has a left child that has a right
child; symmetrically for `doubleWithRightChild`. -/
theorem double_rotation_eq_two_single (e : SequenceMap K) (l r : AvlNode K) (h : Int) :
    doubleWithLeftChild (node e l r h) =
        (rotateWithRightChild l).bind (fun l1 => rotateWithLeftChild (node e l1 r h)) ∧
      doubleWithRightChild (node e l r h) =
        (rotateWithLeftChild r).bind (fun r1 => rotateWithRightChild (node e l r1 h)) ∧
      (∀ e1 e2 a b c h1 h2, l = node e1 a (node e2 b c h2) h1 →
        ∃ t, doubleWithLeftChild (node e l r h) = some t) ∧
      (∀ e1 e2 b c d h1 h2, r = node e1 (node e2 b c h2) d h1 →
        ∃ t, doubleWithRightChild (node e l r h) = some t) := by
  refine ⟨?_, ?_, ?_, ?_⟩
  · cases l with
    | nil => rfl
    | node e1 a lr h1 =>
      cases lr with
      | nil => rfl
      | node e2 b c h2 =>
        simp [doubleWithLeftChild, rotateWithRightChild, rotateWithLeftChild]
  · cases r with
    | nil => rfl
    | node e1 rl d h1 =>
      cases rl with
      | nil => rfl
      | node e2 b c h2 =>
        simp only [doubleWithRightChild, rotateWithRightChild, rotateWithLeftChild,
          Option.some_bind, height_node, max_eq]
        rw [max_comm (Max.max (height c) (height d) + 1)]
  · rintro e1 e2 a b c h1 h2 rfl
    exact ⟨_, rfl⟩
  · rintro e1 e2 b c d h1 h2 rfl
    exact ⟨_, rfl⟩

section Operations

variable [LinearOrder K]

/-- Insertion into an AVL tree is defined, gives an AVL tree, and the height
stays or grows by one. -/
theorem insert_avl (x : SequenceMap K) {t : AvlNode K} (ht : Avl t) :
    ∃ t1, insert x t = some t1 ∧ Avl t1 ∧ height t ≤ height t1 ∧ height t1 ≤ height t + 1 := by
  induction t with
  | nil =>
    obtain ⟨t1, e1, a1, b1, b2, -⟩ :=
      balance_avl_height (e := x) (l := nil) (r := nil) 0 trivial trivial (by simp) (by simp)
    simp only [height_nil] at b1 b2 ⊢
    exact ⟨t1, e1, a1, by omega, by omega⟩
  | node e l r h ihl ihr =>
    obtain ⟨hl, hr, hh, h1, h2⟩ := ht
    simp only [insert, height_node]
    split_ifs with c1 c2
    · obtain ⟨l1, e1, a1, b1, b2⟩ := ihl hl
      obtain ⟨t1, e2, a2, b3, b4, b5⟩ :=
        balance_avl_height (e := e) (l := l1) (r := r) h a1 hr (by omega) (by omega)
      exact ⟨t1, by simp [e1, e2], a2, by omega, by omega⟩
    · obtain ⟨r1, e1, a1, b1, b2⟩ := ihr hr
      obtain ⟨t1, e2, a2, b3, b4, b5⟩ :=
        balance_avl_height (e := e) (l := l) (r := r1) h hl a1 (by omega) (by omega)
      exact ⟨t1, by simp [e1, e2], a2, by omega, by omega⟩
    · exact ⟨_, rfl, ⟨hl, hr, hh, h1, h2⟩, by simp, by simp⟩

/-- Insertion is defined on every tree without a negative cached height. -/
theorem insert_hnn (x : SequenceMap K) {t : AvlNode K} (ht : HeightsNonneg t) :
    ∃ t1, insert x t = some t1 ∧ HeightsNonneg t1 := by
  induction t with
  | nil => exact balance_hnn 0 trivial trivial
  | node e l r h ihl ihr =>
    obtain ⟨h0, hl, hr⟩ := ht
    simp only [insert]
    split_ifs with c1 c2
    · obtain ⟨l1, e1, a1⟩ := ihl hl
      obtain ⟨t1, e2, a2⟩ := balance_hnn (e := e) h a1 hr
      exact ⟨t1, by simp [e1, e2], a2⟩
    · obtain ⟨r1, e1, a1⟩ := ihr hr
      obtain ⟨t1, e2, a2⟩ := balance_hnn (e := e) h hl a1
      exact ⟨t1, by simp [e1, e2], a2⟩
    · exact ⟨_, rfl, h0, hl, hr⟩

/-- Plain removal from an AVL tree is defined, gives an AVL tree, and the
height stays or shrinks by one. -/
theorem remove_avl (x : SequenceMap K) {t : AvlNode K} (ht : Avl t) :
    ∃ t1, remove x t = some t1 ∧ Avl t1 ∧ height t - 1 ≤ height t1 ∧ height t1 ≤ height t := by
  induction t generalizing x with
  | nil => exact ⟨nil, rfl, trivial, by simp, by simp⟩
  | node e l r h ihl ihr =>
    have ht0 := ht
    obtain ⟨hl, hr, hh, h1, h2⟩ := ht
    have gl := height_ge_of_avl hl
    have gr := height_ge_of_avl hr
    simp only [remove, height_node]
    split_ifs with c1 c2 c3
    · obtain ⟨l1, e1, a1, b1, b2⟩ := ihl x hl
      obtain ⟨t1, e2, a2, b3, b4, b5⟩ :=
        balance_avl_height (e := e) (l := l1) (r := r) h a1 hr (by omega) (by omega)
      exact ⟨t1, by simp [e1, e2], a2, by omega, by omega⟩
    · obtain ⟨r1, e1, a1, b1, b2⟩ := ihr x hr
      obtain ⟨t1, e2, a2, b3, b4, b5⟩ :=
        balance_avl_height (e := e) (l := l) (r := r1) h hl a1 (by omega) (by omega)
      exact ⟨t1, by simp [e1, e2], a2, by omega, by omega⟩
    · cases r with
      | nil => exact absurd rfl c3.2
      | node er rl rr h3 =>
        obtain ⟨m, rest, p1, -⟩ := findMin_spec er rl rr h3
        obtain ⟨r1, e1, a1, b1, b2⟩ := ihr m hr
        obtain ⟨t1, e2, a2, b3, b4, b5⟩ :=
          balance_avl_height (e := m) (l := l) (r := r1) h hl a1 (by omega) (by omega)
        exact ⟨t1, by simp [p1, e1, e2], a2, by omega, by omega⟩
    · rename_i c4
      have hr0 : r = nil := by
        by_contra c5
        exact c3 ⟨c4, c5⟩
      subst hr0
      cases l with
      | nil => exact absurd rfl c4
      | node el ll lr h3 =>
        have g0 := height_nonneg_of_avl hl
        refine ⟨node el ll lr h3, balance_self hl, hl, ?_, ?_⟩ <;>
          simp only [height_nil, height_node] at hh h1 h2 gl ⊢ <;> omega
    · rename_i c4
      have hl0 : l = nil := not_not.mp c4
      subst hl0
      refine ⟨r, balance_self hr, hr, ?_, ?_⟩ <;>
        simp only [height_nil] at hh <;> omega

/-- Plain removal is defined on every tree without a negative cached height. -/
theorem remove_hnn (x : SequenceMap K) {t : AvlNode K} (ht : HeightsNonneg t) :
    ∃ t1, remove x t = some t1 ∧ HeightsNonneg t1 := by
  induction t generalizing x with
  | nil => exact ⟨nil, rfl, trivial⟩
  | node e l r h ihl ihr =>
    obtain ⟨h0, hl, hr⟩ := ht
    simp only [remove]
    split_ifs with c1 c2 c3
    · obtain ⟨l1, e1, a1⟩ := ihl x hl
      obtain ⟨t1, e2, a2⟩ := balance_hnn (e := e) h a1 hr
      exact ⟨t1, by simp [e1, e2], a2⟩
    · obtain ⟨r1, e1, a1⟩ := ihr x hr
      obtain ⟨t1, e2, a2⟩ := balance_hnn (e := e) h hl a1
      exact ⟨t1, by simp [e1, e2], a2⟩
    · cases r with
      | nil => exact absurd rfl c3.2
      | node er rl rr h3 =>
        obtain ⟨m, rest, p1, -⟩ := findMin_spec er rl rr h3
        obtain ⟨r1, e1, a1⟩ := ihr m hr
        obtain ⟨t1, e2, a2⟩ := balance_hnn (e := m) h hl a1
        exact ⟨t1, by simp [p1, e1, e2], a2⟩
    · exact balance_hnn_tree hl
    · exact balance_hnn_tree hr

/-- Inserts and plain removes, started from an AVL tree, are all defined and end in an AVL tree. -/
theorem applyOps_avl (ops : List (Op K)) (hp : ∀ o ∈ ops, Op.plain o = true)
    {t : AvlNode K} (ht : Avl t) : ∃ t1, applyOps ops t = some t1 ∧ Avl t1 := by
  induction ops generalizing t with
  | nil => exact ⟨t, rfl, ht⟩
  | cons o ops ih =>
    have hp1 : ∀ o1 ∈ ops, Op.plain o1 = true := fun o1 h1 => hp o1 (List.mem_cons_of_mem _ h1)
    have hp0 := hp o (List.mem_cons_self _ _)
    cases o with
    | insert x =>
      obtain ⟨t1, e1, a1, -, -⟩ := insert_avl x ht
      obtain ⟨t2, e2, a2⟩ := ih hp1 a1
      exact ⟨t2, by simp [applyOps, applyOp, e1, e2], a2⟩
    | remove x =>
      obtain ⟨t1, e1, a1, -, -⟩ := remove_avl x ht
      obtain ⟨t2, e2, a2⟩ := ih hp1 a1
      exact ⟨t2, by simp [applyOps, applyOp, e1, e2], a2⟩
    | removeCounted x c => simp [Op.plain] at hp0

end Operations

/-! ## Size of an AVL tree -/

theorem two_pow_le_fib_sq : ∀ k : Nat, 2 ^ (k + 2) ≤ Nat.fib (k + 3) ^ 2
  | 0 => by decide
  | 1 => by decide
  | k + 2 => by
      have ih := two_pow_le_fib_sq k
      have h1 : Nat.fib (k + 2 + 3) = Nat.fib (k + 3) + Nat.fib (k + 4) := Nat.fib_add_two
      have h2 : Nat.fib (k + 3) ≤ Nat.fib (k + 4) := Nat.fib_mono (by omega)
      have h3 : 2 * Nat.fib (k + 3) ≤ Nat.fib (k + 2 + 3) := by omega
      calc 2 ^ (k + 2 + 2) = 4 * 2 ^ (k + 2) := by ring
        _ ≤ 4 * Nat.fib (k + 3) ^ 2 := by omega
        _ = (2 * Nat.fib (k + 3)) ^ 2 := by ring
        _ ≤ Nat.fib (k + 2 + 3) ^ 2 := Nat.pow_le_pow_left h3 2

/-- An AVL tree of height `n - 1` has at least `fib (n + 2) - 1` nodes. -/
theorem fib_le_numberOfNodes {t : AvlNode K} (ht : Avl t) :
    ∀ n : Nat, height t + 1 = (n : Int) → Nat.fib (n + 2) ≤ numberOfNodes t + 1 := by
  induction t with
  | nil =>
    intro n hn
    simp only [height_nil] at hn
    have : n = 0 := by omega
    subst this
    simp [numberOfNodes]
  | node e l r h ihl ihr =>
    intro n hn
    obtain ⟨hl, hr, hh, h1, h2⟩ := ht
    have gl := height_ge_of_avl hl
    have gr := height_ge_of_avl hr
    obtain ⟨nl, el⟩ := Int.eq_ofNat_of_zero_le (a := height l + 1) (by omega)
    obtain ⟨nr, er⟩ := Int.eq_ofNat_of_zero_le (a := height r + 1) (by omega)
    have pl := ihl hl nl el
    have pr := ihr hr nr er
    simp only [height_node] at hn
    simp only [numberOfNodes]
    rcases le_total nl nr with c | c
    · have hn1 : n = nr + 1 := by omega
      have hn2 : nr ≤ nl + 1 := by omega
      subst hn1
      have f1 : Nat.fib (nr + 1 + 2) = Nat.fib (nr + 1) + Nat.fib (nr + 2) := Nat.fib_add_two
      have f2 : Nat.fib (nr + 1) ≤ Nat.fib (nl + 2) := Nat.fib_mono (by omega)
      omega
    · have hn1 : n = nl + 1 := by omega
      have hn2 : nl ≤ nr + 1 := by omega
      subst hn1
      have f1 : Nat.fib (nl + 1 + 2) = Nat.fib (nl + 1) + Nat.fib (nl + 2) := Nat.fib_add_two
      have f2 : Nat.fib (nl + 1) ≤ Nat.fib (nr + 2) := Nat.fib_mono (by omega)
      omega

/-! ## Sorted lists of entries -/

section Lists

variable [LinearOrder K]

theorem lt_def (a b : SequenceMap K) :
    a < b ↔ a.recognition_sequence_ < b.recognition_sequence_ := Iff.rfl

theorem insList_append_lt (x e : SequenceMap K) (l r : List (SequenceMap K))
    (hx : x.recognition_sequence_ < e.recognition_sequence_) :
    insList x (l ++ e :: r) = insList x l ++ e :: r := by
  induction l with
  | nil => simp [insList, lt_def, hx]
  | cons a l ih =>
    simp only [List.cons_append, insList]
    split_ifs <;> simp [ih]

theorem insList_append_gt (x e : SequenceMap K) (l r : List (SequenceMap K))
    (hl : ∀ a ∈ l, a.recognition_sequence_ < e.recognition_sequence_)
    (hx : e.recognition_sequence_ < x.recognition_sequence_) :
    insList x (l ++ e :: r) = l ++ e :: insList x r := by
  induction l with
  | nil => simp [insList, lt_def, hx, not_lt_of_lt hx]
  | cons a l ih =>
    have h1 : a.recognition_sequence_ < x.recognition_sequence_ :=
      lt_trans (hl a (List.mem_cons_self _ _)) hx
    have ih1 := ih fun b hb => hl b (List.mem_cons_of_mem _ hb)
    simp only [List.cons_append, insList, lt_def, h1, not_lt_of_lt h1, if_true, if_false]
    exact congrArg (List.cons a) ih1

theorem insList_append_eq (x e : SequenceMap K) (l r : List (SequenceMap K))
    (hl : ∀ a ∈ l, a.recognition_sequence_ < e.recognition_sequence_)
    (h1 : ¬ x.recognition_sequence_ < e.recognition_sequence_)
    (h2 : ¬ e.recognition_sequence_ < x.recognition_sequence_) :
    insList x (l ++ e :: r) = l ++ e.Merge x :: r := by
  have hk : x.recognition_sequence_ = e.recognition_sequence_ :=
    le_antisymm (not_lt.mp h2) (not_lt.mp h1)
  induction l with
  | nil => simp [insList, lt_def, h1, h2]
  | cons a l ih =>
    have h3 : a.recognition_sequence_ < x.recognition_sequence_ :=
      hk ▸ hl a (List.mem_cons_self _ _)
    have ih1 := ih fun b hb => hl b (List.mem_cons_of_mem _ hb)
    simp only [List.cons_append, insList, lt_def, h3, not_lt_of_lt h3, if_true, if_false]
    exact congrArg (List.cons a) ih1

theorem delList_append (k : K) (l r : List (SequenceMap K)) :
    delList k (l ++ r) = delList k l ++ delList k r := by
  simp [delList]

theorem delList_eq_self (k : K) (l : List (SequenceMap K))
    (h : ∀ a ∈ l, a.recognition_sequence_ ≠ k) : delList k l = l := by
  simp only [delList, List.filter_eq_self]
  intro a ha
  simpa using h a ha

theorem delList_cons_ne (k : K) (e : SequenceMap K) (l : List (SequenceMap K))
    (h : e.recognition_sequence_ ≠ k) : delList k (e :: l) = e :: delList k l := by
  simp [delList, h]

theorem delList_cons_eq (k : K) (e : SequenceMap K) (l : List (SequenceMap K))
    (h : e.recognition_sequence_ = k) : delList k (e :: l) = delList k l := by
  simp [delList, h]

theorem mem_delList {k : K} {l : List (SequenceMap K)} {a : SequenceMap K} :
    a ∈ delList k l ↔ a ∈ l ∧ a.recognition_sequence_ ≠ k := by
  simp [delList]

theorem pairwise_delList (k : K) {l : List (SequenceMap K)}
    (h : l.Pairwise fun a b => a.recognition_sequence_ < b.recognition_sequence_) :
    (delList k l).Pairwise fun a b => a.recognition_sequence_ < b.recognition_sequence_ :=
  h.sublist (List.filter_sublist l)

theorem key_of_mem_insList {x a : SequenceMap K} {l : List (SequenceMap K)}
    (h : a ∈ insList x l) :
    a.recognition_sequence_ = x.recognition_sequence_ ∨
      ∃ b ∈ l, b.recognition_sequence_ = a.recognition_sequence_ := by
  induction l with
  | nil =>
    simp only [insList, List.mem_singleton] at h
    exact Or.inl (by rw [h])
  | cons e l ih =>
    simp only [insList] at h
    split_ifs at h with c1 c2
    · rcases List.mem_cons.mp h with h | h
      · exact Or.inl (by rw [h])
      · exact Or.inr ⟨a, h, rfl⟩
    · rcases List.mem_cons.mp h with h | h
      · exact Or.inr ⟨e, List.mem_cons_self _ _, by rw [h]⟩
      · rcases ih h with h | ⟨b, hb, hk⟩
        · exact Or.inl h
        · exact Or.inr ⟨b, List.mem_cons_of_mem _ hb, hk⟩
    · rcases List.mem_cons.mp h with h | h
      · exact Or.inr ⟨e, List.mem_cons_self _ _, by rw [h]; rfl⟩
      · exact Or.inr ⟨a, List.mem_cons_of_mem _ h, rfl⟩

theorem pairwise_insList (x : SequenceMap K) {l : List (SequenceMap K)}
    (h : l.Pairwise fun a b => a.recognition_sequence_ < b.recognition_sequence_) :
    (insList x l).Pairwise fun a b => a.recognition_sequence_ < b.recognition_sequence_ := by
  induction l with
  | nil => simp [insList]
  | cons e l ih =>
    obtain ⟨h1, h2⟩ := List.pairwise_cons.mp h
    simp only [insList, lt_def]
    split_ifs with c1 c2
    · refine List.pairwise_cons.mpr ⟨?_, h⟩
      intro a ha
      rcases List.mem_cons.mp ha with ha | ha
      · rw [ha]; exact c1
      · exact lt_trans c1 (h1 a ha)
    · refine List.pairwise_cons.mpr ⟨?_, ih h2⟩
      intro a ha
      rcases key_of_mem_insList ha with hk | ⟨b, hb, hk⟩
      · rw [hk]; exact c2
      · rw [← hk]; exact h1 b hb
    · exact List.pairwise_cons.mpr ⟨h1, h2⟩

theorem delList_node_lt (k : K) (e : SequenceMap K) (l r : List (SequenceMap K))
    (hr : ∀ b ∈ r, e.recognition_sequence_ < b.recognition_sequence_)
    (hk : k < e.recognition_sequence_) :
    delList k (l ++ e :: r) = delList k l ++ e :: r := by
  rw [delList_append, delList_cons_ne k e r (ne_of_gt hk),
    delList_eq_self k r fun b hb => ne_of_gt (lt_trans hk (hr b hb))]

theorem delList_node_gt (k : K) (e : SequenceMap K) (l r : List (SequenceMap K))
    (hl : ∀ a ∈ l, a.recognition_sequence_ < e.recognition_sequence_)
    (hk : e.recognition_sequence_ < k) :
    delList k (l ++ e :: r) = l ++ e :: delList k r := by
  rw [delList_append, delList_cons_ne k e r (ne_of_lt hk),
    delList_eq_self k l fun a ha => ne_of_lt (lt_trans (hl a ha) hk)]

theorem delList_node_eq (k : K) (e : SequenceMap K) (l r : List (SequenceMap K))
    (hl : ∀ a ∈ l, a.recognition_sequence_ < e.recognition_sequence_)
    (hr : ∀ b ∈ r, e.recognition_sequence_ < b.recognition_sequence_)
    (hk : e.recognition_sequence_ = k) :
    delList k (l ++ e :: r) = l ++ r := by
  rw [delList_append, delList_cons_eq k e r hk,
    delList_eq_self k l fun a ha => ne_of_lt (hk ▸ hl a ha),
    delList_eq_self k r fun b hb => ne_of_gt (hk ▸ hr b hb)]

theorem ordered_node {e : SequenceMap K} {l r : AvlNode K} {h : Int}
    (ht : Ordered (node e l r h)) :
    Ordered l ∧ Ordered r ∧
      (∀ a ∈ inorder l, a.recognition_sequence_ < e.recognition_sequence_) ∧
      (∀ b ∈ inorder r, e.recognition_sequence_ < b.recognition_sequence_) := by
  simp only [Ordered, inorder, List.pairwise_append, List.pairwise_cons] at ht
  obtain ⟨p1, ⟨p2, p3⟩, p4⟩ := ht
  exact ⟨p1, p3, fun a ha => p4 a ha e (List.mem_cons_self _ _), p2⟩

theorem ordered_node_of {e : SequenceMap K} {l r : AvlNode K} (h : Int)
    (hl : Ordered l) (hr : Ordered r)
    (h1 : ∀ a ∈ inorder l, a.recognition_sequence_ < e.recognition_sequence_)
    (h2 : ∀ b ∈ inorder r, e.recognition_sequence_ < b.recognition_sequence_) :
    Ordered (node e l r h) := by
  simp only [Ordered, inorder, List.pairwise_append, List.pairwise_cons]
  refine ⟨hl, ⟨h2, hr⟩, ?_⟩
  intro a ha b hb
  rcases List.mem_cons.mp hb with hb | hb
  · rw [hb]; exact h1 a ha
  · exact lt_trans (h1 a ha) (h2 b hb)

/-- On an ordered tree, insert acts on the in-order traversal as `insList`. -/
theorem insert_inorder (x : SequenceMap K) {t t1 : AvlNode K} (ht : Ordered t)
    (hi : insert x t = some t1) : inorder t1 = insList x (inorder t) := by
  induction t generalizing t1 with
  | nil =>
    simp only [insert] at hi
    rw [balance_inorder hi]
    rfl
  | node e l r h ihl ihr =>
    obtain ⟨ol, or, h1, h2⟩ := ordered_node ht
    simp only [insert, lt_def] at hi
    split_ifs at hi with c1 c2
    · obtain ⟨l1, e1, e2⟩ := Option.bind_eq_some.mp hi
      rw [balance_inorder e2]
      simp only [inorder]
      rw [ihl ol e1, insList_append_lt x e _ _ c1]
    · obtain ⟨r1, e1, e2⟩ := Option.bind_eq_some.mp hi
      rw [balance_inorder e2]
      simp only [inorder]
      rw [ihr or e1, insList_append_gt x e _ _ h1 c2]
    · simp only [Option.some.injEq] at hi
      subst hi
      simp only [inorder]
      rw [insList_append_eq x e _ _ h1 c1 c2]

/-- On an ordered tree, the plain remove acts on the in-order traversal as `delList`. -/
theorem remove_inorder (x : SequenceMap K) {t t1 : AvlNode K} (ht : Ordered t)
    (hi : remove x t = some t1) :
    inorder t1 = delList x.recognition_sequence_ (inorder t) := by
  induction t generalizing x t1 with
  | nil =>
    simp only [remove, Option.some.injEq] at hi
    subst hi
    rfl
  | node e l r h ihl ihr =>
    obtain ⟨ol, or, h1, h2⟩ := ordered_node ht
    simp only [remove, lt_def] at hi
    split_ifs at hi with c1 c2 c3 c4
    · obtain ⟨l1, e1, e2⟩ := Option.bind_eq_some.mp hi
      rw [balance_inorder e2]
      simp only [inorder]
      rw [ihl x ol e1, delList_node_lt _ e _ _ h2 c1]
    · obtain ⟨r1, e1, e2⟩ := Option.bind_eq_some.mp hi
      rw [balance_inorder e2]
      simp only [inorder]
      rw [ihr x or e1, delList_node_gt _ e _ _ h1 c2]
    · have hk : e.recognition_sequence_ = x.recognition_sequence_ :=
        le_antisymm (not_lt.mp c1) (not_lt.mp c2)
      cases r with
      | nil => exact absurd rfl c3.2
      | node er rl rr h3 =>
        obtain ⟨m, rest, p1, p2⟩ := findMin_spec er rl rr h3
        simp only [p1, Option.some_bind] at hi
        obtain ⟨r1, e1, e2⟩ := Option.bind_eq_some.mp hi
        have e3 := ihr m or e1
        have om : ∀ b ∈ rest, m.recognition_sequence_ < b.recognition_sequence_ := by
          have := or
          simp only [Ordered, p2, List.pairwise_cons] at this
          exact this.1
        rw [p2, delList_cons_eq _ m rest rfl,
          delList_eq_self _ rest fun b hb => ne_of_gt (om b hb)] at e3
        rw [balance_inorder e2]
        have e4 := delList_node_eq _ e _ _ h1 h2 hk
        show inorder l ++ m :: inorder r1 =
          delList _ (inorder l ++ e :: inorder (node er rl rr h3))
        rw [e4, e3, p2]
    · have hk : e.recognition_sequence_ = x.recognition_sequence_ :=
        le_antisymm (not_lt.mp c1) (not_lt.mp c2)
      have hr0 : r = nil := by
        by_contra c5
        exact c3 ⟨c4, c5⟩
      subst hr0
      rw [balance_inorder hi]
      have e4 := delList_node_eq _ e _ _ h1 h2 hk
      simpa [inorder] using e4.symm
    · have hk : e.recognition_sequence_ = x.recognition_sequence_ :=
        le_antisymm (not_lt.mp c1) (not_lt.mp c2)
      have hl0 : l = nil := not_not.mp c4
      subst hl0
      rw [balance_inorder hi]
      have e4 := delList_node_eq _ e _ _ h1 h2 hk
      simpa [inorder] using e4.symm

/-- The instrumented remove is defined on every tree and cannot make a cached
height negative. -/
theorem removeCounted_total (k : K) (t : AvlNode K) (c : Int) :
    ∃ p, removeCounted k t c = some p ∧ (HeightsNonneg t → HeightsNonneg p.1) := by
  induction t generalizing k c with
  | nil => exact ⟨_, rfl, fun _ => trivial⟩
  | node e l r h ihl ihr =>
    simp only [removeCounted]
    split_ifs with c1 c2 c3 c4
    · obtain ⟨p, e1, a1⟩ := ihl k (c + 1)
      exact ⟨(node e p.1 r h, p.2.1, p.2.2), by rw [e1]; rfl,
        fun hn => ⟨hn.1, a1 hn.2.1, hn.2.2⟩⟩
    · obtain ⟨p, e1, a1⟩ := ihr k (c + 1)
      exact ⟨(node e l p.1 h, p.2.1, p.2.2), by rw [e1]; rfl,
        fun hn => ⟨hn.1, hn.2.1, a1 hn.2.2⟩⟩
    · cases r with
      | nil => exact absurd rfl c3.2
      | node er rl rr h3 =>
        obtain ⟨m, rest, p1, -⟩ := findMin_spec er rl rr h3
        obtain ⟨p, e1, a1⟩ := ihr m.getRecognitionSequence (c + 1)
        exact ⟨(node m l p.1 h, p.2.1, p.2.2), by rw [p1, Option.some_bind, e1]; rfl,
          fun hn => ⟨hn.1, hn.2.1, a1 hn.2.2⟩⟩
    · exact ⟨(l, true, c + 1), rfl, fun hn => hn.2.1⟩
    · exact ⟨(r, true, c + 1), rfl, fun hn => hn.2.2⟩

/-- On an ordered tree, the instrumented remove acts on the in-order traversal as `delList`. -/
theorem removeCounted_inorder (k : K) {t : AvlNode K} (c : Int)
    {p : AvlNode K × Bool × Int} (ht : Ordered t) (hi : removeCounted k t c = some p) :
    inorder p.1 = delList k (inorder t) := by
  induction t generalizing k c p with
  | nil =>
    simp only [removeCounted, Option.some.injEq] at hi
    subst hi
    rfl
  | node e l r h ihl ihr =>
    obtain ⟨ol, or, h1, h2⟩ := ordered_node ht
    simp only [removeCounted, SequenceMap.getRecognitionSequence] at hi
    split_ifs at hi with c1 c2 c3 c4
    · obtain ⟨q, e1, e2⟩ := Option.map_eq_some'.mp hi
      subst e2
      simp only [inorder]
      rw [ihl k (c + 1) ol e1, delList_node_lt _ e _ _ h2 c1]
    · obtain ⟨q, e1, e2⟩ := Option.map_eq_some'.mp hi
      subst e2
      simp only [inorder]
      rw [ihr k (c + 1) or e1, delList_node_gt _ e _ _ h1 c2]
    · have hk : e.recognition_sequence_ = k := le_antisymm (not_lt.mp c1) (not_lt.mp c2)
      cases r with
      | nil => exact absurd rfl c3.2
      | node er rl rr h3 =>
        obtain ⟨m, rest, p1, p2⟩ := findMin_spec er rl rr h3
        simp only [p1, Option.some_bind] at hi
        obtain ⟨q, e1, e2⟩ := Option.map_eq_some'.mp hi
        have e3 := ihr m.recognition_sequence_ (c + 1) or e1
        have om : ∀ b ∈ rest, m.recognition_sequence_ < b.recognition_sequence_ := by
          have := or
          simp only [Ordered, p2, List.pairwise_cons] at this
          exact this.1
        rw [p2, delList_cons_eq _ m rest rfl,
          delList_eq_self _ rest fun b hb => ne_of_gt (om b hb)] at e3
        subst e2
        have e4 := delList_node_eq _ e _ _ h1 h2 hk
        show inorder l ++ m :: inorder q.1 =
          delList _ (inorder l ++ e :: inorder (node er rl rr h3))
        rw [e4, e3, p2]
    · have hk : e.recognition_sequence_ = k := le_antisymm (not_lt.mp c1) (not_lt.mp c2)
      have hr0 : r = nil := by
        by_contra c5
        exact c3 ⟨c4, c5⟩
      subst hr0
      simp only [Option.some.injEq] at hi
      subst hi
      have e4 := delList_node_eq _ e _ _ h1 h2 hk
      simpa [inorder] using e4.symm
    · have hk : e.recognition_sequence_ = k := le_antisymm (not_lt.mp c1) (not_lt.mp c2)
      have hl0 : l = nil := not_not.mp c4
      subst hl0
      simp only [Option.some.injEq] at hi
      subst hi
      have e4 := delList_node_eq _ e _ _ h1 h2 hk
      simpa [inorder] using e4.symm

theorem insert_ordered (x : SequenceMap K) {t t1 : AvlNode K} (ht : Ordered t)
    (hi : insert x t = some t1) : Ordered t1 := by
  unfold Ordered
  rw [insert_inorder x ht hi]
  exact pairwise_insList x ht

theorem remove_ordered (x : SequenceMap K) {t t1 : AvlNode K} (ht : Ordered t)
    (hi : remove x t = some t1) : Ordered t1 := by
  unfold Ordered
  rw [remove_inorder x ht hi]
  exact pairwise_delList _ ht

theorem removeCounted_ordered (k : K) {t : AvlNode K} (c : Int)
    {p : AvlNode K × Bool × Int} (ht : Ordered t) (hi : removeCounted k t c = some p) :
    Ordered p.1 := by
  unfold Ordered
  rw [removeCounted_inorder k c ht hi]
  exact pairwise_delList _ ht

/-- Every call is defined on a tree without negative cached heights, and an
ordered tree stays ordered. -/
theorem applyOp_ordered (o : Op K) {t : AvlNode K} (hn : HeightsNonneg t) (ht : Ordered t) :
    ∃ t1, applyOp o t = some t1 ∧ HeightsNonneg t1 ∧ Ordered t1 := by
  cases o with
  | insert x =>
    obtain ⟨t1, e1, a1⟩ := insert_hnn x hn
    exact ⟨t1, e1, a1, insert_ordered x ht e1⟩
  | remove x =>
    obtain ⟨t1, e1, a1⟩ := remove_hnn x hn
    exact ⟨t1, e1, a1, remove_ordered x ht e1⟩
  | removeCounted k c =>
    obtain ⟨p, e1, a1⟩ := removeCounted_total k t c
    exact ⟨p.1, by simp [applyOp, e1], a1 hn, removeCounted_ordered k c ht e1⟩

theorem applyOps_ordered (ops : List (Op K)) {t : AvlNode K} (hn : HeightsNonneg t)
    (ht : Ordered t) : ∃ t1, applyOps ops t = some t1 ∧ HeightsNonneg t1 ∧ Ordered t1 := by
  induction ops generalizing t with
  | nil => exact ⟨t, rfl, hn, ht⟩
  | cons o ops ih =>
    obtain ⟨t1, e1, a1, b1⟩ := applyOp_ordered o hn ht
    obtain ⟨t2, e2, a2, b2⟩ := ih a1 b1
    exact ⟨t2, by simp [applyOps, e1, e2], a2, b2⟩

/-- On an ordered tree `contains` finds exactly the keys that some node holds. -/
theorem contains_iff (x : SequenceMap K) {t : AvlNode K} (ht : Ordered t) :
    contains x t = true ↔ HoldsKey x.recognition_sequence_ t := by
  induction t with
  | nil => simp [contains, HoldsKey, inorder]
  | node e l r h ihl ihr =>
    obtain ⟨ol, or, h1, h2⟩ := ordered_node ht
    rw [holdsKey_node]
    simp only [contains, lt_def]
    split_ifs with c1 c2
    · rw [ihl ol]
      constructor
      · exact Or.inl
      · rintro (h3 | h3 | ⟨b, hb, hk⟩)
        · exact h3
        · exact absurd c1 (by rw [h3]; exact lt_irrefl _)
        · exact absurd (lt_trans c1 (h2 b hb)) (by rw [hk]; exact lt_irrefl _)
    · rw [ihr or]
      constructor
      · exact fun h3 => Or.inr (Or.inr h3)
      · rintro (⟨a, ha, hk⟩ | h3 | h3)
        · exact absurd (lt_trans (h1 a ha) c2) (by rw [hk]; exact lt_irrefl _)
        · exact absurd c2 (by rw [h3]; exact lt_irrefl _)
        · exact h3
    · simp only [true_iff]
      exact Or.inr (Or.inl (le_antisymm (not_lt.mp c1) (not_lt.mp c2)))

/-- The plain remove of a key that no node holds leaves an AVL tree as it is. -/
theorem remove_absent (x : SequenceMap K) {t : AvlNode K} (ht : Avl t)
    (hx : ¬ HoldsKey x.recognition_sequence_ t) : remove x t = some t := by
  induction t with
  | nil => rfl
  | node e l r h ihl ihr =>
    rw [holdsKey_node] at hx
    push_neg at hx
    obtain ⟨x1, x2, x3⟩ := hx
    have ht0 := ht
    obtain ⟨hl, hr, -, -, -⟩ := ht
    simp only [remove, lt_def]
    split_ifs with c1 c2 c3 c4
    · rw [ihl hl x1]
      exact balance_self ht0
    · rw [ihr hr x3]
      exact balance_self ht0
    · exact absurd (le_antisymm (not_lt.mp c1) (not_lt.mp c2)) x2
    · exact absurd (le_antisymm (not_lt.mp c1) (not_lt.mp c2)) x2
    · exact absurd (le_antisymm (not_lt.mp c1) (not_lt.mp c2)) x2

/-- Deleting a key that one entry of a strictly increasing list has removes that entry only. -/
theorem delList_split (k : K) {es : List (SequenceMap K)}
    (hs : es.Pairwise fun a b => a.recognition_sequence_ < b.recognition_sequence_)
    (hk : ∃ e ∈ es, e.recognition_sequence_ = k) :
    ∃ l e r, es = l ++ e :: r ∧ e.recognition_sequence_ = k ∧ delList k es = l ++ r := by
  obtain ⟨e, he, hek⟩ := hk
  obtain ⟨l, r, hes⟩ := List.append_of_mem he
  subst hes
  simp only [List.pairwise_append, List.pairwise_cons] at hs
  obtain ⟨-, ⟨p2, -⟩, p4⟩ := hs
  exact ⟨l, e, r, rfl, hek,
    delList_node_eq k e l r (fun a ha => p4 a ha e (List.mem_cons_self _ _)) p2 hek⟩

/-- A run of inserts acts on the in-order traversal as a fold of `insList`. -/
theorem applyOps_inserts (es : List (SequenceMap K)) {t : AvlNode K}
    (hn : HeightsNonneg t) (ht : Ordered t) :
    ∃ t1, applyOps (es.map Op.insert) t = some t1 ∧ HeightsNonneg t1 ∧ Ordered t1 ∧
      inorder t1 = es.foldl (fun l x => insList x l) (inorder t) := by
  induction es generalizing t with
  | nil => exact ⟨t, rfl, hn, ht, rfl⟩
  | cons x es ih =>
    obtain ⟨t1, e1, a1⟩ := insert_hnn x hn
    obtain ⟨t2, e2, a2, b2, c2⟩ := ih a1 (insert_ordered x ht e1)
    refine ⟨t2, by simp [applyOps, applyOp, e1, e2], a2, b2, ?_⟩
    rw [c2, insert_inorder x ht e1]
    rfl

/-- A run of plain removes acts on the in-order traversal as a fold of `delList`. -/
theorem applyOps_removes (rs : List (SequenceMap K)) {t : AvlNode K}
    (hn : HeightsNonneg t) (ht : Ordered t) :
    ∃ t1, applyOps (rs.map Op.remove) t = some t1 ∧ HeightsNonneg t1 ∧ Ordered t1 ∧
      inorder t1 = rs.foldl (fun l x => delList x.recognition_sequence_ l) (inorder t) := by
  induction rs generalizing t with
  | nil => exact ⟨t, rfl, hn, ht, rfl⟩
  | cons x rs ih =>
    obtain ⟨t1, e1, a1⟩ := remove_hnn x hn
    obtain ⟨t2, e2, a2, b2, c2⟩ := ih a1 (remove_ordered x ht e1)
    refine ⟨t2, by simp [applyOps, applyOp, e1, e2], a2, b2, ?_⟩
    rw [c2, remove_inorder x ht e1]
    rfl

theorem key_of_mem_foldl_insList (es : List (SequenceMap K)) {a : SequenceMap K} :
    ∀ {init : List (SequenceMap K)}, a ∈ es.foldl (fun l x => insList x l) init →
      (∃ x ∈ es, x.recognition_sequence_ = a.recognition_sequence_) ∨
        ∃ b ∈ init, b.recognition_sequence_ = a.recognition_sequence_ := by
  induction es with
  | nil => exact fun h => Or.inr ⟨a, h, rfl⟩
  | cons x es ih =>
    intro init h
    rcases ih h with ⟨y, hy, hk⟩ | ⟨b, hb, hk⟩
    · exact Or.inl ⟨y, List.mem_cons_of_mem _ hy, hk⟩
    · rcases key_of_mem_insList hb with h1 | ⟨c, hc, h1⟩
      · exact Or.inl ⟨x, List.mem_cons_self _ _, by rw [← h1, hk]⟩
      · exact Or.inr ⟨c, hc, by rw [h1, hk]⟩

theorem mem_foldl_delList (rs : List (SequenceMap K)) {a : SequenceMap K} :
    ∀ {init : List (SequenceMap K)},
      a ∈ rs.foldl (fun l x => delList x.recognition_sequence_ l) init →
      a ∈ init ∧ ∀ x ∈ rs, a.recognition_sequence_ ≠ x.recognition_sequence_ := by
  induction rs with
  | nil => exact fun h => ⟨h, fun x hx => absurd hx (List.not_mem_nil x)⟩
  | cons x rs ih =>
    intro init h
    obtain ⟨h1, h2⟩ := ih h
    obtain ⟨h3, h4⟩ := mem_delList.mp h1
    refine ⟨h3, fun y hy => ?_⟩
    rcases List.mem_cons.mp hy with hy | hy
    · rw [hy]; exact h4
    · exact h2 y hy

theorem labelsOf_cons (k : K) (e : SequenceMap K) (l : List (SequenceMap K)) :
    labelsOf k (e :: l) =
      if e.recognition_sequence_ = k then some e.enzyme_acronym_ else labelsOf k l := by
  unfold labelsOf
  by_cases h : e.recognition_sequence_ = k
  · rw [List.find?_cons_of_pos _ (by simpa using h), if_pos h]
    rfl
  · rw [List.find?_cons_of_neg _ (by simpa using h), if_neg h]

theorem labelsOf_eq_none (k : K) (l : List (SequenceMap K))
    (h : ∀ a ∈ l, a.recognition_sequence_ ≠ k) : labelsOf k l = none := by
  induction l with
  | nil => rfl
  | cons e l ih =>
    rw [labelsOf_cons, if_neg (h e (List.mem_cons_self _ _))]
    exact ih fun a ha => h a (List.mem_cons_of_mem _ ha)

theorem labelsOf_append (k : K) (l r : List (SequenceMap K)) :
    labelsOf k (l ++ r) = (labelsOf k l).or (labelsOf k r) := by
  induction l with
  | nil => simp [labelsOf]
  | cons e l ih =>
    rw [List.cons_append, labelsOf_cons, labelsOf_cons]
    split_ifs
    · rfl
    · exact ih

theorem labelsOf_isSome (k : K) (l : List (SequenceMap K)) :
    (labelsOf k l).isSome = true ↔ ∃ e ∈ l, e.recognition_sequence_ = k := by
  induction l with
  | nil => simp [labelsOf]
  | cons e l ih =>
    rw [labelsOf_cons]
    split_ifs with h
    · simp only [Option.isSome_some, true_iff]
      exact ⟨e, List.mem_cons_self _ _, h⟩
    · rw [ih]
      constructor
      · rintro ⟨a, ha, hk⟩
        exact ⟨a, List.mem_cons_of_mem _ ha, hk⟩
      · rintro ⟨a, ha, hk⟩
        rcases List.mem_cons.mp ha with ha | ha
        · exact absurd (ha ▸ hk) h
        · exact ⟨a, ha, hk⟩

/-- In a strictly increasing list the entry found for the key of a member is that member. -/
theorem labelsOf_mem {l : List (SequenceMap K)}
    (hs : l.Pairwise fun a b => a.recognition_sequence_ < b.recognition_sequence_)
    {e : SequenceMap K} (he : e ∈ l) :
    labelsOf e.recognition_sequence_ l = some e.enzyme_acronym_ := by
  induction l with
  | nil => exact absurd he (List.not_mem_nil e)
  | cons a l ih =>
    obtain ⟨h1, h2⟩ := List.pairwise_cons.mp hs
    rw [labelsOf_cons]
    rcases List.mem_cons.mp he with he | he
    · rw [he, if_pos rfl]
    · rw [if_neg (ne_of_lt (h1 e he)), ih h2 he]

/-- The labels found after `insList`: the new labels are appended to those of the key. -/
theorem labelsOf_insList (k : K) (x : SequenceMap K) {l : List (SequenceMap K)}
    (hs : l.Pairwise fun a b => a.recognition_sequence_ < b.recognition_sequence_) :
    labelsOf k (insList x l) =
      if x.recognition_sequence_ = k then
        some ((labelsOf k l).getD [] ++ x.enzyme_acronym_)
      else labelsOf k l := by
  induction l with
  | nil =>
    simp only [insList, labelsOf_cons]
    split_ifs <;> simp [labelsOf]
  | cons e l ih =>
    obtain ⟨h1, h2⟩ := List.pairwise_cons.mp hs
    simp only [insList, lt_def]
    split_ifs with c1 c2 c3 c4 c5
    · have hn : labelsOf k (e :: l) = none := by
        apply labelsOf_eq_none
        intro a ha
        rcases List.mem_cons.mp ha with ha | ha
        · rw [ha, ← c2]; exact ne_of_gt c1
        · rw [← c2]; exact ne_of_gt (lt_trans c1 (h1 a ha))
      rw [labelsOf_cons, if_pos c2, hn]
      rfl
    · rw [labelsOf_cons, if_neg c2]
    · have hne : e.recognition_sequence_ ≠ k := by rw [← c4]; exact ne_of_lt c3
      rw [labelsOf_cons, if_neg hne, ih h2, if_pos c4, labelsOf_cons, if_neg hne]
    · rw [labelsOf_cons, labelsOf_cons (e := e), ih h2, if_neg c4]
    · have hk : e.recognition_sequence_ = x.recognition_sequence_ :=
        le_antisymm (not_lt.mp c1) (not_lt.mp c3)
      rw [labelsOf_cons, labelsOf_cons (e := e)]
      simp only [SequenceMap.Merge_eq, hk, c5, if_true, Option.getD_some]
    · have hk : e.recognition_sequence_ = x.recognition_sequence_ :=
        le_antisymm (not_lt.mp c1) (not_lt.mp c3)
      rw [labelsOf_cons, labelsOf_cons (e := e)]
      simp only [SequenceMap.Merge_eq, hk, c5, if_false]

/-- On an ordered tree `findRecoSeq` prints the labels of the entry of the key. -/
theorem findRecoSeq_eq (k : K) {t : AvlNode K} (ht : Ordered t) :
    findRecoSeq k t = labelsOf k (inorder t) := by
  induction t with
  | nil => rfl
  | node e l r h ihl ihr =>
    obtain ⟨ol, or, h1, h2⟩ := ordered_node ht
    simp only [findRecoSeq, SequenceMap.getRecognitionSequence, inorder]
    rw [labelsOf_append, labelsOf_cons]
    split_ifs with c1 c2 c3 c4 c5
    · exact absurd c1 (by rw [c2]; exact lt_irrefl _)
    · rw [ihl ol, labelsOf_eq_none k (inorder r) fun b hb =>
        ne_of_gt (lt_trans c1 (h2 b hb)), Option.or_none]
    · exact absurd c3 (by rw [c4]; exact lt_irrefl _)
    · rw [ihr or, labelsOf_eq_none k (inorder l) fun a ha =>
        ne_of_lt (lt_trans (h1 a ha) c3), Option.none_or]
    · rw [labelsOf_eq_none k (inorder l) fun a ha => ne_of_lt (c5 ▸ h1 a ha), Option.none_or]
    · exact absurd (le_antisymm (not_lt.mp c1) (not_lt.mp c3)) c5

/-- The entries built by inserting (key, label) pairs one by one. -/
theorem pairwise_foldl_insList (es : List (SequenceMap K)) :
    (es.foldl (fun l x => insList x l) []).Pairwise
      fun a b => a.recognition_sequence_ < b.recognition_sequence_ := by
  induction es using List.reverseRecOn with
  | nil => exact List.Pairwise.nil
  | append_singleton es x ih =>
    rw [List.foldl_append]
    exact pairwise_insList x ih

/-- After inserting (key, label) pairs one by one, the labels found for a key
are the labels paired with it, in insertion order. -/
theorem labelsOf_foldl_insList (k : K) (ps : List (K × String)) :
    labelsOf k ((ps.map fun p => SequenceMap.mk2 p.1 p.2).foldl (fun l x => insList x l) []) =
      if k ∈ ps.map Prod.fst then some ((ps.filter fun p => decide (p.1 = k)).map Prod.snd)
      else none := by
  induction ps using List.reverseRecOn with
  | nil => rfl
  | append_singleton ps p ih =>
    rw [List.map_append, List.foldl_append]
    simp only [List.map_cons, List.map_nil, List.foldl_cons, List.foldl_nil]
    rw [labelsOf_insList k _ (pairwise_foldl_insList _), ih]
    simp only [SequenceMap.mk2_eq, List.map_append, List.map_cons, List.map_nil, List.mem_append,
      List.mem_singleton, List.filter_append]
    by_cases c1 : p.1 = k
    · have c2 : k = p.1 := c1.symm
      by_cases c3 : k ∈ ps.map Prod.fst
      · simp [c1, c3, List.filter_cons]
      · have : ps.filter (fun p => decide (p.1 = k)) = [] := by
          rw [List.filter_eq_nil_iff]
          intro q hq hk
          exact c3 (List.mem_map.mpr ⟨q, hq, by simpa using hk⟩)
        simp [c1, c3, this, List.filter_cons]
    · have c2 : ¬ k = p.1 := fun h => c1 h.symm
      simp only [c1, c2, or_false, if_false, List.filter_cons, decide_False, Bool.false_eq_true,
        List.filter_nil, List.map_nil, List.append_nil]

/-- Four inserts that build a balanced tree of height 2, and the instrumented
remove of its smallest key: the left leaf is unlinked and nothing is rebalanced. -/
theorem removeCounted_no_rebalance (a b c d : SequenceMap K)
    (hab : a.recognition_sequence_ < b.recognition_sequence_)
    (hbc : b.recognition_sequence_ < c.recognition_sequence_)
    (hcd : c.recognition_sequence_ < d.recognition_sequence_) :
    applyOps [Op.insert b, Op.insert a, Op.insert c, Op.insert d] nil =
        some (node b (node a nil nil 0) (node c nil (node d nil nil 0) 1) 2) ∧
      Balanced (node b (node a nil nil 0) (node c nil (node d nil nil 0) 1) 2) ∧
      removeCounted a.recognition_sequence_
          (node b (node a nil nil 0) (node c nil (node d nil nil 0) 1) 2) 0 =
        some (node b nil (node c nil (node d nil nil 0) 1) 2, true, 2) ∧
      ¬ Balanced (node b nil (node c nil (node d nil nil 0) 1) 2) := by
  have hac := lt_trans hab hbc
  have hbd := lt_trans hbc hcd
  refine ⟨?_, ?_, ?_, ?_⟩
  · simp [applyOps, applyOp, insert, balance, setHeight, lt_def, hab, hbc, hcd, hbd,
      not_lt_of_lt hab, not_lt_of_lt hbc, not_lt_of_lt hcd, not_lt_of_lt hbd,
      ALLOWED_IMBALANCE, AvlTree.max]
  · simp [Balanced, trueHeight]
  · simp [removeCounted, SequenceMap.getRecognitionSequence, hab, lt_irrefl]
  · simp [Balanced, trueHeight]

/-! ## The instrumented operations and the extremes -/

/-- The instrumented `find` makes the comparisons of `contains`. -/
theorem find_eq_contains (k : K) (ls : List String) (t : AvlNode K) (c : Int) :
    (find k t c).1 = contains ⟨k, ls⟩ t := by
  induction t generalizing c with
  | nil => rfl
  | node e l r h ihl ihr =>
    simp only [find, contains, lt_def, SequenceMap.getRecognitionSequence]
    split_ifs
    · exact ihl (c + 1)
    · exact ihr (c + 1)
    · rfl

/-- The instrumented `find` counts at least one step, and a successful search no
more than the height computed from the shape plus one. -/
theorem find_steps (k : K) (t : AvlNode K) (c : Int) :
    c + 1 ≤ (find k t c).2 ∧
      ((find k t c).1 = true → (find k t c).2 ≤ c + trueHeight t + 1) := by
  induction t generalizing c with
  | nil => simp [find]
  | node e l r h ihl ihr =>
    have g1 := ihl (c + 1)
    have g2 := ihr (c + 1)
    simp only [find, trueHeight]
    split_ifs
    · refine ⟨by omega, fun hb => ?_⟩
      have := g1.2 hb
      omega
    · refine ⟨by omega, fun hb => ?_⟩
      have := g2.2 hb
      omega
    · have := trueHeight_ge l
      exact ⟨by simp, fun _ => by simp only; omega⟩

theorem holdsKey_lt {k : K} {e : SequenceMap K} {l r : AvlNode K} {h : Int}
    (ht : Ordered (node e l r h)) (hk : k < e.recognition_sequence_) :
    HoldsKey k (node e l r h) ↔ HoldsKey k l := by
  obtain ⟨-, -, -, h2⟩ := ordered_node ht
  rw [holdsKey_node]
  constructor
  · rintro (h3 | h3 | ⟨b, hb, h3⟩)
    · exact h3
    · exact absurd hk (by rw [h3]; exact lt_irrefl _)
    · exact absurd (lt_trans hk (h2 b hb)) (by rw [h3]; exact lt_irrefl _)
  · exact Or.inl

theorem holdsKey_gt {k : K} {e : SequenceMap K} {l r : AvlNode K} {h : Int}
    (ht : Ordered (node e l r h)) (hk : e.recognition_sequence_ < k) :
    HoldsKey k (node e l r h) ↔ HoldsKey k r := by
  obtain ⟨-, -, h1, -⟩ := ordered_node ht
  rw [holdsKey_node]
  constructor
  · rintro (⟨a, ha, h3⟩ | h3 | h3)
    · exact absurd (lt_trans (h1 a ha) hk) (by rw [h3]; exact lt_irrefl _)
    · exact absurd hk (by rw [h3]; exact lt_irrefl _)
    · exact h3
  · exact fun h3 => Or.inr (Or.inr h3)

/-- On an ordered tree the instrumented remove reports true exactly for a key
that some node holds. -/
theorem removeCounted_found (k : K) {t : AvlNode K} (c : Int)
    {p : AvlNode K × Bool × Int} (ht : Ordered t) (hi : removeCounted k t c = some p) :
    p.2.1 = true ↔ HoldsKey k t := by
  induction t generalizing k c p with
  | nil =>
    simp only [removeCounted, Option.some.injEq] at hi
    subst hi
    simp [HoldsKey, inorder]
  | node e l r h ihl ihr =>
    obtain ⟨ol, or, h1, h2⟩ := ordered_node ht
    simp only [removeCounted, SequenceMap.getRecognitionSequence] at hi
    split_ifs at hi with c1 c2 c3 c4
    · obtain ⟨q, e1, e2⟩ := Option.map_eq_some'.mp hi
      subst e2
      rw [holdsKey_lt ht c1]
      have e3 := ihl k (c + 1) ol e1
      exact e3
    · obtain ⟨q, e1, e2⟩ := Option.map_eq_some'.mp hi
      subst e2
      rw [holdsKey_gt ht c2]
      have e3 := ihr k (c + 1) or e1
      exact e3
    · have hk : e.recognition_sequence_ = k := le_antisymm (not_lt.mp c1) (not_lt.mp c2)
      have hh : HoldsKey k (node e l r h) := (holdsKey_node k e l r h).mpr (Or.inr (Or.inl hk))
      cases r with
      | nil => exact absurd rfl c3.2
      | node er rl rr h3 =>
        obtain ⟨m, rest, p1, p2⟩ := findMin_spec er rl rr h3
        simp only [p1, Option.some_bind] at hi
        obtain ⟨q, e1, e2⟩ := Option.map_eq_some'.mp hi
        subst e2
        have e3 := ihr m.recognition_sequence_ (c + 1) or e1
        have hm : HoldsKey m.recognition_sequence_ (node er rl rr h3) :=
          ⟨m, by rw [p2]; exact List.mem_cons_self _ _, rfl⟩
        exact ⟨fun _ => hh, fun _ => e3.mpr hm⟩
    · have hk : e.recognition_sequence_ = k := le_antisymm (not_lt.mp c1) (not_lt.mp c2)
      simp only [Option.some.injEq] at hi
      subst hi
      exact ⟨fun _ => (holdsKey_node k e l r h).mpr (Or.inr (Or.inl hk)), fun _ => rfl⟩
    · have hk : e.recognition_sequence_ = k := le_antisymm (not_lt.mp c1) (not_lt.mp c2)
      simp only [Option.some.injEq] at hi
      subst hi
      exact ⟨fun _ => (holdsKey_node k e l r h).mpr (Or.inr (Or.inl hk)), fun _ => rfl⟩

/-- The instrumented remove of a key that no node holds returns the same tree and false. -/
theorem removeCounted_absent (k : K) {t : AvlNode K} (c : Int) (hk : ¬ HoldsKey k t) :
    ∃ c1, removeCounted k t c = some (t, false, c1) := by
  induction t generalizing c with
  | nil => exact ⟨c + 1, rfl⟩
  | node e l r h ihl ihr =>
    rw [holdsKey_node] at hk
    push_neg at hk
    obtain ⟨x1, x2, x3⟩ := hk
    simp only [removeCounted, SequenceMap.getRecognitionSequence]
    split_ifs with c1 c2 c3 c4
    · obtain ⟨c5, e1⟩ := ihl (c + 1) x1
      exact ⟨c5, by rw [e1]; rfl⟩
    · obtain ⟨c5, e1⟩ := ihr (c + 1) x3
      exact ⟨c5, by rw [e1]; rfl⟩
    · exact absurd (le_antisymm (not_lt.mp c1) (not_lt.mp c2)) x2
    · exact absurd (le_antisymm (not_lt.mp c1) (not_lt.mp c2)) x2
    · exact absurd (le_antisymm (not_lt.mp c1) (not_lt.mp c2)) x2

/-! ## Insert of a key that is present -/

theorem height_mergeInto (x : SequenceMap K) (t : AvlNode K) :
    height (mergeInto x t) = height t := by
  cases t <;> rfl

theorem avl_mergeInto (x : SequenceMap K) {t : AvlNode K} (ht : Avl t) :
    Avl (mergeInto x t) := by
  induction t with
  | nil => exact trivial
  | node e l r h ihl ihr =>
    obtain ⟨hl, hr, hh, h1, h2⟩ := ht
    refine ⟨ihl hl, ihr hr, ?_, ?_, ?_⟩ <;>
      simp only [height_mergeInto] <;> assumption

theorem mergeInto_eq_self (x : SequenceMap K) {t : AvlNode K}
    (hx : ¬ HoldsKey x.recognition_sequence_ t) : mergeInto x t = t := by
  induction t with
  | nil => rfl
  | node e l r h ihl ihr =>
    rw [holdsKey_node] at hx
    push_neg at hx
    obtain ⟨x1, x2, x3⟩ := hx
    simp only [mergeInto, if_neg x2, ihl x1, ihr x3]

/-- On an ordered AVL tree, the insert of an entry whose key is present returns
the tree with the labels merged at the node of that key. -/
theorem insert_present_eq (x : SequenceMap K) {t : AvlNode K} (ht : Avl t) (ho : Ordered t)
    (hx : HoldsKey x.recognition_sequence_ t) : insert x t = some (mergeInto x t) := by
  induction t with
  | nil =>
    obtain ⟨e, he, -⟩ := hx
    exact absurd he (List.not_mem_nil e)
  | node e l r h ihl ihr =>
    obtain ⟨ol, or, h1, h2⟩ := ordered_node ho
    have ht0 := ht
    obtain ⟨hl, hr, hh, b1, b2⟩ := ht
    have nl : ∀ k, e.recognition_sequence_ ≤ k → ¬ HoldsKey k l := by
      rintro k hk ⟨a, ha, hka⟩
      exact absurd (h1 a ha) (by rw [hka]; exact not_lt.mpr hk)
    have nr : ∀ k, k ≤ e.recognition_sequence_ → ¬ HoldsKey k r := by
      rintro k hk ⟨a, ha, hka⟩
      exact absurd (h2 a ha) (by rw [hka]; exact not_lt.mpr hk)
    simp only [insert, lt_def]
    split_ifs with c1 c2
    · rw [ihl hl ol ((holdsKey_lt ho c1).mp hx)]
      have a1 : Avl (node e (mergeInto x l) r h) :=
        ⟨avl_mergeInto x hl, hr, by rw [height_mergeInto]; exact hh,
          by rw [height_mergeInto]; exact b1, by rw [height_mergeInto]; exact b2⟩
      simp only [Option.some_bind]
      rw [balance_self a1]
      simp only [mergeInto, if_neg (ne_of_gt c1), mergeInto_eq_self x (nr _ (le_of_lt c1))]
    · rw [ihr hr or ((holdsKey_gt ho c2).mp hx)]
      have a1 : Avl (node e l (mergeInto x r) h) :=
        ⟨hl, avl_mergeInto x hr, by rw [height_mergeInto]; exact hh,
          by rw [height_mergeInto]; exact b1, by rw [height_mergeInto]; exact b2⟩
      simp only [Option.some_bind]
      rw [balance_self a1]
      simp only [mergeInto, if_neg (ne_of_lt c2), mergeInto_eq_self x (nl _ (le_of_lt c2))]
    · have hk : e.recognition_sequence_ = x.recognition_sequence_ :=
        le_antisymm (not_lt.mp c1) (not_lt.mp c2)
      simp only [mergeInto, if_pos hk, mergeInto_eq_self x (nl _ (le_of_eq hk)),
        mergeInto_eq_self x (nr _ (le_of_eq hk.symm)), SequenceMap.Merge_eq]

/-- Four inserts that build a balanced tree of height 2, and the two removes of
its smallest key: the plain remove rotates at the root, the instrumented remove
leaves the root where it is. -/
theorem remove_rotates_removeCounted_not (a b c d : SequenceMap K)
    (hab : a.recognition_sequence_ < b.recognition_sequence_)
    (hbc : b.recognition_sequence_ < c.recognition_sequence_)
    (hcd : c.recognition_sequence_ < d.recognition_sequence_) :
    applyOps [Op.insert b, Op.insert a, Op.insert c, Op.insert d] nil =
        some (node b (node a nil nil 0) (node c nil (node d nil nil 0) 1) 2) ∧
      remove a (node b (node a nil nil 0) (node c nil (node d nil nil 0) 1) 2) =
        some (node c (node b nil nil 0) (node d nil nil 0) 1) ∧
      removeCountedPublic a.recognition_sequence_
          (node b (node a nil nil 0) (node c nil (node d nil nil 0) 1) 2) 0 =
        some (node b nil (node c nil (node d nil nil 0) 1) 2, 1, 2) ∧
      node c (node b nil nil 0) (node d nil nil 0) 1 ≠
        node b nil (node c nil (node d nil nil 0) 1) 2 := by
  have hbd := lt_trans hbc hcd
  refine ⟨?_, ?_, ?_, ?_⟩
  · simp [applyOps, applyOp, insert, balance, setHeight, lt_def, hab, hbc, hcd, hbd,
      not_lt_of_lt hab, not_lt_of_lt hbc, not_lt_of_lt hcd, not_lt_of_lt hbd,
      ALLOWED_IMBALANCE, AvlTree.max]
  · simp [remove, balance, setHeight, rotateWithRightChild, lt_def, hab, lt_irrefl,
      ALLOWED_IMBALANCE, AvlTree.max]
  · simp [removeCountedPublic, removeCounted, SequenceMap.getRecognitionSequence, hab,
      lt_irrefl]
  · intro h
    injection h with h1 h2 h3 h4
    simp at h4

/-! ## Insert of a key that is absent -/

/-- On a strictly increasing list without the key of `x`, `insList` puts `x`
between the entries of smaller key and the entries of larger key. -/
theorem insList_split (x : SequenceMap K) {es : List (SequenceMap K)}
    (hs : es.Pairwise fun a b => a.recognition_sequence_ < b.recognition_sequence_)
    (hx : ∀ a ∈ es, a.recognition_sequence_ ≠ x.recognition_sequence_) :
    ∃ l r, es = l ++ r ∧ insList x es = l ++ x :: r ∧
      (∀ a ∈ l, a.recognition_sequence_ < x.recognition_sequence_) ∧
      (∀ b ∈ r, x.recognition_sequence_ < b.recognition_sequence_) := by
  induction es with
  | nil => exact ⟨[], [], rfl, rfl, by simp, by simp⟩
  | cons e es ih =>
    obtain ⟨h1, h2⟩ := List.pairwise_cons.mp hs
    have hne := hx e (List.mem_cons_self _ _)
    simp only [insList, lt_def]
    split_ifs with c1 c2
    · refine ⟨[], e :: es, rfl, rfl, by simp, ?_⟩
      intro b hb
      rcases List.mem_cons.mp hb with hb | hb
      · rw [hb]; exact c1
      · exact lt_trans c1 (h1 b hb)
    · obtain ⟨l, r, p1, p2, p3, p4⟩ := ih h2 fun a ha => hx a (List.mem_cons_of_mem _ ha)
      refine ⟨e :: l, r, by rw [p1]; rfl, by rw [p2]; rfl, ?_, p4⟩
      intro a ha
      rcases List.mem_cons.mp ha with ha | ha
      · rw [ha]; exact c2
      · exact p3 a ha
    · exact absurd (le_antisymm (not_lt.mp c1) (not_lt.mp c2)) hne

/-! ## Exact step counts -/

theorem nodeOfKey_none (k : K) {t : AvlNode K} (hk : ¬ HoldsKey k t) :
    nodeOfKey k t = none := by
  induction t with
  | nil => rfl
  | node e l r h ihl ihr =>
    rw [holdsKey_node] at hk
    push_neg at hk
    obtain ⟨x1, x2, x3⟩ := hk
    simp only [nodeOfKey, if_neg x2, ihl x1, ihr x3, Option.map_none']

theorem holdsKey_of_nodeOfKey (k : K) {t : AvlNode K} {p : Nat × AvlNode K}
    (hp : nodeOfKey k t = some p) : HoldsKey k t := by
  by_contra hk
  rw [nodeOfKey_none k hk] at hp
  exact Option.noConfusion hp

theorem nodeOfKey_some (k : K) {t : AvlNode K} (hk : HoldsKey k t) :
    ∃ p, nodeOfKey k t = some p := by
  induction t with
  | nil =>
    obtain ⟨e, he, -⟩ := hk
    exact absurd he (List.not_mem_nil e)
  | node e l r h ihl ihr =>
    simp only [nodeOfKey]
    split_ifs with c1
    · exact ⟨_, rfl⟩
    · rcases (holdsKey_node k e l r h).mp hk with h1 | h1 | h1
      · obtain ⟨p, hp⟩ := ihl h1
        exact ⟨(p.1 + 1, p.2), by rw [hp]⟩
      · exact absurd h1 c1
      · obtain ⟨p, hp⟩ := ihr h1
        cases hl : nodeOfKey k l with
        | none => exact ⟨(p.1 + 1, p.2), by rw [hp]; rfl⟩
        | some q => exact ⟨(q.1 + 1, q.2), rfl⟩

theorem nodeOfKey_lt {k : K} {e : SequenceMap K} {l r : AvlNode K} {h : Int}
    (ht : Ordered (node e l r h)) (hk : k < e.recognition_sequence_) :
    nodeOfKey k (node e l r h) = (nodeOfKey k l).map fun p => (p.1 + 1, p.2) := by
  obtain ⟨-, -, -, h2⟩ := ordered_node ht
  have hr : ¬ HoldsKey k r := by
    rintro ⟨b, hb, hkb⟩
    exact absurd (lt_trans hk (h2 b hb)) (by rw [hkb]; exact lt_irrefl _)
  simp only [nodeOfKey, if_neg (ne_of_gt hk), nodeOfKey_none k hr, Option.map_none']
  cases nodeOfKey k l <;> rfl

theorem nodeOfKey_gt {k : K} {e : SequenceMap K} {l r : AvlNode K} {h : Int}
    (ht : Ordered (node e l r h)) (hk : e.recognition_sequence_ < k) :
    nodeOfKey k (node e l r h) = (nodeOfKey k r).map fun p => (p.1 + 1, p.2) := by
  obtain ⟨-, -, h1, -⟩ := ordered_node ht
  have hl : ¬ HoldsKey k l := by
    rintro ⟨a, ha, hka⟩
    exact absurd (lt_trans (h1 a ha) hk) (by rw [hka]; exact lt_irrefl _)
  simp only [nodeOfKey, if_neg (ne_of_lt hk), nodeOfKey_none k hl]

/-- On an ordered tree the instrumented find counts one step for each node
from the root to the node of the key, or to the absent position. -/
theorem find_exact (k : K) {t : AvlNode K} (ht : Ordered t) (c : Int) :
    (∀ d s, nodeOfKey k t = some (d, s) → find k t c = (true, c + d + 1)) ∧
      (nodeOfKey k t = none → find k t c = (false, c + (searchPath k t).length + 1)) := by
  induction t generalizing c with
  | nil =>
    refine ⟨fun d s hp => ?_, fun _ => ?_⟩
    · simp [nodeOfKey] at hp
    · simp [find, searchPath]
  | node e l r h ihl ihr =>
    obtain ⟨ol, or, -, -⟩ := ordered_node ht
    simp only [find, searchPath, SequenceMap.getRecognitionSequence]
    split_ifs with c1 c2
    · rw [nodeOfKey_lt ht c1]
      obtain ⟨g1, g2⟩ := ihl ol (c + 1)
      refine ⟨fun d s hp => ?_, fun hp => ?_⟩
      · obtain ⟨q, e1, e2⟩ := Option.map_eq_some'.mp hp
        obtain ⟨d1, s1⟩ := q
        simp only [Prod.mk.injEq] at e2
        rw [g1 d1 s1 e1, ← e2.1]
        push_cast
        congr 1
        omega
      · rw [g2 (Option.map_eq_none'.mp hp)]
        simp only [List.length_cons]
        push_cast
        congr 1
        omega
    · rw [nodeOfKey_gt ht c2]
      obtain ⟨g1, g2⟩ := ihr or (c + 1)
      refine ⟨fun d s hp => ?_, fun hp => ?_⟩
      · obtain ⟨q, e1, e2⟩ := Option.map_eq_some'.mp hp
        obtain ⟨d1, s1⟩ := q
        simp only [Prod.mk.injEq] at e2
        rw [g1 d1 s1 e1, ← e2.1]
        push_cast
        congr 1
        omega
      · rw [g2 (Option.map_eq_none'.mp hp)]
        simp only [List.length_cons]
        push_cast
        congr 1
        omega
    · have hk : e.recognition_sequence_ = k := le_antisymm (not_lt.mp c1) (not_lt.mp c2)
      simp only [nodeOfKey, if_pos hk]
      refine ⟨fun d s hp => ?_, fun hp => ?_⟩
      · simp only [Option.some.injEq, Prod.mk.injEq] at hp
        rw [← hp.1]
        simp
      · exact Option.noConfusion hp

/-- The steps that the instrumented find adds do not depend on the value of the counter. -/
theorem find_counter (k : K) (t : AvlNode K) (c : Int) :
    (find k t c).2 = c + (find k t 0).2 := by
  induction t generalizing c with
  | nil => simp [find]
  | node e l r h ihl ihr =>
    simp only [find]
    split_ifs
    · rw [ihl (c + 1), ihl (0 + 1)]
      omega
    · rw [ihr (c + 1), ihr (0 + 1)]
      omega
    · simp

/-- The instrumented remove of the smallest key of an ordered subtree walks down
its left spine and unlinks the leftmost node. -/
theorem removeCounted_min (e : SequenceMap K) (l r : AvlNode K) (h : Int) (c : Int)
    (ht : Ordered (node e l r h)) (m : SequenceMap K)
    (hm : element (findMin (node e l r h)) = some m) :
    ∃ t1, removeCounted m.recognition_sequence_ (node e l r h) c =
      some (t1, true, c + leftmostDepth (node e l r h) + 1) := by
  induction l generalizing e r h c with
  | nil =>
    simp only [findMin, element, Option.some.injEq] at hm
    subst hm
    exact ⟨r, by simp [removeCounted, SequenceMap.getRecognitionSequence, leftmostDepth]⟩
  | node e1 l1 r1 h1 ih _ =>
    obtain ⟨ol, -, g1, -⟩ := ordered_node ht
    have hm1 : element (findMin (node e1 l1 r1 h1)) = some m := by
      simpa [findMin] using hm
    obtain ⟨m1, rest, p1, p2⟩ := findMin_spec e1 l1 r1 h1
    rw [hm1, Option.some.injEq] at p1
    subst p1
    have hlt : m.recognition_sequence_ < e.recognition_sequence_ :=
      g1 m (by rw [p2]; exact List.mem_cons_self _ _)
    obtain ⟨t1, e2⟩ := ih e1 r1 h1 (c + 1) ol hm1
    refine ⟨node e t1 r h, ?_⟩
    simp only [removeCounted, SequenceMap.getRecognitionSequence, if_pos hlt] at e2 ⊢
    rw [e2]
    simp only [Option.map_some', leftmostDepth, Option.some.injEq, Prod.mk.injEq, true_and]
    push_cast
    omega

/-- On an ordered tree the instrumented remove counts one step for each node
from the root to the node that it unlinks, or to the absent position. -/
theorem removeCounted_exact (k : K) {t : AvlNode K} (ht : Ordered t) (c : Int) :
    ∃ p, removeCounted k t c = some p ∧
      (nodeOfKey k t = none → p.2.2 = c + (searchPath k t).length + 1) ∧
      (∀ d e l r h, nodeOfKey k t = some (d, node e l r h) → (l = nil ∨ r = nil) →
        p.2.2 = c + d + 1) ∧
      (∀ d e l r h, nodeOfKey k t = some (d, node e l r h) → l ≠ nil → r ≠ nil →
        p.2.2 = c + (d + 1 + leftmostDepth r : Nat) + 1) := by
  induction t generalizing c with
  | nil =>
    refine ⟨(nil, false, c + 1), rfl, fun _ => by simp [searchPath], ?_, ?_⟩
    · intro d e l r h hp
      simp [nodeOfKey] at hp
    · intro d e l r h hp
      simp [nodeOfKey] at hp
  | node e l r h ihl ihr =>
    obtain ⟨ol, or, -, -⟩ := ordered_node ht
    by_cases c1 : k < e.recognition_sequence_
    · obtain ⟨q, e1, g1, g2, g3⟩ := ihl ol (c + 1)
      refine ⟨(node e q.1 r h, q.2.1, q.2.2), ?_, ?_, ?_, ?_⟩
      · simp only [removeCounted, SequenceMap.getRecognitionSequence, if_pos c1, e1,
          Option.map_some']
      · intro hp
        rw [nodeOfKey_lt ht c1] at hp
        simp only [searchPath, if_pos c1, List.length_cons]
        rw [g1 (Option.map_eq_none'.mp hp)]
        push_cast
        omega
      · intro d e0 l0 r0 h0 hp hc
        rw [nodeOfKey_lt ht c1] at hp
        obtain ⟨⟨d1, s1⟩, e2, e3⟩ := Option.map_eq_some'.mp hp
        simp only [Prod.mk.injEq] at e3
        obtain ⟨e4, e5⟩ := e3
        subst e5
        rw [g2 d1 e0 l0 r0 h0 e2 hc, ← e4]
        push_cast
        omega
      · intro d e0 l0 r0 h0 hp hc1 hc2
        rw [nodeOfKey_lt ht c1] at hp
        obtain ⟨⟨d1, s1⟩, e2, e3⟩ := Option.map_eq_some'.mp hp
        simp only [Prod.mk.injEq] at e3
        obtain ⟨e4, e5⟩ := e3
        subst e5
        rw [g3 d1 e0 l0 r0 h0 e2 hc1 hc2, ← e4]
        push_cast
        omega
    · by_cases c2 : e.recognition_sequence_ < k
      · obtain ⟨q, e1, g1, g2, g3⟩ := ihr or (c + 1)
        refine ⟨(node e l q.1 h, q.2.1, q.2.2), ?_, ?_, ?_, ?_⟩
        · simp only [removeCounted, SequenceMap.getRecognitionSequence, if_neg c1, if_pos c2,
            e1, Option.map_some']
        · intro hp
          rw [nodeOfKey_gt ht c2] at hp
          simp only [searchPath, if_neg c1, if_pos c2, List.length_cons]
          rw [g1 (Option.map_eq_none'.mp hp)]
          push_cast
          omega
        · intro d e0 l0 r0 h0 hp hc
          rw [nodeOfKey_gt ht c2] at hp
          obtain ⟨⟨d1, s1⟩, e2, e3⟩ := Option.map_eq_some'.mp hp
          simp only [Prod.mk.injEq] at e3
          obtain ⟨e4, e5⟩ := e3
          subst e5
          rw [g2 d1 e0 l0 r0 h0 e2 hc, ← e4]
          push_cast
          omega
        · intro d e0 l0 r0 h0 hp hc1 hc2
          rw [nodeOfKey_gt ht c2] at hp
          obtain ⟨⟨d1, s1⟩, e2, e3⟩ := Option.map_eq_some'.mp hp
          simp only [Prod.mk.injEq] at e3
          obtain ⟨e4, e5⟩ := e3
          subst e5
          rw [g3 d1 e0 l0 r0 h0 e2 hc1 hc2, ← e4]
          push_cast
          omega
      · have hk : e.recognition_sequence_ = k := le_antisymm (not_lt.mp c1) (not_lt.mp c2)
        have hn : nodeOfKey k (node e l r h) = some (0, node e l r h) := by
          simp only [nodeOfKey, if_pos hk]
        by_cases c3 : l ≠ nil ∧ r ≠ nil
        · cases r with
          | nil => exact absurd rfl c3.2
          | node er rl rr h3 =>
            obtain ⟨m, rest, p1, -⟩ := findMin_spec er rl rr h3
            obtain ⟨t1, e1⟩ := removeCounted_min er rl rr h3 (c + 1) or m p1
            refine ⟨(node m l t1 h, true, c + 1 + leftmostDepth (node er rl rr h3) + 1),
              ?_, ?_, ?_, ?_⟩
            · rw [removeCounted]
              simp only [SequenceMap.getRecognitionSequence, if_neg c1, if_neg c2, if_pos c3,
                p1, Option.some_bind]
              rw [e1]
              rfl
            · intro hp
              rw [hn] at hp
              exact Option.noConfusion hp
            · intro d e0 l0 r0 h0 hp hc
              rw [hn] at hp
              simp only [Option.some.injEq, Prod.mk.injEq, node.injEq] at hp
              obtain ⟨-, -, e5, e6, -⟩ := hp
              subst e5 e6
              rcases hc with hc | hc
              · exact absurd hc c3.1
              · exact absurd hc c3.2
            · intro d e0 l0 r0 h0 hp hc1 hc2
              rw [hn] at hp
              simp only [Option.some.injEq, Prod.mk.injEq, node.injEq] at hp
              obtain ⟨e4, -, e5, e6, -⟩ := hp
              subst e5 e6
              rw [← e4]
              push_cast
              omega
        · refine ⟨(if l ≠ nil then l else r, true, c + 1), ?_, ?_, ?_, ?_⟩
          · simp only [removeCounted, SequenceMap.getRecognitionSequence, if_neg c1,
              if_neg c2, if_neg c3]
          · intro hp
            rw [hn] at hp
            exact Option.noConfusion hp
          · intro d e0 l0 r0 h0 hp hc
            rw [hn] at hp
            simp only [Option.some.injEq, Prod.mk.injEq] at hp
            rw [← hp.1]
            simp
          · intro d e0 l0 r0 h0 hp hc1 hc2
            rw [hn] at hp
            simp only [Option.some.injEq, Prod.mk.injEq, node.injEq] at hp
            obtain ⟨-, -, e5, e6, -⟩ := hp
            subst e5 e6
            exact absurd ⟨hc1, hc2⟩ c3

theorem nodeOfKey_root (k : K) {t : AvlNode K} {d : Nat} {s : AvlNode K}
    (hp : nodeOfKey k t = some (d, s)) :
    ∃ e l r h, s = node e l r h ∧ e.recognition_sequence_ = k := by
  induction t generalizing d with
  | nil => simp [nodeOfKey] at hp
  | node e l r h ihl ihr =>
    simp only [nodeOfKey] at hp
    split_ifs at hp with c1
    · simp only [Option.some.injEq, Prod.mk.injEq] at hp
      exact ⟨e, l, r, h, hp.2.symm, c1⟩
    · cases hl : nodeOfKey k l with
      | some q =>
        rw [hl] at hp
        simp only [Option.some.injEq, Prod.mk.injEq] at hp
        exact ihl (d := q.1) (by rw [hl, ← hp.2])
      | none =>
        rw [hl] at hp
        obtain ⟨q, e1, e2⟩ := Option.map_eq_some'.mp hp
        simp only [Prod.mk.injEq] at e2
        exact ihr (d := q.1) (by rw [e1, ← e2.2])

/-! ## The counters as 32 bit integers -/

theorem incrInt_eq {c : Int} (h1 : INT_MIN ≤ c) (h2 : c + 1 ≤ INT_MAX) : incrInt c = c + 1 := by
  unfold INT_MIN at h1
  unfold INT_MAX at h2
  unfold incrInt
  omega

/-- As long as the counter does not pass `INT_MAX`, the instrumented find with
the `int` counter is the find that counts in an unbounded integer. -/
theorem findInt_eq_find (k : K) (t : AvlNode K) (c : Int) (h1 : INT_MIN ≤ c)
    (h2 : (find k t c).2 ≤ INT_MAX) : findInt k t c = find k t c := by
  induction t generalizing c with
  | nil =>
    simp only [find] at h2
    simp only [findInt, find, incrInt_eq h1 h2]
  | node e l r h ihl ihr =>
    simp only [find] at h2
    simp only [findInt, find]
    split_ifs at h2 ⊢ with c1 c2
    · have g := (find_steps k l (c + 1)).1
      have e1 : incrInt c = c + 1 := incrInt_eq h1 (by omega)
      rw [e1]
      exact ihl (c + 1) (by omega) h2
    · have g := (find_steps k r (c + 1)).1
      have e1 : incrInt c = c + 1 := incrInt_eq h1 (by omega)
      rw [e1]
      exact ihr (c + 1) (by omega) h2
    · rw [incrInt_eq h1 h2]

theorem removeCounted_counter_ge (k : K) {t : AvlNode K} (c : Int)
    {p : AvlNode K × Bool × Int} (hi : removeCounted k t c = some p) : c + 1 ≤ p.2.2 := by
  induction t generalizing k c p with
  | nil =>
    simp only [removeCounted, Option.some.injEq] at hi
    subst hi
    simp
  | node e l r h ihl ihr =>
    rw [removeCounted] at hi
    split_ifs at hi with c1 c2 c3 c4
    · obtain ⟨q, e1, e2⟩ := Option.map_eq_some'.mp hi
      subst e2
      have := ihl k (c + 1) e1
      simp only
      omega
    · obtain ⟨q, e1, e2⟩ := Option.map_eq_some'.mp hi
      subst e2
      have := ihr k (c + 1) e1
      simp only
      omega
    · obtain ⟨m, e0, e3⟩ := Option.bind_eq_some.mp hi
      obtain ⟨q, e1, e2⟩ := Option.map_eq_some'.mp e3
      subst e2
      have := ihr _ (c + 1) e1
      simp only
      omega
    · simp only [Option.some.injEq] at hi
      subst hi
      simp
    · simp only [Option.some.injEq] at hi
      subst hi
      simp

/-- As long as the counter does not pass `INT_MAX`, the instrumented remove with
the `int` counter is the remove that counts in an unbounded integer. -/
theorem removeCountedInt_eq (k : K) {t : AvlNode K} (c : Int)
    {p : AvlNode K × Bool × Int} (h1 : INT_MIN ≤ c) (hi : removeCounted k t c = some p)
    (h2 : p.2.2 ≤ INT_MAX) : removeCountedInt k t c = some p := by
  induction t generalizing k c p with
  | nil =>
    simp only [removeCounted, Option.some.injEq] at hi
    subst hi
    simp only [removeCountedInt, incrInt_eq h1 h2]
  | node e l r h ihl ihr =>
    rw [removeCounted] at hi
    rw [removeCountedInt]
    split_ifs at hi ⊢ with c1 c2 c3 c4
    · obtain ⟨q, e1, e2⟩ := Option.map_eq_some'.mp hi
      subst e2
      have g := removeCounted_counter_ge k (c + 1) e1
      simp only at h2
      rw [incrInt_eq h1 (by omega), ihl k (c + 1) (by omega) e1 h2]
      rfl
    · obtain ⟨q, e1, e2⟩ := Option.map_eq_some'.mp hi
      subst e2
      have g := removeCounted_counter_ge k (c + 1) e1
      simp only at h2
      rw [incrInt_eq h1 (by omega), ihr k (c + 1) (by omega) e1 h2]
      rfl
    · obtain ⟨m, e0, e3⟩ := Option.bind_eq_some.mp hi
      obtain ⟨q, e1, e2⟩ := Option.map_eq_some'.mp e3
      subst e2
      have g := removeCounted_counter_ge _ (c + 1) e1
      simp only at h2
      rw [e0, Option.some_bind, incrInt_eq h1 (by omega), ihr _ (c + 1) (by omega) e1 h2]
      rfl
    · simp only [Option.some.injEq] at hi
      subst hi
      simp only at h2
      rw [incrInt_eq h1 h2]
    · simp only [Option.some.injEq] at hi
      subst hi
      simp only at h2
      rw [incrInt_eq h1 h2]

/-- The instrumented remove with the `int` counter is defined on every tree. -/
theorem removeCountedInt_total (k : K) (t : AvlNode K) (c : Int) :
    ∃ p, removeCountedInt k t c = some p := by
  induction t generalizing k c with
  | nil => exact ⟨_, rfl⟩
  | node e l r h ihl ihr =>
    rw [removeCountedInt]
    split_ifs with c1 c2 c3 c4
    · obtain ⟨p, e1⟩ := ihl k (incrInt c)
      exact ⟨(node e p.1 r h, p.2.1, p.2.2), by rw [e1]; rfl⟩
    · obtain ⟨p, e1⟩ := ihr k (incrInt c)
      exact ⟨(node e l p.1 h, p.2.1, p.2.2), by rw [e1]; rfl⟩
    · cases r with
      | nil => exact absurd rfl c3.2
      | node er rl rr h3 =>
        obtain ⟨m, rest, p1, -⟩ := findMin_spec er rl rr h3
        obtain ⟨p, e1⟩ := ihr m.getRecognitionSequence (incrInt c)
        exact ⟨(node m l p.1 h, p.2.1, p.2.2), by rw [p1, Option.some_bind, e1]; rfl⟩
    · exact ⟨(l, true, incrInt c), rfl⟩
    · exact ⟨(r, true, incrInt c), rfl⟩

/-! ## Insert through a reference into the tree -/

/-- With an object of the caller as argument, the insert through a reference is
the insert, and it returns whatever the fuel. -/
theorem insertRef_outside (fuel : Nat) (x : SequenceMap K) (t : AvlNode K) :
    insertRef fuel x none t = some (insert x t) := by
  induction t with
  | nil => rfl
  | node e l r h ihl ihr =>
    simp only [insertRef, insert, refBelow, ihl, ihr, Option.map_some']
    split_ifs with c1 c2 c3
    · rfl
    · rfl
    · exact absurd c3 (by simp)
    · rfl

/-- On an ordered tree, the insert whose argument is a reference to an element
of the tree that has at least one acronym never returns: the search reaches the
node of that element and `Merge` runs on the object itself. -/
theorem insertRef_aliased (fuel : Nat) {t : AvlNode K} (ht : Ordered t) {p : List Bool}
    {x : SequenceMap K} (hp : elementAt p t = some x) (hx : x.enzyme_acronym_ ≠ []) :
    insertRef fuel x (some p) t = none := by
  induction t generalizing p with
  | nil => simp [elementAt] at hp
  | node e l r h ihl ihr =>
    obtain ⟨ol, or, h1, h2⟩ := ordered_node ht
    cases p with
    | nil =>
      simp only [elementAt, Option.some.injEq] at hp
      subst hp
      have h0 : 0 < e.enzyme_acronym_.length := List.length_pos.mpr hx
      simp only [insertRef, lt_def, lt_irrefl, if_false, if_true,
        SequenceMap.MergeLoop_aliased _ fuel 0 _ h0, Option.map_none']
    | cons b p =>
      cases b with
      | false =>
        have hlt := h1 x (mem_inorder_of_elementAt hp)
        simp only [insertRef, lt_def, if_pos hlt, refBelow, if_true]
        rw [ihl ol hp]
        rfl
      | true =>
        have hlt := h2 x (mem_inorder_of_elementAt hp)
        simp only [insertRef, lt_def, if_neg (not_lt_of_lt hlt), if_pos hlt, refBelow, if_true]
        rw [ihr or hp]
        rfl

/-- Three inserts that build a tree of height 1, and the insert of its smallest
entry: passed as an object of the caller it is merged into the left leaf; passed
as the reference that `findMin( )` returns, the call never returns. -/
theorem insert_findMin_never_returns (a b c : SequenceMap K)
    (hab : a.recognition_sequence_ < b.recognition_sequence_)
    (hbc : b.recognition_sequence_ < c.recognition_sequence_)
    (ha : a.enzyme_acronym_ ≠ []) :
    applyOps [Op.insert b, Op.insert a, Op.insert c] nil =
        some (node b (node a nil nil 0) (node c nil nil 0) 1) ∧
      HoldsKey a.recognition_sequence_ (node b (node a nil nil 0) (node c nil nil 0) 1) ∧
      findMinPublic (node b (node a nil nil 0) (node c nil nil 0) 1) = Except.ok (some a) ∧
      elementAt [false] (node b (node a nil nil 0) (node c nil nil 0) 1) = some a ∧
      (∀ fuel, insertRef fuel a (some [false])
        (node b (node a nil nil 0) (node c nil nil 0) 1) = none) ∧
      (∀ fuel, insertRef fuel a none (node b (node a nil nil 0) (node c nil nil 0) 1) =
        some (some (node b
          (node ⟨a.recognition_sequence_, a.enzyme_acronym_ ++ a.enzyme_acronym_⟩ nil nil 0)
          (node c nil nil 0) 1))) := by
  have hac := lt_trans hab hbc
  have ho : Ordered (node b (node a nil nil 0) (node c nil nil 0) 1) := by
    simp [Ordered, inorder, hab, hbc, hac]
  refine ⟨?_, ?_, rfl, rfl, fun fuel => insertRef_aliased fuel ho rfl ha, fun fuel => ?_⟩
  · simp [applyOps, applyOp, insert, balance, setHeight, lt_def, hab, hbc, hac,
      not_lt_of_lt hab, not_lt_of_lt hbc, not_lt_of_lt hac, ALLOWED_IMBALANCE, AvlTree.max]
  · exact ⟨a, by simp [inorder], rfl⟩
  · rw [insertRef_outside]
    simp [insert, balance, setHeight, lt_def, hab, lt_irrefl, ALLOWED_IMBALANCE, AvlTree.max,
      SequenceMap.Merge_eq]

end Lists

/-! ## The claims -/

section Claims

variable [LinearOrder K]

/-- C1. Balance invariant: after any finite sequence of insert and plain remove
calls on the empty tree, every call is defined and at every node of the
resulting tree the heights of the left and right subtrees (absent subtree -1,
leaf 0) differ by at most 1. -/
theorem balance_invariant (ops : List (Op K)) (hp : ∀ o ∈ ops, Op.plain o = true) :
    ∃ t, applyOps ops nil = some t ∧ Balanced t := by
  obtain ⟨t, e1, a1⟩ := applyOps_avl ops hp (t := nil) trivial
  exact ⟨t, e1, balanced_of_avl a1⟩

theorem balance_invariant_witness :
    (∀ o ∈ [Op.insert (SequenceMap.mk2 1 "a"), Op.insert (SequenceMap.mk2 2 "b"),
        Op.insert (SequenceMap.mk2 3 "c"), Op.insert (SequenceMap.mk2 4 "d"),
        Op.remove (SequenceMap.mk2 1 "")], Op.plain o = true) ∧
      ∃ t, applyOps [Op.insert (SequenceMap.mk2 1 "a"), Op.insert (SequenceMap.mk2 2 "b"),
        Op.insert (SequenceMap.mk2 3 "c"), Op.insert (SequenceMap.mk2 4 "d"),
        Op.remove (SequenceMap.mk2 1 "")] nil = some t ∧ Balanced t :=
  ⟨by decide, balance_invariant _ (by decide)⟩

/-- C2. Ordering invariant: after any finite sequence of insert, plain remove
and instrumented remove calls on the empty tree, every call is defined and the
in-order traversal of the resulting tree is strictly increasing by key, so that
no key is held by two nodes. -/
theorem ordering_invariant (ops : List (Op K)) :
    ∃ t, applyOps ops nil = some t ∧ Ordered t ∧
      ((inorder t).map fun e => e.recognition_sequence_).Nodup := by
  obtain ⟨t, e1, -, a1⟩ := applyOps_ordered ops (t := nil) trivial List.Pairwise.nil
  refine ⟨t, e1, a1, ?_⟩
  rw [List.Nodup, List.pairwise_map]
  exact List.Pairwise.imp (fun h => ne_of_lt h) a1

/-- C3. Merging inserts: inserting (key, label) pairs one by one into the empty
tree is defined throughout; the number of nodes is the number of distinct keys;
`findRecoSeq` finds for every key exactly the labels that were paired with it,
in insertion order and with duplicates kept, and every entry stored in the tree
holds exactly those labels. -/
theorem merging_inserts (ps : List (K × String)) :
    ∃ t, applyOps (ps.map fun p => Op.insert (SequenceMap.mk2 p.1 p.2)) nil = some t ∧
      numberOfNodes t = (ps.map Prod.fst).dedup.length ∧
      (∀ k, findRecoSeq k t =
        if k ∈ ps.map Prod.fst then some ((ps.filter fun p => decide (p.1 = k)).map Prod.snd)
        else none) ∧
      ∀ e ∈ inorder t, e.enzyme_acronym_ =
        (ps.filter fun p => decide (p.1 = e.recognition_sequence_)).map Prod.snd := by
  obtain ⟨t, e1, -, b1, c1⟩ :=
    applyOps_inserts (ps.map fun p => SequenceMap.mk2 p.1 p.2) (t := nil) trivial
      List.Pairwise.nil
  have e0 : (ps.map fun p => Op.insert (SequenceMap.mk2 p.1 p.2)) =
      (ps.map fun p => SequenceMap.mk2 p.1 p.2).map Op.insert := by
    rw [List.map_map]; rfl
  have hfind : ∀ k, findRecoSeq k t =
      if k ∈ ps.map Prod.fst then some ((ps.filter fun p => decide (p.1 = k)).map Prod.snd)
      else none := by
    intro k
    rw [findRecoSeq_eq k b1, c1]
    exact labelsOf_foldl_insList k ps
  have hmem : ∀ k, k ∈ (inorder t).map (fun e => e.recognition_sequence_) ↔
      k ∈ (ps.map Prod.fst).dedup := by
    intro k
    rw [List.mem_dedup, List.mem_map, ← labelsOf_isSome, ← findRecoSeq_eq k b1, hfind k]
    split_ifs with c <;> simp [c]
  have hnodup : ((inorder t).map fun e => e.recognition_sequence_).Nodup := by
    rw [List.Nodup, List.pairwise_map]
    exact List.Pairwise.imp (fun h => ne_of_lt h) b1
  refine ⟨t, by rw [e0]; exact e1, ?_, hfind, ?_⟩
  · rw [numberOfNodes_eq_length,
      ← ((List.perm_ext_iff_of_nodup hnodup (List.nodup_dedup _)).mpr hmem).length_eq,
      List.length_map]
  · intro e he
    have h1 := labelsOf_mem b1 he
    rw [← findRecoSeq_eq _ b1, hfind] at h1
    split_ifs at h1 with c
    · exact (Option.some.inj h1).symm

/-- The merging inserts at GAATTC, AAGCTT, GAATTC with EcoRI, HindIII, EcoRII:
two nodes, and GAATTC holds EcoRI then EcoRII. -/
theorem merging_inserts_scenario :
    ∃ t, applyOps [Op.insert (SequenceMap.mk2 "GAATTC" "EcoRI"),
        Op.insert (SequenceMap.mk2 "AAGCTT" "HindIII"),
        Op.insert (SequenceMap.mk2 "GAATTC" "EcoRII")] nil = some t ∧
      numberOfNodes t = 2 ∧ findRecoSeq "GAATTC" t = some ["EcoRI", "EcoRII"] := by
  obtain ⟨t, e1, e2, e3, -⟩ :=
    merging_inserts [("GAATTC", "EcoRI"), ("AAGCTT", "HindIII"), ("GAATTC", "EcoRII")]
  refine ⟨t, e1, ?_, ?_⟩
  · rw [e2]
    simp [List.dedup_cons_of_mem, List.dedup_cons_of_not_mem]
  · rw [e3 "GAATTC"]
    simp [List.filter_cons]

/-- C4. Plain remove of a present key: on a tree whose in-order traversal is
strictly increasing by key (no cached height being negative), the remove of a
key that some node holds is defined; the in-order list of entries afterwards is
the previous one with the single entry of that key deleted and every other
entry unchanged, and the number of nodes has decreased by exactly 1. -/
theorem remove_present (t : AvlNode K) (ho : Ordered t) (hn : HeightsNonneg t)
    (x : SequenceMap K) (hx : HoldsKey x.recognition_sequence_ t) :
    ∃ t1, remove x t = some t1 ∧
      (∃ l e r, inorder t = l ++ e :: r ∧
        e.recognition_sequence_ = x.recognition_sequence_ ∧ inorder t1 = l ++ r) ∧
      numberOfNodes t1 + 1 = numberOfNodes t := by
  obtain ⟨t1, e1, -⟩ := remove_hnn x hn
  have e2 := remove_inorder x ho e1
  obtain ⟨l, e, r, p1, p2, p3⟩ := delList_split x.recognition_sequence_ ho hx
  refine ⟨t1, e1, ⟨l, e, r, p1, p2, by rw [e2, p3]⟩, ?_⟩
  rw [numberOfNodes_eq_length, numberOfNodes_eq_length, e2, p3, p1]
  simp only [List.length_append, List.length_cons]
  omega

theorem remove_present_witness :
    Ordered (node (SequenceMap.mk2 5 "e")
        (node (SequenceMap.mk2 3 "c") (node (SequenceMap.mk2 1 "a") nil nil 0)
          (node (SequenceMap.mk2 4 "d") nil nil 0) 1)
        (node (SequenceMap.mk2 8 "h") (node (SequenceMap.mk2 7 "g") nil nil 0)
          (node (SequenceMap.mk2 9 "i") nil nil 0) 1) 2) ∧
      applyOps [Op.insert (SequenceMap.mk2 5 "e"), Op.insert (SequenceMap.mk2 3 "c"),
        Op.insert (SequenceMap.mk2 8 "h"), Op.insert (SequenceMap.mk2 1 "a"),
        Op.insert (SequenceMap.mk2 4 "d"), Op.insert (SequenceMap.mk2 7 "g"),
        Op.insert (SequenceMap.mk2 9 "i"), Op.remove (SequenceMap.mk2 5 "")] nil =
      some (node (SequenceMap.mk2 7 "g")
        (node (SequenceMap.mk2 3 "c") (node (SequenceMap.mk2 1 "a") nil nil 0)
          (node (SequenceMap.mk2 4 "d") nil nil 0) 1)
        (node (SequenceMap.mk2 8 "h") nil (node (SequenceMap.mk2 9 "i") nil nil 0) 1) 2) ∧
      ∃ t1, remove (SequenceMap.mk2 5 "") (node (SequenceMap.mk2 5 "e")
        (node (SequenceMap.mk2 3 "c") (node (SequenceMap.mk2 1 "a") nil nil 0)
          (node (SequenceMap.mk2 4 "d") nil nil 0) 1)
        (node (SequenceMap.mk2 8 "h") (node (SequenceMap.mk2 7 "g") nil nil 0)
          (node (SequenceMap.mk2 9 "i") nil nil 0) 1) 2) = some t1 ∧
        (∃ l e r, inorder (node (SequenceMap.mk2 5 "e")
            (node (SequenceMap.mk2 3 "c") (node (SequenceMap.mk2 1 "a") nil nil 0)
              (node (SequenceMap.mk2 4 "d") nil nil 0) 1)
            (node (SequenceMap.mk2 8 "h") (node (SequenceMap.mk2 7 "g") nil nil 0)
              (node (SequenceMap.mk2 9 "i") nil nil 0) 1) 2) = l ++ e :: r ∧
          e.recognition_sequence_ = (SequenceMap.mk2 5 "").recognition_sequence_ ∧
          inorder t1 = l ++ r) ∧
        numberOfNodes t1 + 1 = numberOfNodes (node (SequenceMap.mk2 5 "e")
          (node (SequenceMap.mk2 3 "c") (node (SequenceMap.mk2 1 "a") nil nil 0)
            (node (SequenceMap.mk2 4 "d") nil nil 0) 1)
          (node (SequenceMap.mk2 8 "h") (node (SequenceMap.mk2 7 "g") nil nil 0)
            (node (SequenceMap.mk2 9 "i") nil nil 0) 1) 2) :=
  ⟨by decide, by decide, remove_present _ (by decide) (by decide) _ (by decide)⟩

/-- C5. Plain remove of an absent key is a no-op: on a tree obtained from the
empty tree by inserts and plain removes, the remove of a key that no node holds
returns the very same tree (shape, entries, labels and cached heights), so the
number of nodes is unchanged. -/
theorem remove_absent_noop (ops : List (Op K)) (hp : ∀ o ∈ ops, Op.plain o = true)
    (t : AvlNode K) (ht : applyOps ops nil = some t) (x : SequenceMap K)
    (hx : ¬ HoldsKey x.recognition_sequence_ t) :
    remove x t = some t ∧
      ∀ t1, remove x t = some t1 → numberOfNodes t1 = numberOfNodes t := by
  obtain ⟨t0, e1, a1⟩ := applyOps_avl ops hp (t := nil) trivial
  rw [ht, Option.some.injEq] at e1
  subst e1
  have e2 := remove_absent x a1 hx
  refine ⟨e2, fun t1 h1 => ?_⟩
  rw [e2, Option.some.injEq] at h1
  rw [h1]

theorem remove_absent_noop_witness :
    (∀ o ∈ [Op.insert (SequenceMap.mk2 2 "b"), Op.insert (SequenceMap.mk2 1 "a"),
        Op.insert (SequenceMap.mk2 3 "c")], Op.plain o = true) ∧
      applyOps [Op.insert (SequenceMap.mk2 2 "b"), Op.insert (SequenceMap.mk2 1 "a"),
        Op.insert (SequenceMap.mk2 3 "c")] nil =
        some (node (SequenceMap.mk2 2 "b") (node (SequenceMap.mk2 1 "a") nil nil 0)
          (node (SequenceMap.mk2 3 "c") nil nil 0) 1) ∧
      ¬ HoldsKey (SequenceMap.mk2 7 "z").recognition_sequence_
        (node (SequenceMap.mk2 2 "b") (node (SequenceMap.mk2 1 "a") nil nil 0)
          (node (SequenceMap.mk2 3 "c") nil nil 0) 1) ∧
      remove (SequenceMap.mk2 7 "z")
        (node (SequenceMap.mk2 2 "b") (node (SequenceMap.mk2 1 "a") nil nil 0)
          (node (SequenceMap.mk2 3 "c") nil nil 0) 1) =
        some (node (SequenceMap.mk2 2 "b") (node (SequenceMap.mk2 1 "a") nil nil 0)
          (node (SequenceMap.mk2 3 "c") nil nil 0) 1) :=
  ⟨by decide, by decide, by decide,
    (remove_absent_noop [Op.insert (SequenceMap.mk2 2 "b"), Op.insert (SequenceMap.mk2 1 "a"),
      Op.insert (SequenceMap.mk2 3 "c")] (by decide) _ (by decide) _ (by decide)).1⟩

/-- C6. Round trip: inserting a list of entries into the empty tree and then
calling the plain remove once for each distinct key, in any order, is defined
throughout and ends in the empty tree: no nodes, `isEmpty` true, and `contains`
false for every removed key. -/
theorem round_trip (es rs : List (SequenceMap K))
    (hperm : (rs.map fun x => x.recognition_sequence_).Perm
      (es.map fun x => x.recognition_sequence_).dedup) :
    ∃ t t2, applyOps (es.map Op.insert) nil = some t ∧
      applyOps (rs.map Op.remove) t = some t2 ∧ t2 = nil ∧
      numberOfNodes t2 = 0 ∧ isEmpty t2 = true ∧ ∀ x ∈ rs, contains x t2 = false := by
  obtain ⟨t, e1, a1, b1, c1⟩ := applyOps_inserts es (t := nil) trivial List.Pairwise.nil
  obtain ⟨t2, e2, a2, b2, c2⟩ := applyOps_removes rs a1 b1
  have hnil : t2 = nil := by
    apply inorder_eq_nil
    rw [List.eq_nil_iff_forall_not_mem]
    intro a ha
    rw [c2] at ha
    obtain ⟨h1, h2⟩ := mem_foldl_delList rs ha
    rw [c1] at h1
    rcases key_of_mem_foldl_insList es h1 with ⟨x, hx, hk⟩ | ⟨b, hb, -⟩
    · have h3 : a.recognition_sequence_ ∈ (es.map fun x => x.recognition_sequence_).dedup :=
        List.mem_dedup.mpr (List.mem_map.mpr ⟨x, hx, hk⟩)
      obtain ⟨y, hy, hk2⟩ := List.mem_map.mp (hperm.mem_iff.mpr h3)
      exact h2 y hy hk2.symm
    · exact absurd hb (List.not_mem_nil b)
  subst hnil
  exact ⟨t, nil, e1, e2, rfl, rfl, rfl, fun x _ => rfl⟩

theorem round_trip_witness :
    ([SequenceMap.mk2 3 "", SequenceMap.mk2 1 "", SequenceMap.mk2 2 ""].map
        fun x => x.recognition_sequence_).Perm
      ([SequenceMap.mk2 1 "a", SequenceMap.mk2 2 "b", SequenceMap.mk2 1 "c",
        SequenceMap.mk2 3 "d"].map fun x => x.recognition_sequence_).dedup ∧
      ∃ t t2, applyOps ([SequenceMap.mk2 1 "a", SequenceMap.mk2 2 "b", SequenceMap.mk2 1 "c",
          SequenceMap.mk2 3 "d"].map Op.insert) nil = some t ∧
        applyOps ([SequenceMap.mk2 3 "", SequenceMap.mk2 1 "", SequenceMap.mk2 2 ""].map
          Op.remove) t = some t2 ∧ t2 = nil ∧
        numberOfNodes t2 = 0 ∧ isEmpty t2 = true ∧
        ∀ x ∈ [SequenceMap.mk2 3 "", SequenceMap.mk2 1 "", SequenceMap.mk2 2 ""],
          contains x t2 = false :=
  ⟨by decide, round_trip _ _ (by decide)⟩

/-- C7. The instrumented remove does not keep the balance invariant: the tree
built by inserting B, A, C, D is balanced, the instrumented remove of A unlinks
the left leaf and returns without rebalancing, and the root is left with an
absent left subtree (height -1) and a right subtree of height 1. -/
theorem removeCounted_breaks_balance :
    applyOps [Op.insert (SequenceMap.mk2 "B" "b"), Op.insert (SequenceMap.mk2 "A" "a"),
        Op.insert (SequenceMap.mk2 "C" "c"), Op.insert (SequenceMap.mk2 "D" "d")] nil =
        some (node (SequenceMap.mk2 "B" "b") (node (SequenceMap.mk2 "A" "a") nil nil 0)
          (node (SequenceMap.mk2 "C" "c") nil (node (SequenceMap.mk2 "D" "d") nil nil 0) 1) 2) ∧
      Balanced (node (SequenceMap.mk2 "B" "b") (node (SequenceMap.mk2 "A" "a") nil nil 0)
          (node (SequenceMap.mk2 "C" "c") nil (node (SequenceMap.mk2 "D" "d") nil nil 0) 1) 2) ∧
      removeCounted "A"
          (node (SequenceMap.mk2 "B" "b") (node (SequenceMap.mk2 "A" "a") nil nil 0)
            (node (SequenceMap.mk2 "C" "c") nil (node (SequenceMap.mk2 "D" "d") nil nil 0) 1) 2)
          0 =
        some (node (SequenceMap.mk2 "B" "b") nil
          (node (SequenceMap.mk2 "C" "c") nil (node (SequenceMap.mk2 "D" "d") nil nil 0) 1) 2,
          true, 2) ∧
      ¬ Balanced (node (SequenceMap.mk2 "B" "b") nil
          (node (SequenceMap.mk2 "C" "c") nil (node (SequenceMap.mk2 "D" "d") nil nil 0) 1) 2) :=
  removeCounted_no_rebalance (SequenceMap.mk2 "A" "a") (SequenceMap.mk2 "B" "b")
    (SequenceMap.mk2 "C" "c") (SequenceMap.mk2 "D" "d")
    (by show "A" < "B"; rw [String.lt_iff_toList_lt]; decide)
    (by show "B" < "C"; rw [String.lt_iff_toList_lt]; decide)
    (by show "C" < "D"; rw [String.lt_iff_toList_lt]; decide)

/-- C8. Height correctness: after any finite sequence of insert and plain
remove calls on the empty tree, the cached height of every node is one more
than the larger cached height of its children (absent child -1), and therefore
equals the height of the subtree below the node. -/
theorem height_correctness (ops : List (Op K)) (hp : ∀ o ∈ ops, Op.plain o = true) :
    ∃ t, applyOps ops nil = some t ∧ HeightOK t ∧ CachedIsTrue t := by
  obtain ⟨t, e1, a1⟩ := applyOps_avl ops hp (t := nil) trivial
  exact ⟨t, e1, heightOK_of_avl a1, cachedIsTrue_of_avl a1⟩

theorem height_correctness_witness :
    (∀ o ∈ [Op.insert (SequenceMap.mk2 3 "a"), Op.insert (SequenceMap.mk2 2 "b"),
        Op.insert (SequenceMap.mk2 1 "c"), Op.remove (SequenceMap.mk2 2 "")],
        Op.plain o = true) ∧
      ∃ t, applyOps [Op.insert (SequenceMap.mk2 3 "a"), Op.insert (SequenceMap.mk2 2 "b"),
        Op.insert (SequenceMap.mk2 1 "c"), Op.remove (SequenceMap.mk2 2 "")] nil = some t ∧
        HeightOK t ∧ CachedIsTrue t :=
  ⟨by decide, height_correctness _ (by decide)⟩

/-- C9. Logarithmic height: a non-empty tree obtained from the empty tree by
inserts and plain removes, with `n` nodes and root height `h`, has
`fib (h + 3) ≤ n + 1`, and hence `2 ^ (h + 2) ≤ (n + 1) ^ 2`. -/
theorem logarithmic_height (ops : List (Op K)) (hp : ∀ o ∈ ops, Op.plain o = true) :
    ∃ t, applyOps ops nil = some t ∧
      (t ≠ nil →
        Nat.fib (Int.toNat (trueHeight t + 3)) ≤ numberOfNodes t + 1 ∧
        2 ^ Int.toNat (trueHeight t + 2) ≤ (numberOfNodes t + 1) ^ 2) := by
  obtain ⟨t, e1, a1⟩ := applyOps_avl ops hp (t := nil) trivial
  refine ⟨t, e1, fun hne => ?_⟩
  have g1 := height_ge_of_avl a1
  have g2 := height_eq_trueHeight a1
  cases t with
  | nil => exact absurd rfl hne
  | node e l r h =>
    have g0 := height_nonneg_of_avl a1
    obtain ⟨n, hn⟩ := Int.eq_ofNat_of_zero_le g0
    have f1 := fib_le_numberOfNodes a1 (n + 1) (by simp only [height_node]; omega)
    have e3 : Int.toNat (trueHeight (node e l r h) + 3) = n + 1 + 2 := by
      simp only [height_node] at g2; omega
    have e4 : Int.toNat (trueHeight (node e l r h) + 2) = n + 2 := by
      simp only [height_node] at g2; omega
    rw [e3, e4]
    refine ⟨f1, le_trans (two_pow_le_fib_sq n) (Nat.pow_le_pow_left f1 2)⟩

theorem logarithmic_height_witness :
    (∀ o ∈ [Op.insert (SequenceMap.mk2 5 "a"), Op.insert (SequenceMap.mk2 6 "b"),
        Op.insert (SequenceMap.mk2 7 "c"), Op.insert (SequenceMap.mk2 8 "d")],
        Op.plain o = true) ∧
      ∃ t, applyOps [Op.insert (SequenceMap.mk2 5 "a"), Op.insert (SequenceMap.mk2 6 "b"),
        Op.insert (SequenceMap.mk2 7 "c"), Op.insert (SequenceMap.mk2 8 "d")] nil = some t ∧
        (t ≠ nil →
          Nat.fib (Int.toNat (trueHeight t + 3)) ≤ numberOfNodes t + 1 ∧
          2 ^ Int.toNat (trueHeight t + 2) ≤ (numberOfNodes t + 1) ^ 2) :=
  ⟨by decide, logarithmic_height _ (by decide)⟩

/-- C10. `contains` is exact membership: on a tree whose in-order traversal is
strictly increasing by key, `contains( x )` is true exactly when some node holds
an entry that is neither less than `x` nor greater, that is, an entry with the
key of `x`; on the empty tree it is false. -/
theorem contains_exact (t : AvlNode K) (ho : Ordered t) (x : SequenceMap K) :
    (contains x t = true ↔ ∃ e ∈ inorder t, ¬ e < x ∧ ¬ x < e) ∧
      (contains x t = true ↔ HoldsKey x.recognition_sequence_ t) ∧
      contains x (nil : AvlNode K) = false := by
  refine ⟨?_, contains_iff x ho, rfl⟩
  rw [contains_iff x ho]
  constructor
  · rintro ⟨e, he, hk⟩
    exact ⟨e, he, by rw [lt_def, hk]; exact lt_irrefl _, by rw [lt_def, hk]; exact lt_irrefl _⟩
  · rintro ⟨e, he, h1, h2⟩
    exact ⟨e, he, le_antisymm (not_lt.mp h2) (not_lt.mp h1)⟩

theorem contains_exact_witness :
    Ordered (node (SequenceMap.mk2 4 "d") (node (SequenceMap.mk2 2 "b") nil nil 0)
        (node (SequenceMap.mk2 6 "f") nil nil 0) 1) ∧
      contains (SequenceMap.mk2 6 "")
        (node (SequenceMap.mk2 4 "d") (node (SequenceMap.mk2 2 "b") nil nil 0)
          (node (SequenceMap.mk2 6 "f") nil nil 0) 1) = true ∧
      (contains (SequenceMap.mk2 5 "")
        (node (SequenceMap.mk2 4 "d") (node (SequenceMap.mk2 2 "b") nil nil 0)
          (node (SequenceMap.mk2 6 "f") nil nil 0) 1) = true ↔
        HoldsKey (SequenceMap.mk2 5 "").recognition_sequence_
          (node (SequenceMap.mk2 4 "d") (node (SequenceMap.mk2 2 "b") nil nil 0)
            (node (SequenceMap.mk2 6 "f") nil nil 0) 1)) :=
  ⟨by decide, by decide, (contains_exact _ (by decide) _).2.1⟩

/-- C11. Instrumented find agrees with contains: on every tree and for every
key `k`, whatever the counter, the public `find( k, counter )` returns 1 when
`contains` is true for an entry with key `k` (whatever its labels) and 0
otherwise.  The function is `const`: the tree is an argument only and is not
among the results. -/
theorem find_agrees_with_contains (t : AvlNode K) (k : K) (ls : List String) (c : Int) :
    ((findPublic k t c).1 = 1 ↔ contains ⟨k, ls⟩ t = true) ∧
      ((findPublic k t c).1 = 0 ↔ contains ⟨k, ls⟩ t = false) ∧
      (find k t c).1 = contains ⟨k, ls⟩ t := by
  have h := find_eq_contains k ls t c
  simp only [findPublic, h]
  cases contains ⟨k, ls⟩ t <;> simp

/-- C12. Step-count bound of the instrumented find: on a tree obtained from the
empty tree by inserts and plain removes, the search for a key that some node
holds succeeds, and it adds to the counter at least 1 and at most the height of
the tree plus 1 (the cached height of the root, which is the height of the tree). -/
theorem find_step_bound (ops : List (Op K)) (hp : ∀ o ∈ ops, Op.plain o = true)
    (t : AvlNode K) (ht : applyOps ops nil = some t) (k : K) (hk : HoldsKey k t) (c : Int) :
    (findPublic k t c).1 = 1 ∧
      1 ≤ (findPublic k t c).2 - c ∧
      (findPublic k t c).2 - c ≤ height t + 1 ∧
      height t = trueHeight t := by
  obtain ⟨t0, e1, a1⟩ := applyOps_avl ops hp (t := nil) trivial
  rw [ht, Option.some.injEq] at e1
  subst e1
  obtain ⟨t1, e2, -, o1⟩ := applyOps_ordered ops (t := nil) trivial List.Pairwise.nil
  rw [ht, Option.some.injEq] at e2
  subst e2
  have hf : (find k t c).1 = true := by
    rw [find_eq_contains k [] t c]
    exact (contains_iff ⟨k, []⟩ o1).mpr hk
  have hs := find_steps k t c
  have hh := height_eq_trueHeight a1
  have h2 := hs.2 hf
  refine ⟨by simp [findPublic, hf], ?_, ?_, hh⟩
  · simp only [findPublic]
    omega
  · simp only [findPublic]
    omega

theorem find_step_bound_witness :
    (∀ o ∈ [Op.insert (SequenceMap.mk2 2 "b"), Op.insert (SequenceMap.mk2 1 "a"),
        Op.insert (SequenceMap.mk2 3 "c")], Op.plain o = true) ∧
      HoldsKey 3 (node (SequenceMap.mk2 2 "b") (node (SequenceMap.mk2 1 "a") nil nil 0)
        (node (SequenceMap.mk2 3 "c") nil nil 0) 1) ∧
      (findPublic 3 (node (SequenceMap.mk2 2 "b") (node (SequenceMap.mk2 1 "a") nil nil 0)
        (node (SequenceMap.mk2 3 "c") nil nil 0) 1) 10) = (1, 12) ∧
      (findPublic 3 (node (SequenceMap.mk2 2 "b") (node (SequenceMap.mk2 1 "a") nil nil 0)
        (node (SequenceMap.mk2 3 "c") nil nil 0) 1) 10).2 - 10 ≤
        height (node (SequenceMap.mk2 2 "b") (node (SequenceMap.mk2 1 "a") nil nil 0)
          (node (SequenceMap.mk2 3 "c") nil nil 0) 1) + 1 :=
  ⟨by decide, by decide, by decide,
    (find_step_bound [Op.insert (SequenceMap.mk2 2 "b"), Op.insert (SequenceMap.mk2 1 "a"),
      Op.insert (SequenceMap.mk2 3 "c")] (by decide) _ (by decide) 3 (by decide) 10).2.2.1⟩

/-- C13. The instrumented remove removes exactly the key: on a tree whose
in-order traversal is strictly increasing by key, the public
`remove( k, counter )` is defined and returns 1 exactly when some node holds
`k` (and 0 otherwise); when it returns 1 the in-order list of entries afterwards
is the previous one with the entry of key `k` deleted and every other entry
unchanged, and the number of nodes has decreased by exactly 1. -/
theorem removeCounted_removes_key (t : AvlNode K) (ho : Ordered t) (k : K) (c : Int) :
    ∃ t1 b c1, removeCountedPublic k t c = some (t1, b, c1) ∧
      (b = 1 ∨ b = 0) ∧ (b = 1 ↔ HoldsKey k t) ∧
      (b = 1 →
        (∃ l e r, inorder t = l ++ e :: r ∧ e.recognition_sequence_ = k ∧
          inorder t1 = l ++ r) ∧
        numberOfNodes t1 + 1 = numberOfNodes t) := by
  obtain ⟨p, e1, -⟩ := removeCounted_total k t c
  have e2 := removeCounted_inorder k c ho e1
  have e3 := removeCounted_found k c ho e1
  refine ⟨p.1, (if p.2.1 then 1 else 0), p.2.2, by simp [removeCountedPublic, e1], ?_, ?_, ?_⟩
  · cases p.2.1 <;> simp
  · rw [← e3]
    cases p.2.1 <;> simp
  · intro hb
    have hk : HoldsKey k t := by
      rw [← e3]
      by_contra hne
      simp [hne] at hb
    obtain ⟨l, e, r, p1, p2, p3⟩ := delList_split k ho hk
    refine ⟨⟨l, e, r, p1, p2, by rw [e2, p3]⟩, ?_⟩
    rw [numberOfNodes_eq_length, numberOfNodes_eq_length, e2, p3, p1]
    simp only [List.length_append, List.length_cons]
    omega

theorem removeCounted_removes_key_witness :
    Ordered (node (SequenceMap.mk2 4 "d") (node (SequenceMap.mk2 2 "b") nil nil 0)
        (node (SequenceMap.mk2 6 "f") nil (node (SequenceMap.mk2 7 "g") nil nil 0) 1) 2) ∧
      removeCountedPublic 4 (node (SequenceMap.mk2 4 "d") (node (SequenceMap.mk2 2 "b") nil nil 0)
        (node (SequenceMap.mk2 6 "f") nil (node (SequenceMap.mk2 7 "g") nil nil 0) 1) 2) 0 =
        some (node (SequenceMap.mk2 6 "f") (node (SequenceMap.mk2 2 "b") nil nil 0)
          (node (SequenceMap.mk2 7 "g") nil nil 0) 2, 1, 2) ∧
      ∃ t1 b c1, removeCountedPublic 4 (node (SequenceMap.mk2 4 "d") (node (SequenceMap.mk2 2 "b") nil nil 0)
        (node (SequenceMap.mk2 6 "f") nil (node (SequenceMap.mk2 7 "g") nil nil 0) 1) 2) 0 = some (t1, b, c1) ∧
        (b = 1 ∨ b = 0) ∧ (b = 1 ↔ HoldsKey 4 (node (SequenceMap.mk2 4 "d") (node (SequenceMap.mk2 2 "b") nil nil 0)
        (node (SequenceMap.mk2 6 "f") nil (node (SequenceMap.mk2 7 "g") nil nil 0) 1) 2)) ∧
        (b = 1 →
          (∃ l e r, inorder (node (SequenceMap.mk2 4 "d") (node (SequenceMap.mk2 2 "b") nil nil 0)
        (node (SequenceMap.mk2 6 "f") nil (node (SequenceMap.mk2 7 "g") nil nil 0) 1) 2) = l ++ e :: r ∧ e.recognition_sequence_ = 4 ∧
            inorder t1 = l ++ r) ∧
          numberOfNodes t1 + 1 = numberOfNodes (node (SequenceMap.mk2 4 "d") (node (SequenceMap.mk2 2 "b") nil nil 0)
        (node (SequenceMap.mk2 6 "f") nil (node (SequenceMap.mk2 7 "g") nil nil 0) 1) 2)) :=
  ⟨by decide, by decide, removeCounted_removes_key _ (by decide) 4 0⟩

/-- C14. The instrumented remove of an absent key reports not found and changes
nothing: for a key that no node holds, the public `remove( k, counter )` is
defined, returns 0, and the tree afterwards is the tree before (shape, entries,
labels and cached heights). -/
theorem removeCounted_absent_noop (t : AvlNode K) (k : K) (hk : ¬ HoldsKey k t) (c : Int) :
    ∃ c1, removeCountedPublic k t c = some (t, 0, c1) := by
  obtain ⟨c1, e1⟩ := removeCounted_absent k c hk
  exact ⟨c1, by simp [removeCountedPublic, e1]⟩

theorem removeCounted_absent_noop_witness :
    ¬ HoldsKey 5 (node (SequenceMap.mk2 4 "d") (node (SequenceMap.mk2 2 "b") nil nil 0)
        (node (SequenceMap.mk2 6 "f") nil (node (SequenceMap.mk2 7 "g") nil nil 0) 1) 2) ∧
      removeCountedPublic 5 (node (SequenceMap.mk2 4 "d") (node (SequenceMap.mk2 2 "b") nil nil 0)
        (node (SequenceMap.mk2 6 "f") nil (node (SequenceMap.mk2 7 "g") nil nil 0) 1) 2) 0 = some ((node (SequenceMap.mk2 4 "d") (node (SequenceMap.mk2 2 "b") nil nil 0)
        (node (SequenceMap.mk2 6 "f") nil (node (SequenceMap.mk2 7 "g") nil nil 0) 1) 2), 0, 3) ∧
      ∃ c1, removeCountedPublic 5 (node (SequenceMap.mk2 4 "d") (node (SequenceMap.mk2 2 "b") nil nil 0)
        (node (SequenceMap.mk2 6 "f") nil (node (SequenceMap.mk2 7 "g") nil nil 0) 1) 2) 0 = some ((node (SequenceMap.mk2 4 "d") (node (SequenceMap.mk2 2 "b") nil nil 0)
        (node (SequenceMap.mk2 6 "f") nil (node (SequenceMap.mk2 7 "g") nil nil 0) 1) 2), 0, c1) :=
  ⟨by decide, by decide, removeCounted_absent_noop _ 5 (by decide) 0⟩

/-- C15. Exceptions: the public `findMin( )` and `findMax( )` end in
`UnderflowException` exactly on the empty tree and return an entry otherwise;
both removes are defined on every tree that has no negative cached height, and
`contains` and `find` are total functions whose results have no exceptional
value. -/
theorem underflow_iff_empty (t : AvlNode K) (hn : HeightsNonneg t) (x : SequenceMap K)
    (k : K) (c : Int) :
    (findMinPublic t = Except.error UnderflowException.mk ↔ isEmpty t = true) ∧
      (findMaxPublic t = Except.error UnderflowException.mk ↔ isEmpty t = true) ∧
      (isEmpty t = false → ∃ e, findMinPublic t = Except.ok (some e)) ∧
      (isEmpty t = false → ∃ e, findMaxPublic t = Except.ok (some e)) ∧
      (∃ t1, remove x t = some t1) ∧
      (∃ p, removeCountedPublic k t c = some p) ∧
      (∃ b, contains x t = b) ∧ (∃ p, findPublic k t c = p) := by
  obtain ⟨t1, e1, -⟩ := remove_hnn x hn
  obtain ⟨p, e2, -⟩ := removeCounted_total k t c
  refine ⟨?_, ?_, ?_, ?_, ⟨t1, e1⟩,
    ⟨(p.1, (if p.2.1 then 1 else 0), p.2.2), by simp [removeCountedPublic, e2]⟩,
    ⟨_, rfl⟩, ⟨_, rfl⟩⟩
  · cases t <;> simp [findMinPublic, isEmpty]
  · cases t <;> simp [findMaxPublic, isEmpty]
  · cases t with
    | nil => simp [isEmpty]
    | node e l r h =>
      intro _
      obtain ⟨m, rest, p1, -⟩ := findMin_spec e l r h
      exact ⟨m, by simp [findMinPublic, isEmpty, p1]⟩
  · cases t with
    | nil => simp [isEmpty]
    | node e l r h =>
      intro _
      obtain ⟨m, init, p1, -⟩ := findMax_spec e l r h
      exact ⟨m, by simp [findMaxPublic, isEmpty, p1]⟩

theorem underflow_iff_empty_witness :
    HeightsNonneg (node (SequenceMap.mk2 4 "d") (node (SequenceMap.mk2 2 "b") nil nil 0)
        (node (SequenceMap.mk2 6 "f") nil (node (SequenceMap.mk2 7 "g") nil nil 0) 1) 2) ∧
      findMinPublic (nil : AvlNode Nat) = Except.error UnderflowException.mk ∧
      findMinPublic (node (SequenceMap.mk2 4 "d") (node (SequenceMap.mk2 2 "b") nil nil 0)
        (node (SequenceMap.mk2 6 "f") nil (node (SequenceMap.mk2 7 "g") nil nil 0) 1) 2) = Except.ok (some (SequenceMap.mk2 2 "b")) ∧
      findMaxPublic (node (SequenceMap.mk2 4 "d") (node (SequenceMap.mk2 2 "b") nil nil 0)
        (node (SequenceMap.mk2 6 "f") nil (node (SequenceMap.mk2 7 "g") nil nil 0) 1) 2) = Except.ok (some (SequenceMap.mk2 7 "g")) ∧
      (findMinPublic (node (SequenceMap.mk2 4 "d") (node (SequenceMap.mk2 2 "b") nil nil 0)
        (node (SequenceMap.mk2 6 "f") nil (node (SequenceMap.mk2 7 "g") nil nil 0) 1) 2) = Except.error UnderflowException.mk ↔ isEmpty (node (SequenceMap.mk2 4 "d") (node (SequenceMap.mk2 2 "b") nil nil 0)
        (node (SequenceMap.mk2 6 "f") nil (node (SequenceMap.mk2 7 "g") nil nil 0) 1) 2) = true) :=
  ⟨by decide, rfl, rfl, rfl,
    (underflow_iff_empty (node (SequenceMap.mk2 4 "d") (node (SequenceMap.mk2 2 "b") nil nil 0)
        (node (SequenceMap.mk2 6 "f") nil (node (SequenceMap.mk2 7 "g") nil nil 0) 1) 2) (by decide) (SequenceMap.mk2 1 "") 1 0).1⟩

/-- C16. The extremes: on a non-empty tree whose in-order traversal is strictly
increasing by key, the public `findMin( )` returns the first entry of the
in-order traversal, whose key is less than the key of every other entry, and
`findMax( )` returns the last entry, whose key is greater than the key of every
other entry. -/
theorem findMin_findMax_extremes (t : AvlNode K) (ho : Ordered t) (hne : isEmpty t = false) :
    ∃ mn mx, findMinPublic t = Except.ok (some mn) ∧
      findMaxPublic t = Except.ok (some mx) ∧
      (inorder t).head? = some mn ∧ (inorder t).getLast? = some mx ∧
      (∀ e ∈ inorder t, e ≠ mn → mn.recognition_sequence_ < e.recognition_sequence_) ∧
      (∀ e ∈ inorder t, e ≠ mx → e.recognition_sequence_ < mx.recognition_sequence_) := by
  cases t with
  | nil => simp [isEmpty] at hne
  | node e l r h =>
    obtain ⟨mn, rest, p1, p2⟩ := findMin_spec e l r h
    obtain ⟨mx, init, q1, q2⟩ := findMax_spec e l r h
    refine ⟨mn, mx, by simp [findMinPublic, isEmpty, p1], by simp [findMaxPublic, isEmpty, q1],
      by rw [p2]; rfl, by rw [q2]; simp, ?_, ?_⟩
    · intro a ha hn
      have ho1 := ho
      simp only [Ordered, p2, List.pairwise_cons] at ho1
      rw [p2] at ha
      rcases List.mem_cons.mp ha with ha | ha
      · exact absurd ha hn
      · exact ho1.1 a ha
    · intro a ha hn
      have ho1 := ho
      simp only [Ordered, q2, List.pairwise_append] at ho1
      rw [q2] at ha
      rcases List.mem_append.mp ha with ha | ha
      · exact ho1.2.2 a ha mx (List.mem_singleton_self _)
      · exact absurd (List.mem_singleton.mp ha) hn

theorem findMin_findMax_extremes_witness :
    Ordered (node (SequenceMap.mk2 4 "d") (node (SequenceMap.mk2 2 "b") nil nil 0)
        (node (SequenceMap.mk2 6 "f") nil (node (SequenceMap.mk2 7 "g") nil nil 0) 1) 2) ∧ isEmpty (node (SequenceMap.mk2 4 "d") (node (SequenceMap.mk2 2 "b") nil nil 0)
        (node (SequenceMap.mk2 6 "f") nil (node (SequenceMap.mk2 7 "g") nil nil 0) 1) 2) = false ∧
      ∃ mn mx, findMinPublic (node (SequenceMap.mk2 4 "d") (node (SequenceMap.mk2 2 "b") nil nil 0)
        (node (SequenceMap.mk2 6 "f") nil (node (SequenceMap.mk2 7 "g") nil nil 0) 1) 2) = Except.ok (some mn) ∧
        findMaxPublic (node (SequenceMap.mk2 4 "d") (node (SequenceMap.mk2 2 "b") nil nil 0)
        (node (SequenceMap.mk2 6 "f") nil (node (SequenceMap.mk2 7 "g") nil nil 0) 1) 2) = Except.ok (some mx) ∧
        (inorder (node (SequenceMap.mk2 4 "d") (node (SequenceMap.mk2 2 "b") nil nil 0)
        (node (SequenceMap.mk2 6 "f") nil (node (SequenceMap.mk2 7 "g") nil nil 0) 1) 2)).head? = some mn ∧ (inorder (node (SequenceMap.mk2 4 "d") (node (SequenceMap.mk2 2 "b") nil nil 0)
        (node (SequenceMap.mk2 6 "f") nil (node (SequenceMap.mk2 7 "g") nil nil 0) 1) 2)).getLast? = some mx ∧
        (∀ e ∈ inorder (node (SequenceMap.mk2 4 "d") (node (SequenceMap.mk2 2 "b") nil nil 0)
        (node (SequenceMap.mk2 6 "f") nil (node (SequenceMap.mk2 7 "g") nil nil 0) 1) 2), e ≠ mn → mn.recognition_sequence_ < e.recognition_sequence_) ∧
        (∀ e ∈ inorder (node (SequenceMap.mk2 4 "d") (node (SequenceMap.mk2 2 "b") nil nil 0)
        (node (SequenceMap.mk2 6 "f") nil (node (SequenceMap.mk2 7 "g") nil nil 0) 1) 2), e ≠ mx → e.recognition_sequence_ < mx.recognition_sequence_) :=
  ⟨by decide, rfl, findMin_findMax_extremes _ (by decide) rfl⟩

/-- C19. The instrumented remove does not leave the tree of the plain remove:
on the tree built by inserting C, A, G, T, the plain remove of A rotates at the
root and leaves G over C and T with root height 1, while the instrumented
remove of A returns 1 and leaves C at the root with an absent left subtree and
the cached height 2. -/
theorem removeCounted_differs_from_remove :
    applyOps [Op.insert (SequenceMap.mk2 "C" "c"), Op.insert (SequenceMap.mk2 "A" "a"),
        Op.insert (SequenceMap.mk2 "G" "g"), Op.insert (SequenceMap.mk2 "T" "t")] nil =
        some (node (SequenceMap.mk2 "C" "c") (node (SequenceMap.mk2 "A" "a") nil nil 0)
          (node (SequenceMap.mk2 "G" "g") nil (node (SequenceMap.mk2 "T" "t") nil nil 0) 1) 2) ∧
      remove (SequenceMap.mk2 "A" "a")
          (node (SequenceMap.mk2 "C" "c") (node (SequenceMap.mk2 "A" "a") nil nil 0)
            (node (SequenceMap.mk2 "G" "g") nil (node (SequenceMap.mk2 "T" "t") nil nil 0) 1)
            2) =
        some (node (SequenceMap.mk2 "G" "g") (node (SequenceMap.mk2 "C" "c") nil nil 0)
          (node (SequenceMap.mk2 "T" "t") nil nil 0) 1) ∧
      removeCountedPublic "A"
          (node (SequenceMap.mk2 "C" "c") (node (SequenceMap.mk2 "A" "a") nil nil 0)
            (node (SequenceMap.mk2 "G" "g") nil (node (SequenceMap.mk2 "T" "t") nil nil 0) 1)
            2) 0 =
        some (node (SequenceMap.mk2 "C" "c") nil
          (node (SequenceMap.mk2 "G" "g") nil (node (SequenceMap.mk2 "T" "t") nil nil 0) 1) 2,
          1, 2) ∧
      node (SequenceMap.mk2 "G" "g") (node (SequenceMap.mk2 "C" "c") nil nil 0)
          (node (SequenceMap.mk2 "T" "t") nil nil 0) 1 ≠
        node (SequenceMap.mk2 "C" "c") nil
          (node (SequenceMap.mk2 "G" "g") nil (node (SequenceMap.mk2 "T" "t") nil nil 0) 1) 2 :=
  remove_rotates_removeCounted_not (SequenceMap.mk2 "A" "a") (SequenceMap.mk2 "C" "c")
    (SequenceMap.mk2 "G" "g") (SequenceMap.mk2 "T" "t")
    (by show "A" < "C"; rw [String.lt_iff_toList_lt]; decide)
    (by show "C" < "G"; rw [String.lt_iff_toList_lt]; decide)
    (by show "G" < "T"; rw [String.lt_iff_toList_lt]; decide)

/-- Insert of a key that is present, for an argument that is an object of the
caller: on a tree obtained from the empty tree by inserts and plain removes, the
insert of an entry whose key some node holds is defined and returns the tree of
the same shape and the same cached heights (`mergeInto`), in which the node of
that key has its old labels followed by the labels of the entry and every other
entry is unchanged; the keys in order and the number of nodes are as before. -/
theorem insert_present (ops : List (Op K)) (hp : ∀ o ∈ ops, Op.plain o = true)
    (t : AvlNode K) (ht : applyOps ops nil = some t) (x : SequenceMap K)
    (hx : HoldsKey x.recognition_sequence_ t) :
    insert x t = some (mergeInto x t) ∧
      (inorder (mergeInto x t)).map (fun e => e.recognition_sequence_) =
        (inorder t).map (fun e => e.recognition_sequence_) ∧
      numberOfNodes (mergeInto x t) = numberOfNodes t ∧
      height (mergeInto x t) = height t := by
  obtain ⟨t0, e1, a1⟩ := applyOps_avl ops hp (t := nil) trivial
  rw [ht, Option.some.injEq] at e1
  subst e1
  obtain ⟨t1, e2, -, o1⟩ := applyOps_ordered ops (t := nil) trivial List.Pairwise.nil
  rw [ht, Option.some.injEq] at e2
  subst e2
  refine ⟨insert_present_eq x a1 o1 hx, ?_, ?_, height_mergeInto x t⟩
  · clear ht hx a1 o1
    induction t with
    | nil => rfl
    | node e l r h ihl ihr =>
      simp only [mergeInto, inorder, List.map_append, List.map_cons, ihl, ihr]
      split_ifs <;> rfl
  · clear ht hx a1 o1
    induction t with
    | nil => rfl
    | node e l r h ihl ihr => simp only [mergeInto, numberOfNodes, ihl, ihr]

theorem insert_present_witness :
    (∀ o ∈ [Op.insert (SequenceMap.mk2 2 "b"), Op.insert (SequenceMap.mk2 1 "a"),
        Op.insert (SequenceMap.mk2 3 "c")], Op.plain o = true) ∧
      HoldsKey (SequenceMap.mk2 3 "z").recognition_sequence_ (node (SequenceMap.mk2 2 "b") (node (SequenceMap.mk2 1 "a") nil nil 0)
        (node (SequenceMap.mk2 3 "c") nil nil 0) 1) ∧
      insert (SequenceMap.mk2 3 "z") (node (SequenceMap.mk2 2 "b") (node (SequenceMap.mk2 1 "a") nil nil 0)
        (node (SequenceMap.mk2 3 "c") nil nil 0) 1) =
        some (node (SequenceMap.mk2 2 "b") (node (SequenceMap.mk2 1 "a") nil nil 0)
          (node ⟨3, ["c", "z"]⟩ nil nil 0) 1) ∧
      insert (SequenceMap.mk2 3 "z") (node (SequenceMap.mk2 2 "b") (node (SequenceMap.mk2 1 "a") nil nil 0)
        (node (SequenceMap.mk2 3 "c") nil nil 0) 1) = some (mergeInto (SequenceMap.mk2 3 "z") (node (SequenceMap.mk2 2 "b") (node (SequenceMap.mk2 1 "a") nil nil 0)
        (node (SequenceMap.mk2 3 "c") nil nil 0) 1)) :=
  ⟨by decide, by decide, by decide,
    (insert_present [Op.insert (SequenceMap.mk2 2 "b"), Op.insert (SequenceMap.mk2 1 "a"),
      Op.insert (SequenceMap.mk2 3 "c")] (by decide) _ (by decide) _ (by decide)).1⟩

/-- C20. The insert of a key that is present does not return when its argument
is a reference into the tree: on the tree built by inserting B, A, C, the key A
is held, `findMin( )` returns the element of the left leaf A, and `insert` of
that reference reaches the leaf and runs `Merge` on the element itself, so that
for every fuel the call has not returned; the insert of a distinct object with
the same value returns the tree with the labels a, a at that leaf, as the claim
has it. -/
theorem insert_aliased_never_returns :
    applyOps [Op.insert (SequenceMap.mk2 "B" "b"), Op.insert (SequenceMap.mk2 "A" "a"),
        Op.insert (SequenceMap.mk2 "C" "c")] nil = some (node (SequenceMap.mk2 "B" "b") (node (SequenceMap.mk2 "A" "a") nil nil 0)
        (node (SequenceMap.mk2 "C" "c") nil nil 0) 1) ∧
      HoldsKey (SequenceMap.mk2 "A" "a").recognition_sequence_ (node (SequenceMap.mk2 "B" "b") (node (SequenceMap.mk2 "A" "a") nil nil 0)
        (node (SequenceMap.mk2 "C" "c") nil nil 0) 1) ∧
      findMinPublic (node (SequenceMap.mk2 "B" "b") (node (SequenceMap.mk2 "A" "a") nil nil 0)
        (node (SequenceMap.mk2 "C" "c") nil nil 0) 1) = Except.ok (some (SequenceMap.mk2 "A" "a")) ∧
      elementAt [false] (node (SequenceMap.mk2 "B" "b") (node (SequenceMap.mk2 "A" "a") nil nil 0)
        (node (SequenceMap.mk2 "C" "c") nil nil 0) 1) = some (SequenceMap.mk2 "A" "a") ∧
      (∀ fuel, insertRef fuel (SequenceMap.mk2 "A" "a") (some [false]) (node (SequenceMap.mk2 "B" "b") (node (SequenceMap.mk2 "A" "a") nil nil 0)
        (node (SequenceMap.mk2 "C" "c") nil nil 0) 1) = none) ∧
      (∀ fuel, insertRef fuel (SequenceMap.mk2 "A" "a") none (node (SequenceMap.mk2 "B" "b") (node (SequenceMap.mk2 "A" "a") nil nil 0)
        (node (SequenceMap.mk2 "C" "c") nil nil 0) 1) =
        some (some (node (SequenceMap.mk2 "B" "b")
          (node ⟨"A", ["a", "a"]⟩ nil nil 0)
          (node (SequenceMap.mk2 "C" "c") nil nil 0) 1))) :=
  insert_findMin_never_returns (SequenceMap.mk2 "A" "a") (SequenceMap.mk2 "B" "b")
    (SequenceMap.mk2 "C" "c")
    (by show "A" < "B"; rw [String.lt_iff_toList_lt]; decide)
    (by show "B" < "C"; rw [String.lt_iff_toList_lt]; decide)
    (by simp [SequenceMap.mk2_eq])

/-- C21. Insert of a new key adds exactly one entry in sorted position: on a
tree whose in-order traversal is strictly increasing by key (no cached height
being negative), the insert of an entry whose key no node holds is defined; the
in-order list afterwards is the previous list with the entry put between the
entries of smaller key and the entries of larger key, every previous entry
unchanged; it is again strictly increasing, and the number of nodes has
increased by exactly 1. -/
theorem insert_absent (t : AvlNode K) (ho : Ordered t) (hn : HeightsNonneg t)
    (x : SequenceMap K) (hx : ¬ HoldsKey x.recognition_sequence_ t) :
    ∃ t1, insert x t = some t1 ∧
      (∃ l r, inorder t = l ++ r ∧ inorder t1 = l ++ x :: r ∧
        (∀ a ∈ l, a.recognition_sequence_ < x.recognition_sequence_) ∧
        (∀ b ∈ r, x.recognition_sequence_ < b.recognition_sequence_)) ∧
      Ordered t1 ∧ numberOfNodes t1 = numberOfNodes t + 1 := by
  obtain ⟨t1, e1, -⟩ := insert_hnn x hn
  have e2 := insert_inorder x ho e1
  obtain ⟨l, r, p1, p2, p3, p4⟩ :=
    insList_split x ho fun a ha hk => hx ⟨a, ha, hk⟩
  refine ⟨t1, e1, ⟨l, r, p1, by rw [e2, p2], p3, p4⟩, insert_ordered x ho e1, ?_⟩
  rw [numberOfNodes_eq_length, numberOfNodes_eq_length, e2, p2, p1]
  simp only [List.length_append, List.length_cons]
  omega

theorem insert_absent_witness :
    Ordered (node (SequenceMap.mk2 4 "d") (node (SequenceMap.mk2 2 "b") nil nil 0)
        (node (SequenceMap.mk2 6 "f") nil (node (SequenceMap.mk2 7 "g") nil nil 0) 1) 2) ∧ HeightsNonneg (node (SequenceMap.mk2 4 "d") (node (SequenceMap.mk2 2 "b") nil nil 0)
        (node (SequenceMap.mk2 6 "f") nil (node (SequenceMap.mk2 7 "g") nil nil 0) 1) 2) ∧
      ¬ HoldsKey (SequenceMap.mk2 8 "h").recognition_sequence_ (node (SequenceMap.mk2 4 "d") (node (SequenceMap.mk2 2 "b") nil nil 0)
        (node (SequenceMap.mk2 6 "f") nil (node (SequenceMap.mk2 7 "g") nil nil 0) 1) 2) ∧
      insert (SequenceMap.mk2 8 "h") (node (SequenceMap.mk2 4 "d") (node (SequenceMap.mk2 2 "b") nil nil 0)
        (node (SequenceMap.mk2 6 "f") nil (node (SequenceMap.mk2 7 "g") nil nil 0) 1) 2) =
        some (node (SequenceMap.mk2 4 "d") (node (SequenceMap.mk2 2 "b") nil nil 0)
          (node (SequenceMap.mk2 7 "g") (node (SequenceMap.mk2 6 "f") nil nil 0)
            (node (SequenceMap.mk2 8 "h") nil nil 0) 1) 2) ∧
      ∃ t1, insert (SequenceMap.mk2 8 "h") (node (SequenceMap.mk2 4 "d") (node (SequenceMap.mk2 2 "b") nil nil 0)
        (node (SequenceMap.mk2 6 "f") nil (node (SequenceMap.mk2 7 "g") nil nil 0) 1) 2) = some t1 ∧
        (∃ l r, inorder (node (SequenceMap.mk2 4 "d") (node (SequenceMap.mk2 2 "b") nil nil 0)
        (node (SequenceMap.mk2 6 "f") nil (node (SequenceMap.mk2 7 "g") nil nil 0) 1) 2) = l ++ r ∧ inorder t1 = l ++ SequenceMap.mk2 8 "h" :: r ∧
          (∀ a ∈ l, a.recognition_sequence_ < (SequenceMap.mk2 8 "h").recognition_sequence_) ∧
          (∀ b ∈ r, (SequenceMap.mk2 8 "h").recognition_sequence_ < b.recognition_sequence_)) ∧
        Ordered t1 ∧ numberOfNodes t1 = numberOfNodes (node (SequenceMap.mk2 4 "d") (node (SequenceMap.mk2 2 "b") nil nil 0)
        (node (SequenceMap.mk2 6 "f") nil (node (SequenceMap.mk2 7 "g") nil nil 0) 1) 2) + 1 :=
  ⟨by decide, by decide, by decide, by decide,
    insert_absent _ (by decide) (by decide) _ (by decide)⟩

/-- C22, as stated, fails at the counter value `INT_MAX`: the key 6 is held at
depth 1 of an ordered tree, the claim gives the counter `INT_MAX + 1 + 1`
afterwards, and the `int` counter of `find` is left at -2147483647. -/
theorem find_counter_overflow :
    Ordered (node (SequenceMap.mk2 4 "d") (node (SequenceMap.mk2 2 "b") nil nil 0)
        (node (SequenceMap.mk2 6 "f") nil (node (SequenceMap.mk2 7 "g") nil nil 0) 1) 2) ∧
      nodeOfKey 6 (node (SequenceMap.mk2 4 "d") (node (SequenceMap.mk2 2 "b") nil nil 0)
        (node (SequenceMap.mk2 6 "f") nil (node (SequenceMap.mk2 7 "g") nil nil 0) 1) 2) = some (1, (node (SequenceMap.mk2 6 "f") nil (node (SequenceMap.mk2 7 "g") nil nil 0) 1)) ∧
      findPublicInt 6 (node (SequenceMap.mk2 4 "d") (node (SequenceMap.mk2 2 "b") nil nil 0)
        (node (SequenceMap.mk2 6 "f") nil (node (SequenceMap.mk2 7 "g") nil nil 0) 1) 2) INT_MAX = (1, -2147483647) ∧
      (findPublicInt 6 (node (SequenceMap.mk2 4 "d") (node (SequenceMap.mk2 2 "b") nil nil 0)
        (node (SequenceMap.mk2 6 "f") nil (node (SequenceMap.mk2 7 "g") nil nil 0) 1) 2) INT_MAX).2 ≠ INT_MAX + 1 + 1 := by
  refine ⟨by decide, by decide, by decide, by decide⟩

/-- C22, amended. Exact step count of the instrumented find: on a tree whose
in-order traversal is strictly increasing by key, for every key `k` and every
value `c` of the `int` counter, the public `find( k, counter )` returns 1 and
leaves the counter at `c + d + 1` when `k` is held by the node at depth `d`
(root depth 0), and returns 0 and leaves it at `c + p + 1` when no node holds
`k`, `p` being the number of nodes on the search path, provided that value does
not pass `INT_MAX`; the steps of a second call are added to those of the first,
under the same proviso. -/
theorem find_exact_steps_in_range (t : AvlNode K) (ho : Ordered t) (k : K) (c : Int)
    (hc : INT_MIN ≤ c) :
    (HoldsKey k t ↔ ∃ p, nodeOfKey k t = some p) ∧
      (∀ d s, nodeOfKey k t = some (d, s) → c + d + 1 ≤ INT_MAX →
        (∃ e l r h, s = node e l r h ∧ e.recognition_sequence_ = k) ∧
        findPublicInt k t c = (1, c + d + 1)) ∧
      (¬ HoldsKey k t → c + (searchPath k t).length + 1 ≤ INT_MAX →
        findPublicInt k t c = (0, c + (searchPath k t).length + 1)) ∧
      (∀ k2, c + (findPublic k t 0).2 + (findPublic k2 t 0).2 ≤ INT_MAX →
        (findPublicInt k2 t (findPublicInt k t c).2).2 =
          c + (findPublic k t 0).2 + (findPublic k2 t 0).2) := by
  obtain ⟨g1, g2⟩ := find_exact k ho c
  refine ⟨⟨nodeOfKey_some k, fun ⟨p, hp⟩ => holdsKey_of_nodeOfKey k hp⟩, ?_, ?_, ?_⟩
  · intro d s hp hr
    have e1 : findInt k t c = find k t c :=
      findInt_eq_find k t c hc (by rw [g1 d s hp]; exact hr)
    exact ⟨nodeOfKey_root k hp, by simp [findPublicInt, e1, g1 d s hp]⟩
  · intro hk hr
    have e0 := g2 (nodeOfKey_none k hk)
    have e1 : findInt k t c = find k t c :=
      findInt_eq_find k t c hc (by rw [e0]; exact hr)
    simp [findPublicInt, e1, e0]
  · intro k2 hr
    simp only [findPublic] at hr
    have s1 := (find_steps k t 0).1
    have s2 := (find_steps k2 t 0).1
    have a1 := find_counter k t c
    have e1 : findInt k t c = find k t c := findInt_eq_find k t c hc (by omega)
    have a2 := find_counter k2 t (find k t c).2
    have e2 : findInt k2 t (find k t c).2 = find k2 t (find k t c).2 :=
      findInt_eq_find k2 t _ (by omega) (by omega)
    simp only [findPublicInt, findPublic, e1, e2]
    omega

theorem find_exact_steps_in_range_witness :
    Ordered (node (SequenceMap.mk2 4 "d") (node (SequenceMap.mk2 2 "b") nil nil 0)
        (node (SequenceMap.mk2 6 "f") nil (node (SequenceMap.mk2 7 "g") nil nil 0) 1) 2) ∧ INT_MIN ≤ 10 ∧
      nodeOfKey 7 (node (SequenceMap.mk2 4 "d") (node (SequenceMap.mk2 2 "b") nil nil 0)
        (node (SequenceMap.mk2 6 "f") nil (node (SequenceMap.mk2 7 "g") nil nil 0) 1) 2) = some (2, node (SequenceMap.mk2 7 "g") nil nil 0) ∧
      findPublicInt 7 (node (SequenceMap.mk2 4 "d") (node (SequenceMap.mk2 2 "b") nil nil 0)
        (node (SequenceMap.mk2 6 "f") nil (node (SequenceMap.mk2 7 "g") nil nil 0) 1) 2) 10 = (1, 13) ∧
      ¬ HoldsKey 5 (node (SequenceMap.mk2 4 "d") (node (SequenceMap.mk2 2 "b") nil nil 0)
        (node (SequenceMap.mk2 6 "f") nil (node (SequenceMap.mk2 7 "g") nil nil 0) 1) 2) ∧ (searchPath 5 (node (SequenceMap.mk2 4 "d") (node (SequenceMap.mk2 2 "b") nil nil 0)
        (node (SequenceMap.mk2 6 "f") nil (node (SequenceMap.mk2 7 "g") nil nil 0) 1) 2)).length = 2 ∧
      findPublicInt 5 (node (SequenceMap.mk2 4 "d") (node (SequenceMap.mk2 2 "b") nil nil 0)
        (node (SequenceMap.mk2 6 "f") nil (node (SequenceMap.mk2 7 "g") nil nil 0) 1) 2) 10 = (0, 13) ∧
      (¬ HoldsKey 5 (node (SequenceMap.mk2 4 "d") (node (SequenceMap.mk2 2 "b") nil nil 0)
        (node (SequenceMap.mk2 6 "f") nil (node (SequenceMap.mk2 7 "g") nil nil 0) 1) 2) → (10 : Int) + (searchPath 5 (node (SequenceMap.mk2 4 "d") (node (SequenceMap.mk2 2 "b") nil nil 0)
        (node (SequenceMap.mk2 6 "f") nil (node (SequenceMap.mk2 7 "g") nil nil 0) 1) 2)).length + 1 ≤ INT_MAX →
        findPublicInt 5 (node (SequenceMap.mk2 4 "d") (node (SequenceMap.mk2 2 "b") nil nil 0)
        (node (SequenceMap.mk2 6 "f") nil (node (SequenceMap.mk2 7 "g") nil nil 0) 1) 2) 10 = (0, (10 : Int) + (searchPath 5 (node (SequenceMap.mk2 4 "d") (node (SequenceMap.mk2 2 "b") nil nil 0)
        (node (SequenceMap.mk2 6 "f") nil (node (SequenceMap.mk2 7 "g") nil nil 0) 1) 2)).length + 1)) :=
  ⟨by decide, by decide, by decide, by decide, by decide, by decide, by decide,
    (find_exact_steps_in_range (node (SequenceMap.mk2 4 "d") (node (SequenceMap.mk2 2 "b") nil nil 0)
        (node (SequenceMap.mk2 6 "f") nil (node (SequenceMap.mk2 7 "g") nil nil 0) 1) 2) (by decide) 5 10 (by decide)).2.2.1⟩

/-- C23, as stated, fails at the counter value `INT_MAX`: the key 6 is at a
node of depth 1 with one child in an ordered tree, the claim gives the counter
`INT_MAX + 1 + 1` afterwards, and the `int` counter of the instrumented remove
is left at -2147483647. -/
theorem removeCounted_counter_overflow :
    Ordered (node (SequenceMap.mk2 4 "d") (node (SequenceMap.mk2 2 "b") nil nil 0)
        (node (SequenceMap.mk2 6 "f") nil (node (SequenceMap.mk2 7 "g") nil nil 0) 1) 2) ∧
      nodeOfKey 6 (node (SequenceMap.mk2 4 "d") (node (SequenceMap.mk2 2 "b") nil nil 0)
        (node (SequenceMap.mk2 6 "f") nil (node (SequenceMap.mk2 7 "g") nil nil 0) 1) 2) = some (1, (node (SequenceMap.mk2 6 "f") nil (node (SequenceMap.mk2 7 "g") nil nil 0) 1)) ∧
      removeCountedPublicInt 6 (node (SequenceMap.mk2 4 "d") (node (SequenceMap.mk2 2 "b") nil nil 0)
        (node (SequenceMap.mk2 6 "f") nil (node (SequenceMap.mk2 7 "g") nil nil 0) 1) 2) INT_MAX =
        some (node (SequenceMap.mk2 4 "d") (node (SequenceMap.mk2 2 "b") nil nil 0)
          (node (SequenceMap.mk2 7 "g") nil nil 0) 2, 1, -2147483647) ∧
      (-2147483647 : Int) ≠ INT_MAX + 1 + 1 := by
  refine ⟨by decide, by decide, by decide, by decide⟩

/-- C23, amended. Exact step count of the instrumented remove: on a tree whose
in-order traversal is strictly increasing by key, for every key `k` and every
value `c` of the `int` counter, the public `remove( k, counter )` is defined and
leaves the counter at `c + p + 1` when no node holds `k` (`p` nodes on the
search path), at `c + d + 1` when `k` is at a node of depth `d` with at most one
child, and at `c + s + 1` when `k` is at a node of depth `d` with two children,
`s` being the depth `d + 1 + leftmostDepth r` of the leftmost node of its right
subtree `r`, provided that value does not pass `INT_MAX`. -/
theorem removeCounted_exact_steps_in_range (t : AvlNode K) (ho : Ordered t) (k : K) (c : Int)
    (hc : INT_MIN ≤ c) :
    ∃ t1 b c1, removeCountedPublicInt k t c = some (t1, b, c1) ∧
      (¬ HoldsKey k t → c + (searchPath k t).length + 1 ≤ INT_MAX →
        c1 = c + (searchPath k t).length + 1) ∧
      (∀ d e l r h, nodeOfKey k t = some (d, node e l r h) → (l = nil ∨ r = nil) →
        c + d + 1 ≤ INT_MAX → c1 = c + d + 1) ∧
      (∀ d e l r h, nodeOfKey k t = some (d, node e l r h) → l ≠ nil → r ≠ nil →
        c + (d + 1 + leftmostDepth r : Nat) + 1 ≤ INT_MAX →
        c1 = c + (d + 1 + leftmostDepth r : Nat) + 1) := by
  obtain ⟨p, e1, g1, g2, g3⟩ := removeCounted_exact k ho c
  obtain ⟨q, e2⟩ := removeCountedInt_total k t c
  have key : p.2.2 ≤ INT_MAX → q.2.2 = p.2.2 := by
    intro hr
    have e3 := removeCountedInt_eq k c hc e1 hr
    rw [e2, Option.some.injEq] at e3
    rw [e3]
  refine ⟨q.1, (if q.2.1 then 1 else 0), q.2.2, by simp [removeCountedPublicInt, e2],
    ?_, ?_, ?_⟩
  · intro hk hr
    have e4 := g1 (nodeOfKey_none k hk)
    rw [key (by rw [e4]; exact hr), e4]
  · intro d e l r h hp hch hr
    have e4 := g2 d e l r h hp hch
    rw [key (by rw [e4]; exact hr), e4]
  · intro d e l r h hp hl hrn hr
    have e4 := g3 d e l r h hp hl hrn
    rw [key (by rw [e4]; exact hr), e4]

theorem removeCounted_exact_steps_in_range_witness :
    Ordered (node (SequenceMap.mk2 4 "d") (node (SequenceMap.mk2 2 "b") nil nil 0)
        (node (SequenceMap.mk2 6 "f") nil (node (SequenceMap.mk2 7 "g") nil nil 0) 1) 2) ∧ INT_MIN ≤ 10 ∧
      nodeOfKey 4 (node (SequenceMap.mk2 4 "d") (node (SequenceMap.mk2 2 "b") nil nil 0)
        (node (SequenceMap.mk2 6 "f") nil (node (SequenceMap.mk2 7 "g") nil nil 0) 1) 2) = some (0, (node (SequenceMap.mk2 4 "d") (node (SequenceMap.mk2 2 "b") nil nil 0)
        (node (SequenceMap.mk2 6 "f") nil (node (SequenceMap.mk2 7 "g") nil nil 0) 1) 2)) ∧
      leftmostDepth (node (SequenceMap.mk2 6 "f") nil (node (SequenceMap.mk2 7 "g") nil nil 0) 1) = 0 ∧
      (removeCountedPublicInt 4 (node (SequenceMap.mk2 4 "d") (node (SequenceMap.mk2 2 "b") nil nil 0)
        (node (SequenceMap.mk2 6 "f") nil (node (SequenceMap.mk2 7 "g") nil nil 0) 1) 2) 10).map (fun p => p.2.2) = some 12 ∧
      (removeCountedPublicInt 7 (node (SequenceMap.mk2 4 "d") (node (SequenceMap.mk2 2 "b") nil nil 0)
        (node (SequenceMap.mk2 6 "f") nil (node (SequenceMap.mk2 7 "g") nil nil 0) 1) 2) 10).map (fun p => p.2.2) = some 13 ∧
      (removeCountedPublicInt 5 (node (SequenceMap.mk2 4 "d") (node (SequenceMap.mk2 2 "b") nil nil 0)
        (node (SequenceMap.mk2 6 "f") nil (node (SequenceMap.mk2 7 "g") nil nil 0) 1) 2) 10).map (fun p => p.2.2) = some 13 ∧
      ∃ t1 b c1, removeCountedPublicInt 4 (node (SequenceMap.mk2 4 "d") (node (SequenceMap.mk2 2 "b") nil nil 0)
        (node (SequenceMap.mk2 6 "f") nil (node (SequenceMap.mk2 7 "g") nil nil 0) 1) 2) 10 = some (t1, b, c1) ∧
        (¬ HoldsKey 4 (node (SequenceMap.mk2 4 "d") (node (SequenceMap.mk2 2 "b") nil nil 0)
        (node (SequenceMap.mk2 6 "f") nil (node (SequenceMap.mk2 7 "g") nil nil 0) 1) 2) → (10 : Int) + (searchPath 4 (node (SequenceMap.mk2 4 "d") (node (SequenceMap.mk2 2 "b") nil nil 0)
        (node (SequenceMap.mk2 6 "f") nil (node (SequenceMap.mk2 7 "g") nil nil 0) 1) 2)).length + 1 ≤ INT_MAX →
          c1 = 10 + (searchPath 4 (node (SequenceMap.mk2 4 "d") (node (SequenceMap.mk2 2 "b") nil nil 0)
        (node (SequenceMap.mk2 6 "f") nil (node (SequenceMap.mk2 7 "g") nil nil 0) 1) 2)).length + 1) ∧
        (∀ d e l r h, nodeOfKey 4 (node (SequenceMap.mk2 4 "d") (node (SequenceMap.mk2 2 "b") nil nil 0)
        (node (SequenceMap.mk2 6 "f") nil (node (SequenceMap.mk2 7 "g") nil nil 0) 1) 2) = some (d, node e l r h) → (l = nil ∨ r = nil) →
          (10 : Int) + d + 1 ≤ INT_MAX → c1 = 10 + d + 1) ∧
        (∀ d e l r h, nodeOfKey 4 (node (SequenceMap.mk2 4 "d") (node (SequenceMap.mk2 2 "b") nil nil 0)
        (node (SequenceMap.mk2 6 "f") nil (node (SequenceMap.mk2 7 "g") nil nil 0) 1) 2) = some (d, node e l r h) → l ≠ nil → r ≠ nil →
          (10 : Int) + (d + 1 + leftmostDepth r : Nat) + 1 ≤ INT_MAX →
          c1 = 10 + (d + 1 + leftmostDepth r : Nat) + 1) :=
  ⟨by decide, by decide, by decide, by decide, by decide, by decide, by decide,
    removeCounted_exact_steps_in_range (node (SequenceMap.mk2 4 "d") (node (SequenceMap.mk2 2 "b") nil nil 0)
        (node (SequenceMap.mk2 6 "f") nil (node (SequenceMap.mk2 7 "g") nil nil 0) 1) 2) (by decide) 4 10 (by decide)⟩

/-- C24. Rebalancing never touches an absent child, even with stale heights:
every finite sequence of insert, plain remove and instrumented remove calls on
the empty tree is defined and ends in a tree without a negative cached height,
on which every insert and every plain remove is defined; and at a node whose
subtrees have no negative cached height, when `balance` chooses a single
rotation the child it promotes exists, when it chooses a double rotation the
child and the grandchild it promotes exist, and `balance` is defined. -/
theorem rebalancing_total (ops : List (Op K)) :
    (∃ t, applyOps ops nil = some t ∧ HeightsNonneg t ∧
      (∀ x, ∃ t1, insert x t = some t1) ∧ (∀ x, ∃ t1, remove x t = some t1)) ∧
      ∀ (e : SequenceMap K) (l r : AvlNode K) (h : Int), HeightsNonneg l → HeightsNonneg r →
        (height l - height r > ALLOWED_IMBALANCE →
          ∃ el ll lr hl, l = node el ll lr hl ∧
            (height ll ≥ height lr →
              ∃ t1, rotateWithLeftChild (node e l r h) = some t1) ∧
            (¬ height ll ≥ height lr →
              lr ≠ nil ∧ ∃ t1, doubleWithLeftChild (node e l r h) = some t1)) ∧
        (height r - height l > ALLOWED_IMBALANCE →
          ∃ er rl rr hr, r = node er rl rr hr ∧
            (height rr ≥ height rl →
              ∃ t1, rotateWithRightChild (node e l r h) = some t1) ∧
            (¬ height rr ≥ height rl →
              rl ≠ nil ∧ ∃ t1, doubleWithRightChild (node e l r h) = some t1)) ∧
        ∃ t1, balance (node e l r h) = some t1 := by
  refine ⟨?_, ?_⟩
  · obtain ⟨t, e1, a1, -⟩ := applyOps_ordered ops (t := nil) trivial List.Pairwise.nil
    refine ⟨t, e1, a1, fun x => ?_, fun x => ?_⟩
    · obtain ⟨t1, e2, -⟩ := insert_hnn x a1
      exact ⟨t1, e2⟩
    · obtain ⟨t1, e2, -⟩ := remove_hnn x a1
      exact ⟨t1, e2⟩
  · intro e l r h hl hr
    have gl := height_ge_of_hnn hl
    have gr := height_ge_of_hnn hr
    refine ⟨?_, ?_, ?_⟩
    · intro c1
      simp only [ALLOWED_IMBALANCE] at c1
      cases l with
      | nil => simp only [height_nil] at c1; omega
      | node el ll lr h1 =>
        refine ⟨el, ll, lr, h1, rfl, fun _ => ⟨_, rfl⟩, fun c3 => ?_⟩
        have g3 := height_ge_of_hnn hl.2.1
        cases lr with
        | nil => simp only [height_nil] at c3; omega
        | node em b c hm => exact ⟨by simp, _, rfl⟩
    · intro c1
      simp only [ALLOWED_IMBALANCE] at c1
      cases r with
      | nil => simp only [height_nil] at c1; omega
      | node er rl rr h1 =>
        refine ⟨er, rl, rr, h1, rfl, fun _ => ⟨_, rfl⟩, fun c3 => ?_⟩
        have g3 := height_ge_of_hnn hr.2.2
        cases rl with
        | nil => simp only [height_nil] at c3; omega
        | node em b c hm => exact ⟨by simp, _, rfl⟩
    · obtain ⟨t1, e1, -⟩ := balance_hnn (e := e) h hl hr
      exact ⟨t1, e1⟩

end Claims

end AvlTree
